import Mathlib

/-!
# Shortest paths on a digraph with interchangeable priority queues

A shallow embedding of `src/dijkstra/simpledijkstra.cpp` and the properties
proved about it.

Conventions of the embedding.

* `node_t` values are natural numbers; `cost_t` is a signed two's-complement
  integer with `bits` value bits (its width is fixed in `common/dimacs.h`, so
  `bits` is a parameter everywhere).  Arithmetic on `cost_t` goes through
  `wrap`.
* An operation whose behaviour the language leaves undefined (an index outside
  a vector, reading through a handle that was never assigned) yields a `Fault`.
* The handle-based queue of `shortest_path` (a mutable heap of the Boost
  library) is an arena of slots; a handle is the index of a slot.  A slot keeps
  its last key after `pop`, which is what the reads of lines 155 and 184 rely
  on.  Which of several largest entries `top` returns is left to a `TopRule`.
-/

namespace Dijkstra

/-! ## Machine integers -/

/-- The constant `integer_traits<cost_t>::const_max`. -/
def Inf (bits : Nat) : Int := 2 ^ bits - 1

/-- Reduction of an integer into the range `[-2^bits, 2^bits)` of `cost_t`. -/
def wrap (bits : Nat) (x : Int) : Int :=
  (x + 2 ^ bits) % 2 ^ (bits + 1) - 2 ^ bits

/-- Unary minus on `cost_t`. -/
def cneg (bits : Nat) (x : Int) : Int := wrap bits (-x)

/-- Addition on `cost_t`. -/
def cadd (bits : Nat) (x y : Int) : Int := wrap bits (x + y)

/-! ## Data model (lines 30-78) -/

/-- The struct `ValueKey`: a key `d` and the node `u` it belongs to. -/
structure ValueKey where
  d : Int
  u : Nat
deriving DecidableEq, Repr

/-- The enum `Label`. -/
inductive Label where
  | UNREACHED
  | LABELED
  | CLOSED
deriving DecidableEq, Repr

/-- The class `Arc`: target node `w` and cost `c`. -/
structure Arc where
  w : Nat
  c : Int
deriving DecidableEq, Repr

/-- The class `Digraph`: its three data members. -/
structure Digraph where
  n_nodes : Nat
  m_edges : Int
  adjacency_list : List (List Arc)
deriving DecidableEq, Repr

/-- How a call can fail to return normally.  Undefined behaviour of the source,
for which the program raises no error of its own: an index outside a vector
(`undefinedIndex`), a read through a handle that was never assigned
(`nullHandle`), `top` on an empty queue (`emptyQueue`), an integer division by
zero (`divByZero`), a value that does not fit the type `int` it is computed or
stored in (`intOverflow`).  Aborts: the `assert` of the constructor
(`assertFailed`), a `reserve` beyond `max_size` (`lengthError`).  And
`outOfFuel`: the iteration budget of the embedding ran out. -/
inductive Fault where
  | undefinedIndex
  | nullHandle
  | emptyQueue
  | assertFailed
  | lengthError
  | divByZero
  | intOverflow
  | outOfFuel
deriving DecidableEq, Repr

/-- The largest value of the type `int`, taken to have 32 bits; the smallest is
`-INT_MAX - 1`. -/
def INT_MAX : Int := 2147483647

/-- The constructor `Digraph(_n, _m)` (lines 82-95).  The `assert` is taken as
compiled in.  `reserve` takes an unsigned size, so a negative argument is a
request beyond `max_size`; apart from that `reserve` has no visible effect.  The
division truncates towards zero.  `avg_degree` (line 88) and the loop counter `i`
(line 90) are of type `int`: a value of `m_edges / n_nodes + 1` outside `int`, and
a node count that `i` cannot reach, are faults.  Storage is taken to be
available: the embedding has no bound on the memory that `reserve` and
`push_back` can obtain. -/
def Digraph.construct (bits : Nat) (_n _m : Int) : Except Fault Digraph :=
  if _n < Inf bits ∧ _m < Inf bits then
    if _n < 0 then .error .lengthError
    else if _n = 0 then .error .divByZero
    else
      let avg_degree := Int.tdiv _m _n + 1
      if avg_degree < -INT_MAX - 1 ∨ INT_MAX < avg_degree then .error .intOverflow
      else if avg_degree < 0 then .error .lengthError
      else if INT_MAX < _n then .error .intOverflow
      else .ok { n_nodes := _n.toNat, m_edges := _m,
                 adjacency_list := List.replicate _n.toNat [] }
  else .error .assertFailed

/-- `Digraph::addArc` (lines 102-105): `adjacency_list[source_node].push_back(Arc(target_node, cost))`.
There is no check on either node; indexing outside the vector is undefined. -/
def Digraph.addArc (g : Digraph) (source_node target_node : Nat) (cost : Int) :
    Except Fault Digraph :=
  match g.adjacency_list[source_node]? with
  | none => .error .undefinedIndex
  | some arcs =>
    .ok { g with adjacency_list := g.adjacency_list.set source_node (arcs ++ [Arc.mk target_node cost]) }

/-- A sequence of `addArc(source, target, cost)` calls, in order. -/
def Digraph.addArcs (g : Digraph) : List (Nat × Nat × Int) → Except Fault Digraph
  | [] => .ok g
  | (source_node, target_node, cost) :: rest =>
    match g.addArc source_node target_node cost with
    | .error e => .error e
    | .ok g1 => g1.addArcs rest

/-- The graph of the first scenario: `Digraph(4, m)` followed by
`addArc(0,1,4)`, `addArc(0,2,1)`, `addArc(2,1,2)`, `addArc(1,3,1)`, `addArc(2,3,5)`. -/
def exampleGraph (bits : Nat) (m : Int) : Except Fault Digraph :=
  match Digraph.construct bits 4 m with
  | .error e => .error e
  | .ok g => g.addArcs [(0, 1, 4), (0, 2, 1), (2, 1, 2), (1, 3, 1), (2, 3, 5)]

/-- The graph of the second scenario: `Digraph(2, m)` followed by two `addArc`
calls for parallel arcs `0 → 1` of costs `a` and `b`, in that order. -/
def parallelGraph (bits : Nat) (m : Int) (a b : Int) : Except Fault Digraph :=
  match Digraph.construct bits 2 m with
  | .error e => .error e
  | .ok g => g.addArcs [(0, 1, a), (0, 1, b)]

/-- The four-node graph of the first scenario, written out. -/
def scenarioGraph : Digraph :=
  Digraph.mk 4 5 [[Arc.mk 1 4, Arc.mk 2 1], [Arc.mk 3 1], [Arc.mk 1 2, Arc.mk 3 5], []]

/-- A path `0 → 1 → 2` with unit costs. -/
def pathGraph : Digraph := Digraph.mk 3 2 [[Arc.mk 1 1], [Arc.mk 2 1], []]

/-- A path `0 → 1 → 2` whose two costs are the largest value of `cost_t`
(2147483647 for a 32-bit `cost_t`, that is `bits = 31`). -/
def heavyPathGraph (bits : Nat) : Digraph :=
  Digraph.mk 3 2 [[Arc.mk 1 (Inf bits)], [Arc.mk 2 (Inf bits)], []]

/-- Two nodes and no arc. -/
def twoIsolatedNodes : Digraph := Digraph.mk 2 0 [[], []]

/-! ## The handle-based priority queue -/

/-- One entry of the arena: the stored key and whether it is still queued. -/
structure Slot where
  key : ValueKey
  live : Bool
deriving DecidableEq, Repr

/-- The queue `PriorityQueue` of `shortest_path`: every entry ever pushed, in
push order.  The handle of an entry is its position. -/
abbrev PriorityQueue := List Slot

/-- `PriorityQueue::empty`. -/
def PriorityQueue.empty (q : PriorityQueue) : Bool := q.all (fun s => !s.live)

/-- `PriorityQueue::push`: the new queue and the handle of the new entry. -/
def PriorityQueue.push (q : PriorityQueue) (k : ValueKey) : PriorityQueue × Nat :=
  (q ++ [Slot.mk k true], q.length)

/-- `PriorityQueue::pop` of the entry that `top` chose.  The slot stays in the
arena, no longer queued, and still holds its key: the source reads it through
the node's handle right after the pop (line 155) and on return (line 184). -/
def PriorityQueue.pop (q : PriorityQueue) (h : Nat) : PriorityQueue :=
  match q[h]? with
  | none => q
  | some s => q.set h { s with live := false }

/-- `PriorityQueue::increase(handle, key)`: overwrite the key in place. -/
def PriorityQueue.increase (q : PriorityQueue) (h : Nat) (k : ValueKey) : PriorityQueue :=
  match q[h]? with
  | none => q
  | some s => q.set h { s with key := k }

/-- The choice `top` makes.  The queue is ordered by `ValueKey::operator<`, which
compares `d` only, and `top` returns an entry that no queued entry exceeds;
nothing more is fixed. -/
structure TopRule where
  top : PriorityQueue → Nat
  top_spec : ∀ q : PriorityQueue, q.empty = false →
    ∃ s, q[top q]? = some s ∧ s.live = true ∧
      ∀ s', s' ∈ q → s'.live = true → s'.key.d ≤ s.key.d

/-- The best entry seen so far, after looking at entry `s` at position `i`: a
queued entry replaces the current best when its key is strictly larger. -/
def scanStep (i : Nat) (s : Slot) (best : Option (Nat × Int)) : Option (Nat × Int) :=
  if s.live then
    match best with
    | none => some (i, s.key.d)
    | some (j, d) => if d < s.key.d then some (i, s.key.d) else some (j, d)
  else best

/-- Scan for the first queued entry with the largest key. -/
def firstMaxAux : List Slot → Nat → Option (Nat × Int) → Option (Nat × Int)
  | [], _, best => best
  | s :: rest, i, best => firstMaxAux rest (i + 1) (scanStep i s best)

/-- Position of the first queued entry with the largest key (0 when none is queued). -/
def firstMax (q : PriorityQueue) : Nat :=
  match firstMaxAux q 0 none with
  | some (i, _) => i
  | none => 0

/-- What the scan has established about the entries seen so far. -/
def ScanGood (pre : List Slot) : Option (Nat × Int) → Prop
  | none => ∀ s, s ∈ pre → s.live = false
  | some (j, d) => ∃ s, pre[j]? = some s ∧ s.live = true ∧ s.key.d = d ∧
      ∀ s', s' ∈ pre → s'.live = true → s'.key.d ≤ d

/-- The rule that returns the first of the largest queued entries, with the
proof that it is a legitimate choice for `top`. -/
def firstMaxRule : TopRule where
  top := firstMax
  top_spec := by
    have mono : ∀ (pre : List Slot) (j : Nat) (t s : Slot), pre[j]? = some t →
        (pre ++ [s])[j]? = some t := by
      intro pre j t s ht
      have hj : j < pre.length := by
        by_contra hc
        rw [List.getElem?_eq_none (by omega)] at ht
        cases ht
      rw [List.getElem?_append_left hj]; exact ht
    have step : ∀ (pre : List Slot) (s : Slot) (best : Option (Nat × Int)),
        ScanGood pre best → ScanGood (pre ++ [s]) (scanStep pre.length s best) := by
      intro pre s best h
      unfold scanStep
      rcases best with _ | ⟨j, d⟩
      · by_cases hl : s.live = true
        · rw [if_pos hl]
          refine ⟨s, by simp, hl, rfl, ?_⟩
          intro s' hs' hlive
          rcases List.mem_append.1 hs' with hm | hm
          · have := h s' hm; simp [this] at hlive
          · simp at hm; subst hm; exact le_refl _
        · rw [if_neg hl]
          have hl' : s.live = false := by simpa using hl
          intro s' hs'
          rcases List.mem_append.1 hs' with hm | hm
          · exact h s' hm
          · simp at hm; subst hm; exact hl'
      · obtain ⟨t, ht, htl, htd, hmax⟩ := h
        by_cases hl : s.live = true
        · rw [if_pos hl]
          by_cases hd : d < s.key.d
          · simp only [hd, if_true]
            refine ⟨s, by simp, hl, rfl, ?_⟩
            intro s' hs' hlive
            rcases List.mem_append.1 hs' with hm | hm
            · have := hmax s' hm hlive; omega
            · simp at hm; subst hm; exact le_refl _
          · simp only [hd, if_false]
            refine ⟨t, mono pre j t s ht, htl, htd, ?_⟩
            intro s' hs' hlive
            rcases List.mem_append.1 hs' with hm | hm
            · exact hmax s' hm hlive
            · simp at hm; subst hm; omega
        · rw [if_neg hl]
          have hl' : s.live = false := by simpa using hl
          refine ⟨t, mono pre j t s ht, htl, htd, ?_⟩
          intro s' hs' hlive
          rcases List.mem_append.1 hs' with hm | hm
          · exact hmax s' hm hlive
          · simp at hm; subst hm; simp [hl'] at hlive
    have good : ∀ (l pre : List Slot) (best : Option (Nat × Int)),
        ScanGood pre best → ScanGood (pre ++ l) (firstMaxAux l pre.length best) := by
      intro l
      induction l with
      | nil => intro pre best h; simpa [firstMaxAux] using h
      | cons s rest ih =>
        intro pre best h
        have := ih (pre ++ [s]) _ (step pre s best h)
        simpa [firstMaxAux, List.append_assoc] using this
    intro q hq
    have h := good q [] none (by intro s hs; cases hs)
    simp only [List.nil_append, List.length_nil] at h
    unfold firstMax
    match hb : firstMaxAux q 0 none, h with
    | none, h =>
      exfalso
      have : q.empty = true := by
        unfold PriorityQueue.empty
        rw [List.all_eq_true]
        intro s hs
        simp [h s hs]
      rw [this] at hq; cases hq
    | some (j, d), ⟨t, ht, htl, htd, hmax⟩ =>
      exact ⟨t, ht, htl, fun s' hs' hl => htd ▸ hmax s' hs' hl⟩

/-! ## `shortest_path` (lines 137-185) -/

/-- The local variables of `shortest_path`, the caller's vector `previous`, and a
record of the popped keys in pop order (`trace` is observation only: nothing
reads it). -/
structure State where
  digraph_priority_queue : PriorityQueue
  distance_from_source : List (Option Nat)
  node_status : List Label
  previous : List Nat
  trace : List ValueKey
deriving DecidableEq, Repr

/-- The handle `distance_from_source[v]`; a default-constructed handle is null. -/
def State.handleOf (st : State) (v : Nat) : Except Fault Nat :=
  match st.distance_from_source[v]? with
  | none => .error .undefinedIndex
  | some none => .error .nullHandle
  | some (some h) => .ok h

/-- The key `*h` behind a handle. -/
def State.keyAt (st : State) (h : Nat) : Except Fault ValueKey :=
  match st.digraph_priority_queue[h]? with
  | none => .error .nullHandle
  | some s => .ok s.key

/-- The expression `*distance_from_source[v]`. -/
def State.deref (st : State) (v : Nat) : Except Fault ValueKey :=
  match st.handleOf v with
  | .error e => .error e
  | .ok h => st.keyAt h

/-- Body of the `for` loop over the arcs of `current_node` (lines 162-180). -/
def relax_arc (bits : Nat) (current_node : Nat) (Du : Int) (st : State) (arc : Arc) :
    Except Fault State :=
  let target_node := arc.w
  match st.node_status[target_node]? with
  | none => .error .undefinedIndex
  | some status =>
    if status ≠ Label.CLOSED then
      let Duv := arc.c
      let Dv := cadd bits Du Duv
      if status = Label.UNREACHED then
        if target_node < st.previous.length then
          let r := st.digraph_priority_queue.push (ValueKey.mk (cneg bits Dv) target_node)
          .ok { st with
                previous := st.previous.set target_node current_node
                node_status := st.node_status.set target_node Label.LABELED
                distance_from_source := st.distance_from_source.set target_node (some r.2)
                digraph_priority_queue := r.1 }
        else .error .undefinedIndex
      else
        match st.handleOf target_node with
        | .error e => .error e
        | .ok h =>
          match st.keyAt h with
          | .error e => .error e
          | .ok k =>
            if cneg bits k.d > Dv then
              if target_node < st.previous.length then
                .ok { st with
                      previous := st.previous.set target_node current_node
                      digraph_priority_queue :=
                        st.digraph_priority_queue.increase h (ValueKey.mk (cneg bits Dv) target_node) }
              else .error .undefinedIndex
            else .ok st
    else .ok st

/-- The `for` loop of lines 160-181 over an arc list. -/
def relax_arcs (bits : Nat) (current_node : Nat) (Du : Int) :
    State → List Arc → Except Fault State
  | st, [] => .ok st
  | st, arc :: rest =>
    match relax_arc bits current_node Du st arc with
    | .error e => .error e
    | .ok st1 => relax_arcs bits current_node Du st1 rest

/-- Lines 151-155: take the top entry, pop it, close its node and read the
node's distance through its handle.  Returns the new state, `current_node`
and `Du`. -/
def pop_close (R : TopRule) (bits : Nat) (st : State) : Except Fault (State × Nat × Int) :=
  let h := R.top st.digraph_priority_queue
  match st.digraph_priority_queue[h]? with
  | none => .error .emptyQueue
  | some slot =>
    let p := slot.key
    let current_node := p.u
    if current_node < st.node_status.length then
      let st1 : State :=
        { st with
          digraph_priority_queue := st.digraph_priority_queue.pop h
          node_status := st.node_status.set current_node Label.CLOSED
          trace := st.trace ++ [p] }
      match st1.deref current_node with
      | .error e => .error e
      | .ok k => .ok (st1, current_node, cneg bits k.d)
    else .error .undefinedIndex

/-- The `while` loop of lines 149-182; `fuel` bounds the number of iterations. -/
def loop (R : TopRule) (bits : Nat) (g : Digraph) (end_node : Nat) :
    Nat → State → Except Fault State
  | 0, st => if st.digraph_priority_queue.empty then .ok st else .error .outOfFuel
  | fuel + 1, st =>
    if st.digraph_priority_queue.empty then .ok st
    else
      match pop_close R bits st with
      | .error e => .error e
      | .ok (st1, current_node, Du) =>
        if current_node = end_node then .ok st1
        else
          match g.adjacency_list[current_node]? with
          | none => .error .undefinedIndex
          | some arcs =>
            match relax_arcs bits current_node Du st1 arcs with
            | .error e => .error e
            | .ok st2 => loop R bits g end_node fuel st2

/-- Lines 142-147: the locals after the push of the start node. -/
def init_state (g : Digraph) (start_node : Nat) (previous : List Nat) : Except Fault State :=
  if start_node < g.n_nodes then
    let r := PriorityQueue.push [] (ValueKey.mk 0 start_node)
    .ok { digraph_priority_queue := r.1
          distance_from_source := (List.replicate g.n_nodes none).set start_node (some r.2)
          node_status := List.replicate g.n_nodes Label.UNREACHED
          previous := previous
          trace := [] }
  else .error .undefinedIndex

/-- Lines 142-182: the state in which the `while` loop is left. -/
def run (R : TopRule) (bits : Nat) (g : Digraph) (start_node end_node : Nat)
    (previous : List Nat) (fuel : Nat) : Except Fault State :=
  match init_state g start_node previous with
  | .error e => .error e
  | .ok st0 => loop R bits g end_node fuel st0

/-- The distance the final state records for `v`: `-(*distance_from_source[v]).d`. -/
def State.distance (bits : Nat) (st : State) (v : Nat) : Except Fault Int :=
  match st.deref v with
  | .error e => .error e
  | .ok k => .ok (cneg bits k.d)

/-- `Digraph::shortest_path<PriorityQueue>`: the returned cost and the vector
`previous` as the call leaves it. -/
def shortest_path (R : TopRule) (bits : Nat) (g : Digraph) (start_node end_node : Nat)
    (previous : List Nat) (fuel : Nat) : Except Fault (Int × List Nat) :=
  match run R bits g start_node end_node previous fuel with
  | .error e => .error e
  | .ok st =>
    match st.distance bits end_node with
    | .error e => .error e
    | .ok cost => .ok (cost, st.previous)

/-! ## `shortest_path_for_dummies` (lines 187-233) -/

/-- Modelled from the spec: the class template `DumbQueue` of
`common/dumbqueue.h`, which is not among the sources.  The spec describes it as
the linear-scan queue: an unordered collection of keys; `push` adds a key (the
caller records the key it handed in), `top` and `pop` find by a linear scan the
entry the order of the keys puts first, and the key update is a fresh `push` of
the improved key that leaves the old entry in the queue. -/
abbrev DumbQueue := List ValueKey

/-- Modelled from the spec: the linear scan of `DumbQueue::top` and
`DumbQueue::pop`, which yields the position and key of the first entry that no
entry exceeds under `ValueKey::operator<`. -/
def dumbScan : List ValueKey → Nat → Option (Nat × ValueKey) → Option (Nat × ValueKey)
  | [], _, best => best
  | k :: rest, i, none => dumbScan rest (i + 1) (some (i, k))
  | k :: rest, i, some (j, b) =>
    dumbScan rest (i + 1) (if b.d < k.d then some (i, k) else some (j, b))

/-- Modelled from the spec: `DumbQueue::empty`. -/
def DumbQueue.empty (q : DumbQueue) : Bool := q.isEmpty

/-- Modelled from the spec: `DumbQueue::push`; the second component is what the
call evaluates to, the key itself. -/
def DumbQueue.push (q : DumbQueue) (k : ValueKey) : DumbQueue × ValueKey := (q ++ [k], k)

/-- Modelled from the spec: `DumbQueue::top`. -/
def DumbQueue.top (q : DumbQueue) : Option ValueKey := (dumbScan q 0 none).map (fun r => r.2)

/-- Modelled from the spec: `DumbQueue::pop`. -/
def DumbQueue.pop (q : DumbQueue) : DumbQueue :=
  match dumbScan q 0 none with
  | none => q
  | some (i, _) => q.eraseIdx i

/-- Modelled from the spec: `DumbQueue::increase(old, key)`, a fresh push of the
improved key; the superseded entry stays. -/
def DumbQueue.increase (q : DumbQueue) (_old : ValueKey) (k : ValueKey) : DumbQueue := q ++ [k]

/-- The local variables of `shortest_path_for_dummies` and the caller's vector
`previous`. -/
structure DummyState where
  digraph_priority_queue : DumbQueue
  distance_from_source : List ValueKey
  node_status : List Label
  previous : List Nat
deriving DecidableEq, Repr

/-- Body of the `for` loop of `shortest_path_for_dummies` (lines 210-228). -/
def relax_arc_for_dummies (bits : Nat) (current_node : Nat) (Du : Int) (st : DummyState)
    (arc : Arc) : Except Fault DummyState :=
  let target_node := arc.w
  match st.node_status[target_node]? with
  | none => .error .undefinedIndex
  | some status =>
    if status ≠ Label.CLOSED then
      let Duv := arc.c
      let Dv := cadd bits Du Duv
      if status = Label.UNREACHED then
        if target_node < st.previous.length then
          let r := st.digraph_priority_queue.push (ValueKey.mk (cneg bits Dv) target_node)
          .ok { st with
                previous := st.previous.set target_node current_node
                node_status := st.node_status.set target_node Label.LABELED
                distance_from_source := st.distance_from_source.set target_node r.2
                digraph_priority_queue := r.1 }
        else .error .undefinedIndex
      else
        match st.distance_from_source[target_node]? with
        | none => .error .undefinedIndex
        | some k =>
          if cneg bits k.d > Dv then
            if target_node < st.previous.length then
              .ok { st with
                    previous := st.previous.set target_node current_node
                    digraph_priority_queue :=
                      st.digraph_priority_queue.increase k (ValueKey.mk (cneg bits Dv) target_node) }
            else .error .undefinedIndex
          else .ok st
    else .ok st

/-- The `for` loop of lines 208-229 over an arc list. -/
def relax_arcs_for_dummies (bits : Nat) (current_node : Nat) (Du : Int) :
    DummyState → List Arc → Except Fault DummyState
  | st, [] => .ok st
  | st, arc :: rest =>
    match relax_arc_for_dummies bits current_node Du st arc with
    | .error e => .error e
    | .ok st1 => relax_arcs_for_dummies bits current_node Du st1 rest

/-- The `while` loop of lines 197-230; `fuel` bounds the number of iterations. -/
def loop_for_dummies (bits : Nat) (g : Digraph) (end_node : Nat) :
    Nat → DummyState → Except Fault DummyState
  | 0, st => if st.digraph_priority_queue.empty then .ok st else .error .outOfFuel
  | fuel + 1, st =>
    if st.digraph_priority_queue.empty then .ok st
    else
      match st.digraph_priority_queue.top with
      | none => .error .emptyQueue
      | some p =>
        let current_node := p.u
        if current_node < st.node_status.length then
          let st1 : DummyState :=
            { st with
              digraph_priority_queue := st.digraph_priority_queue.pop
              node_status := st.node_status.set current_node Label.CLOSED }
          match st1.distance_from_source[current_node]? with
          | none => .error .undefinedIndex
          | some k =>
            let Du := cneg bits k.d
            if current_node = end_node then .ok st1
            else
              match g.adjacency_list[current_node]? with
              | none => .error .undefinedIndex
              | some arcs =>
                match relax_arcs_for_dummies bits current_node Du st1 arcs with
                | .error e => .error e
                | .ok st2 => loop_for_dummies bits g end_node fuel st2
        else .error .undefinedIndex

/-- `Digraph::shortest_path_for_dummies<CustomQueue>` with the linear-scan queue:
the returned cost and the vector `previous` as the call leaves it. -/
def shortest_path_for_dummies (bits : Nat) (g : Digraph) (start_node end_node : Nat)
    (previous : List Nat) (fuel : Nat) : Except Fault (Int × List Nat) :=
  if start_node < g.n_nodes then
    let r := DumbQueue.push [] (ValueKey.mk 0 start_node)
    let st0 : DummyState :=
      { digraph_priority_queue := r.1
        distance_from_source :=
          (List.replicate g.n_nodes (ValueKey.mk (Inf bits) 0)).set start_node r.2
        node_status := List.replicate g.n_nodes Label.UNREACHED
        previous := previous }
    match loop_for_dummies bits g end_node fuel st0 with
    | .error e => .error e
    | .ok st =>
      match st.distance_from_source[end_node]? with
      | none => .error .undefinedIndex
      | some k => .ok (cneg bits k.d, st.previous)
  else .error .undefinedIndex

/-! ## Reading a state -/

/-- Status of node `v`; `UNREACHED` outside the vector. -/
def State.stat (st : State) (v : Nat) : Label := (st.node_status[v]?).getD Label.UNREACHED

/-- The stored key `(*distance_from_source[v]).d`; `0` when the read is undefined. -/
def State.rawd (st : State) (v : Nat) : Int :=
  match st.deref v with
  | .ok k => k.d
  | .error _ => 0

/-- The recorded distance `-(*distance_from_source[v]).d`; total version of `State.distance`. -/
def State.dist (bits : Nat) (st : State) (v : Nat) : Int := cneg bits (st.rawd v)

/-- The entry `previous[v]`; `0` outside the vector. -/
def State.prv (st : State) (v : Nat) : Nat := (st.previous[v]?).getD 0

/-- The arc list of node `x`; empty outside the adjacency list. -/
def Digraph.arcsOf (g : Digraph) (x : Nat) : List Arc := (g.adjacency_list[x]?).getD []

/-- Consistency of the locals of `shortest_path` after the start node has been
closed: sizes of the vectors, the correspondence between handles, queue entries
and node labels, and the record of popped nodes. -/
structure Wf (bits : Nat) (g : Digraph) (s : Nat) (st : State) : Prop where
  len_status : st.node_status.length = g.n_nodes
  len_dfs : st.distance_from_source.length = g.n_nodes
  len_prev : g.n_nodes ≤ st.previous.length
  slot_hnd : ∀ (h : Nat) (sl : Slot), st.digraph_priority_queue[h]? = some sl →
    st.distance_from_source[sl.key.u]? = some (some h)
  hnd_slot : ∀ v h : Nat, st.distance_from_source[v]? = some (some h) →
    ∃ sl : Slot, st.digraph_priority_queue[h]? = some sl ∧ sl.key.u = v
  slot_status : ∀ (h : Nat) (sl : Slot), st.digraph_priority_queue[h]? = some sl →
    st.node_status[sl.key.u]? = some (if sl.live then Label.LABELED else Label.CLOSED)
  null_unreached : ∀ v : Nat, st.distance_from_source[v]? = some none →
    st.node_status[v]? = some Label.UNREACHED
  key_range : ∀ (h : Nat) (sl : Slot), st.digraph_priority_queue[h]? = some sl → ∃ x, sl.key.d = wrap bits x
  start_closed : st.node_status[s]? = some Label.CLOSED
  trace_nodup : (st.trace.map (fun k => k.u)).Nodup
  trace_closed : ∀ v : Nat, v ∈ st.trace.map (fun k => k.u) ↔ st.node_status[v]? = some Label.CLOSED

/-- What one call of `relax_arc` for the arc `a` out of `u` does, seen through
the readers: nothing, or the target becomes `LABELED` with the candidate distance
`Du + a.c` and predecessor `u`. -/
def Relaxed (bits : Nat) (u : Nat) (Du : Int) (a : Arc) (st st' : State) : Prop :=
  st'.trace = st.trace ∧
  ((st' = st ∧ (st.stat a.w = Label.CLOSED ∨
      (st.stat a.w = Label.LABELED ∧ st.dist bits a.w ≤ cadd bits Du a.c))) ∨
   (st.stat a.w ≠ Label.CLOSED ∧
    (st.stat a.w = Label.UNREACHED ∨ cadd bits Du a.c < st.dist bits a.w) ∧
    (∀ x, st'.stat x = if x = a.w then Label.LABELED else st.stat x) ∧
    (∀ x, st'.rawd x = if x = a.w then cneg bits (cadd bits Du a.c) else st.rawd x) ∧
    (∀ x, st'.prv x = if x = a.w then u else st.prv x)))

/-- What `pop_close` does, seen through the readers: a `LABELED` node `u` whose
stored key no queued key exceeds becomes `CLOSED`. -/
def Popped (st st1 : State) (u : Nat) : Prop :=
  st.stat u = Label.LABELED ∧
  (∀ x, st.stat x = Label.LABELED → st.rawd x ≤ st.rawd u) ∧
  (∀ x, st1.stat x = if x = u then Label.CLOSED else st.stat x) ∧
  (∀ x, st1.rawd x = st.rawd x) ∧
  (∀ x, st1.prv x = st.prv x) ∧
  st1.trace = st.trace ++ [ValueKey.mk (st.rawd u) u]

/-- The locals once the first iteration has popped and closed the start node
(lines 147-155 executed once). -/
def closed_start (g : Digraph) (start_node : Nat) (previous : List Nat) : State :=
  { digraph_priority_queue := [Slot.mk (ValueKey.mk 0 start_node) false]
    distance_from_source := (List.replicate g.n_nodes none).set start_node (some 0)
    node_status := (List.replicate g.n_nodes Label.UNREACHED).set start_node Label.CLOSED
    previous := previous
    trace := [ValueKey.mk 0 start_node] }

/-! ## Graphs, paths and predecessor chains -/

/-- The adjacency list has one arc list per node, as the constructor leaves it
and `addArc` keeps it. -/
def Digraph.WellSized (g : Digraph) : Prop := g.adjacency_list.length = g.n_nodes

/-- Every arc points to a node of the graph. -/
def Digraph.TargetsInRange (g : Digraph) : Prop :=
  ∀ arcs, arcs ∈ g.adjacency_list → ∀ a, a ∈ arcs → a.w < g.n_nodes

/-- No arc has a negative cost. -/
def Digraph.NonNegative (g : Digraph) : Prop :=
  ∀ arcs, arcs ∈ g.adjacency_list → ∀ a, a ∈ arcs → 0 ≤ a.c

instance (g : Digraph) : Decidable g.WellSized := by
  unfold Digraph.WellSized; infer_instance

instance (g : Digraph) : Decidable g.TargetsInRange := by
  unfold Digraph.TargetsInRange; infer_instance

instance (g : Digraph) : Decidable g.NonNegative := by
  unfold Digraph.NonNegative; infer_instance

/-- Sum of the costs of the arcs leaving node `x`. -/
def Digraph.outCost (g : Digraph) (x : Nat) : Int := ((g.arcsOf x).map (fun a => a.c)).sum

/-- Sum of the costs of all arcs of the graph. -/
def Digraph.totalCost (g : Digraph) : Int :=
  (g.adjacency_list.map (fun arcs => (arcs.map (fun a => a.c)).sum)).sum

/-- `Walk g s v d`: there is a directed path from `s` to `v` (a sequence of arcs,
each starting where the previous one ends; possibly empty, nodes may repeat)
whose arc costs sum to `d`. -/
inductive Walk (g : Digraph) (s : Nat) : Nat → Int → Prop where
  | nil : Walk g s s 0
  | snoc {x : Nat} {d : Int} (a : Arc) : Walk g s x d → a ∈ g.arcsOf x → Walk g s a.w (d + a.c)

/-- `PrevChain g previous s v cs`: following `previous` from `v` reaches `s` after
`cs.length` steps, every step `previous[x] → x` being an arc of the graph whose
cost is the corresponding entry of `cs` (listed from `v` backwards). -/
def PrevChain (g : Digraph) (previous : List Nat) (s : Nat) : Nat → List Int → Prop
  | v, [] => v = s
  | v, c :: cs =>
    Arc.mk v c ∈ g.arcsOf ((previous[v]?).getD 0) ∧
      PrevChain g previous s ((previous[v]?).getD 0) cs

/-- Sum of the costs of the arcs that leave the nodes closed so far. -/
def closedCost (g : Digraph) (st : State) : Int :=
  ((List.range g.n_nodes).map
    (fun x => if st.stat x = Label.CLOSED then g.outCost x else 0)).sum

/-- `ClosedChain g st s v cs`: the predecessor chain from `v` back to `s` with arc
costs `cs` runs through closed nodes only. -/
def ClosedChain (g : Digraph) (st : State) (s : Nat) : Nat → List Int → Prop
  | v, [] => v = s
  | v, c :: cs =>
    st.stat (st.prv v) = Label.CLOSED ∧ Arc.mk v c ∈ g.arcsOf (st.prv v) ∧
      ClosedChain g st s (st.prv v) cs

/-- The facts about recorded distances that hold throughout the loop: every
labeled or closed node has a predecessor chain of that cost through closed nodes,
distances are bounded by the cost of the arcs leaving closed nodes, and the
distance of a closed node is a lower bound for every path to it. -/
structure CostInv (bits : Nat) (g : Digraph) (s : Nat) (st : State) : Prop where
  chain : ∀ v, st.stat v ≠ Label.UNREACHED →
    ∃ cs, ClosedChain g st s v cs ∧ cs.sum = st.dist bits v ∧
      cs.length + (if st.stat v = Label.CLOSED then 1 else 0) ≤ st.trace.length
  bound_labeled : ∀ v, st.stat v = Label.LABELED → st.dist bits v ≤ closedCost g st
  bound_closed : ∀ v, st.stat v = Label.CLOSED → st.dist bits v + g.outCost v ≤ closedCost g st
  optimal : ∀ v, st.stat v = Label.CLOSED → ∀ d, Walk g s v d → st.dist bits v ≤ d

/-- Every arc leaving the closed node `x` has been relaxed. -/
def RelaxedFrom (bits : Nat) (g : Digraph) (st : State) (x : Nat) : Prop :=
  ∀ a, a ∈ g.arcsOf x → st.stat a.w ≠ Label.UNREACHED ∧ st.dist bits a.w ≤ st.dist bits x + a.c

/-- Invariant at the head of the `while` loop. -/
def HeadInv (bits : Nat) (g : Digraph) (s : Nat) (st : State) : Prop :=
  CostInv bits g s st ∧ ∀ x, st.stat x = Label.CLOSED → RelaxedFrom bits g st x

/-- Invariant inside the `for` loop over the arcs of `u`, once the arcs `pre`
have been handled. -/
def MidInv (bits : Nat) (g : Digraph) (s : Nat) (u : Nat) (Du : Int) (pre : List Arc)
    (st : State) : Prop :=
  CostInv bits g s st ∧ st.stat u = Label.CLOSED ∧ st.dist bits u = Du ∧
  (∀ x, x ≠ u → st.stat x = Label.CLOSED → RelaxedFrom bits g st x) ∧
  (∀ a, a ∈ pre → st.stat a.w ≠ Label.UNREACHED ∧ st.dist bits a.w ≤ Du + a.c)

/-- What holds when the `while` loop is left. -/
def ExitInv (bits : Nat) (g : Digraph) (s t : Nat) (st : State) : Prop :=
  CostInv bits g s st ∧ ((∃ d, Walk g s t d) → st.stat t = Label.CLOSED)

/-! ## Invariants of the vector `previous` and of the sequence of popped entries -/

/-- The entries of `previous` of the start node and of every node still
`UNREACHED` are the ones the caller passed in. -/
def FrameInv (s : Nat) (prev : List Nat) (st : State) : Prop :=
  ∀ v, v = s ∨ st.stat v = Label.UNREACHED → st.prv v = (prev[v]?).getD 0

/-- The distances of the entries popped so far, in the order of the iterations:
the negation `-p.d`, in `cost_t`, of every popped key. -/
def State.poppedDistances (bits : Nat) (st : State) : List Int :=
  st.trace.map (fun p => cneg bits p.d)

/-- The popped distances never decrease, and none exceeds the distance of a
queued node. -/
def TraceInv (bits : Nat) (st : State) : Prop :=
  (st.poppedDistances bits).Pairwise (fun x y => x ≤ y) ∧
  ∀ d, d ∈ st.poppedDistances bits → ∀ y, st.stat y = Label.LABELED → d ≤ st.dist bits y

/-! ## The steps of a run -/

/-- One step of the loop of `shortest_path`: the head of an iteration (lines
151-155: `top`, `pop`, closing the popped node and reading its distance), or the
body of the `for` loop for one arc `a` out of a closed node `u`, with the
recorded distance of `u` for `Du` (lines 162-180). -/
inductive Step (R : TopRule) (bits : Nat) (g : Digraph) : State → State → Prop where
  | pop {st st1 : State} {u : Nat} {Du : Int} :
      st.digraph_priority_queue.empty = false →
      pop_close R bits st = .ok (st1, u, Du) → Step R bits g st st1
  | relax {st st' : State} {u : Nat} {a : Arc} :
      st.stat u = Label.CLOSED → a ∈ g.arcsOf u →
      relax_arc bits u (st.dist bits u) st a = .ok st' → Step R bits g st st'

/-- The states a run of `shortest_path` can pass through: the locals after the
push of the start node, and every state reached from them by steps of the loop. -/
def Visited (R : TopRule) (bits : Nat) (g : Digraph) (start_node : Nat) (previous : List Nat)
    (st : State) : Prop :=
  ∃ st0, init_state g start_node previous = .ok st0 ∧
    Relation.ReflTransGen (Step R bits g) st0 st

/-- The states that `relax_arcs` passes through, one after each arc, in order;
the list ends where `relax_arcs` ends. -/
def relax_arcs_states (bits : Nat) (current_node : Nat) (Du : Int) :
    State → List Arc → List State
  | _, [] => []
  | st, arc :: rest =>
    match relax_arc bits current_node Du st arc with
    | .error _ => []
    | .ok st' => st' :: relax_arcs_states bits current_node Du st' rest

/-- The states that `loop` passes through after its entry state, in order: the
state after the head of each iteration (lines 151-155), then the state after
each arc of the `for` loop. -/
def loop_states (R : TopRule) (bits : Nat) (g : Digraph) (end_node : Nat) :
    Nat → State → List State
  | 0, _ => []
  | fuel + 1, st =>
    if st.digraph_priority_queue.empty then []
    else
      match pop_close R bits st with
      | .error _ => []
      | .ok (st1, current_node, Du) =>
        if current_node = end_node then [st1]
        else
          match g.adjacency_list[current_node]? with
          | none => [st1]
          | some arcs =>
            st1 :: (relax_arcs_states bits current_node Du st1 arcs ++
              match relax_arcs bits current_node Du st1 arcs with
              | .error _ => []
              | .ok st2 => loop_states R bits g end_node fuel st2)

/-- The states that `run` passes through, in order, from the locals after the
push of the start node on. -/
def run_states (R : TopRule) (bits : Nat) (g : Digraph) (start_node end_node : Nat)
    (previous : List Nat) (fuel : Nat) : List State :=
  match init_state g start_node previous with
  | .error _ => []
  | .ok st0 => st0 :: loop_states R bits g end_node fuel st0

/-- Position of a label in the order `UNREACHED`, `LABELED`, `CLOSED`. -/
def Label.rank : Label → Nat
  | .UNREACHED => 0
  | .LABELED => 1
  | .CLOSED => 2

/-- Number of pushes of node `v` so far: the arena keeps one slot per push. -/
def State.pushes (st : State) (v : Nat) : Nat :=
  (st.digraph_priority_queue.map (fun sl => sl.key.u)).count v

/-- Between the state `st` and a later state `st'` no label moved backwards, and
every node `CLOSED` in `st` kept its label, its recorded distance, its entry of
`previous` and its number of pushes. -/
def Forward (bits : Nat) (st st' : State) : Prop :=
  ∀ v, (st.stat v).rank ≤ (st'.stat v).rank ∧
    (st.stat v = Label.CLOSED →
      st'.stat v = Label.CLOSED ∧ st'.distance bits v = st.distance bits v ∧
      st'.previous[v]? = st.previous[v]? ∧ st'.pushes v = st.pushes v)

/-- The queue against the labels: queued entries carry distinct nodes, every
`LABELED` node has exactly one queued entry, whose key is the negation (in
`cost_t`) of its recorded distance, and no queued entry carries a `CLOSED` node. -/
def QueueInv (bits : Nat) (st : State) : Prop :=
  (∀ (i j : Nat) (si sj : Slot), st.digraph_priority_queue[i]? = some si →
    st.digraph_priority_queue[j]? = some sj → si.live = true → sj.live = true →
    si.key.u = sj.key.u → i = j) ∧
  (∀ v, st.stat v = Label.LABELED →
    ∃ (h : Nat) (sl : Slot), st.digraph_priority_queue[h]? = some sl ∧ sl.live = true ∧
      sl.key.u = v ∧
      (∃ D, st.distance bits v = .ok D ∧ sl.key.d = cneg bits D) ∧
      ∀ (h' : Nat) (sl' : Slot), st.digraph_priority_queue[h']? = some sl' →
        sl'.live = true → sl'.key.u = v → h' = h) ∧
  (∀ (h : Nat) (sl : Slot), st.digraph_priority_queue[h]? = some sl → sl.live = true →
    st.stat sl.key.u ≠ Label.CLOSED)

/-! ## Simple paths behind the candidate distances -/

/-- Every arc cost lies between `0` and `C`. -/
def Digraph.CostsWithin (g : Digraph) (C : Int) : Prop :=
  ∀ arcs, arcs ∈ g.adjacency_list → ∀ a, a ∈ arcs → 0 ≤ a.c ∧ a.c ≤ C

instance (g : Digraph) (C : Int) : Decidable (g.CostsWithin C) := by
  unfold Digraph.CostsWithin; infer_instance

/-- `PathTo g s v ps cs`: there is a directed path from `s` to `v` whose nodes
before `v` are `ps`, listed from `v` backwards, and whose arc costs are `cs`, in
the same order.  The path is simple when `v :: ps` has no repetition. -/
def PathTo (g : Digraph) (s : Nat) : Nat → List Nat → List Int → Prop
  | v, [], [] => v = s
  | v, p :: ps, c :: cs => Arc.mk v c ∈ g.arcsOf p ∧ PathTo g s p ps cs
  | _, _, _ => False

/-- `ClosedPath g st s v ps cs`: the predecessor chain from `v` back to `s` passes
the nodes `ps`, all closed, along arcs of costs `cs`. -/
def ClosedPath (g : Digraph) (st : State) (s : Nat) : Nat → List Nat → List Int → Prop
  | v, [], [] => v = s
  | v, p :: ps, c :: cs =>
    st.prv v = p ∧ st.stat p = Label.CLOSED ∧ Arc.mk v c ∈ g.arcsOf p ∧
      ClosedPath g st s p ps cs
  | _, _, _ => False

/-- Every labeled or closed node has a simple predecessor chain through closed
nodes whose cost is its recorded distance. -/
def PathInv (bits : Nat) (g : Digraph) (s : Nat) (st : State) : Prop :=
  ∀ v, st.stat v ≠ Label.UNREACHED →
    ∃ ps cs, ClosedPath g st s v ps cs ∧ (v :: ps).Nodup ∧ cs.sum = st.dist bits v ∧
      ps.length + (if st.stat v = Label.CLOSED then 1 else 0) ≤ st.trace.length

/-- Every labeled or closed node has a predecessor chain through closed nodes
back to the start node, no longer than the number of nodes popped before it.
Recorded distances play no part. -/
def ChainInv (g : Digraph) (s : Nat) (st : State) : Prop :=
  ∀ v, st.stat v ≠ Label.UNREACHED →
    ∃ ps cs, ClosedPath g st s v ps cs ∧
      ps.length + (if st.stat v = Label.CLOSED then 1 else 0) ≤ st.trace.length

/-- Every arc leaving node `x` points to a node that has been labeled. -/
def ArcsLabeled (g : Digraph) (st : State) (x : Nat) : Prop :=
  ∀ a, a ∈ g.arcsOf x → st.stat a.w ≠ Label.UNREACHED

/-! ## States between the statements of the loop body -/

theorem wrap_lower (bits : Nat) (x : Int) : -(2:Int) ^ bits ≤ wrap bits x := by
  unfold wrap
  have h : (0:Int) < 2 ^ (bits + 1) := by positivity
  have := Int.emod_nonneg (x + 2 ^ bits) (ne_of_gt h)
  omega

theorem wrap_upper (bits : Nat) (x : Int) : wrap bits x < (2:Int) ^ bits := by
  unfold wrap
  have h : (0:Int) < 2 ^ (bits + 1) := by positivity
  have := Int.emod_lt_of_pos (x + 2 ^ bits) h
  have e : (2:Int) ^ (bits + 1) = 2 * 2 ^ bits := by ring
  omega

theorem wrap_id (bits : Nat) (x : Int) (h1 : -(2:Int) ^ bits ≤ x) (h2 : x < (2:Int) ^ bits) :
    wrap bits x = x := by
  unfold wrap
  have e : (2:Int) ^ (bits + 1) = 2 * 2 ^ bits := by ring
  rw [Int.emod_eq_of_lt (by omega) (by omega)]
  omega

theorem cneg_cneg (bits : Nat) (x : Int) : cneg bits (cneg bits (wrap bits x)) = wrap bits x := by
  have h1 := wrap_lower bits x
  have h2 := wrap_upper bits x
  generalize wrap bits x = y at h1 h2
  unfold cneg
  by_cases hy : y = -(2:Int) ^ bits
  · subst hy
    have e : (2:Int) ^ (bits + 1) = 2 * 2 ^ bits := by ring
    have hp : (0:Int) < 2 ^ bits := by positivity
    have : wrap bits (- -(2:Int) ^ bits) = -(2:Int)^bits := by
      unfold wrap
      have : (- -(2:Int) ^ bits + 2 ^ bits) = 0 + 1 * 2 ^ (bits + 1) := by rw [e]; ring
      rw [this, Int.add_mul_emod_self]
      simp
    rw [this, this]
  · rw [wrap_id bits (-y) (by omega) (by omega)]
    rw [neg_neg]
    exact wrap_id bits y h1 h2

theorem cneg_of_range (bits : Nat) (x : Int) (h1 : -(2:Int) ^ bits < x) (h2 : x < (2:Int) ^ bits) :
    cneg bits x = -x := by
  unfold cneg
  exact wrap_id bits (-x) (by omega) (by omega)

theorem stat_eq_of_get {st : State} {v : Nat} {l : Label} (h : st.node_status[v]? = some l) :
    st.stat v = l := by
  simp [State.stat, h]

theorem get_of_stat {st : State} {v : Nat} {l : Label} (h : st.stat v = l)
    (hl : l ≠ Label.UNREACHED) : st.node_status[v]? = some l := by
  unfold State.stat at h
  cases hv : st.node_status[v]? with
  | none => rw [hv] at h; simp at h; exact absurd h.symm hl
  | some l' => rw [hv] at h; simp at h; rw [h]

theorem rawd_eq {st : State} {v h : Nat} {sl : Slot}
    (h1 : st.distance_from_source[v]? = some (some h))
    (h2 : st.digraph_priority_queue[h]? = some sl) : st.rawd v = sl.key.d := by
  simp [State.rawd, State.deref, State.handleOf, State.keyAt, h1, h2]

theorem rawd_null {st : State} {v : Nat}
    (h1 : st.distance_from_source[v]? = some none) : st.rawd v = 0 := by
  simp [State.rawd, State.deref, State.handleOf, h1]

theorem rawd_out {st : State} {v : Nat}
    (h1 : st.distance_from_source[v]? = none) : st.rawd v = 0 := by
  simp [State.rawd, State.deref, State.handleOf, h1]

theorem deref_eq {st : State} {v h : Nat} {sl : Slot}
    (h1 : st.distance_from_source[v]? = some (some h))
    (h2 : st.digraph_priority_queue[h]? = some sl) : st.deref v = .ok sl.key := by
  simp [State.deref, State.handleOf, State.keyAt, h1, h2]

/-- A node that is not `UNREACHED` has a handle and a slot. -/
theorem Wf.slot_of_status {bits : Nat} {g : Digraph} {s : Nat} {st : State}
    (hw : Wf bits g s st) {v : Nat} {l : Label} (hv : st.node_status[v]? = some l)
    (hl : l ≠ Label.UNREACHED) :
    ∃ h sl, st.distance_from_source[v]? = some (some h) ∧
      st.digraph_priority_queue[h]? = some sl ∧ sl.key.u = v ∧
      l = (if sl.live then Label.LABELED else Label.CLOSED) := by
  have hlt : v < st.distance_from_source.length := by
    rw [hw.len_dfs, ← hw.len_status]
    by_contra hc
    rw [List.getElem?_eq_none (by omega)] at hv
    cases hv
  cases hd : st.distance_from_source[v]? with
  | none => rw [List.getElem?_eq_getElem hlt] at hd; cases hd
  | some x =>
    cases x with
    | none =>
      have := hw.null_unreached v hd
      rw [hv] at this
      exact absurd (Option.some.inj this) hl
    | some h =>
      obtain ⟨sl, hsl, hu⟩ := hw.hnd_slot v h hd
      refine ⟨h, sl, rfl, hsl, hu, ?_⟩
      have := hw.slot_status h sl hsl
      rw [hu, hv] at this
      exact Option.some.inj this

/-- An `UNREACHED` node has a null handle and no slot. -/
theorem Wf.null_of_unreached {bits : Nat} {g : Digraph} {s : Nat} {st : State}
    (hw : Wf bits g s st) {v : Nat} (hv : st.node_status[v]? = some Label.UNREACHED) :
    st.distance_from_source[v]? = some none := by
  have hlt : v < st.distance_from_source.length := by
    rw [hw.len_dfs, ← hw.len_status]
    by_contra hc
    rw [List.getElem?_eq_none (by omega)] at hv
    cases hv
  cases hd : st.distance_from_source[v]? with
  | none => rw [List.getElem?_eq_getElem hlt] at hd; cases hd
  | some x =>
    cases x with
    | none => rfl
    | some h =>
      obtain ⟨sl, hsl, hu⟩ := hw.hnd_slot v h hd
      have := hw.slot_status h sl hsl
      rw [hu, hv] at this
      have := Option.some.inj this
      split at this <;> cases this

theorem Wf.slot_lt {bits : Nat} {g : Digraph} {s : Nat} {st : State}
    (hw : Wf bits g s st) {h : Nat} {sl : Slot}
    (hsl : st.digraph_priority_queue[h]? = some sl) : sl.key.u < g.n_nodes := by
  have := hw.slot_hnd h sl hsl
  rw [← hw.len_dfs]
  by_contra hc
  rw [List.getElem?_eq_none (by omega)] at this
  cases this

theorem relax_arc_unreached {bits : Nat} {g : Digraph} {s : Nat} {st : State}
    (hw : Wf bits g s st) (u : Nat) (Du : Int) (a : Arc)
    (hv : st.node_status[a.w]? = some Label.UNREACHED) :
    ∃ st', relax_arc bits u Du st a = .ok st' ∧ Wf bits g s st' ∧ Relaxed bits u Du a st st' := by
  have hlt : a.w < g.n_nodes := by
    rw [← hw.len_status]
    by_contra hc
    rw [List.getElem?_eq_none (by omega)] at hv
    cases hv
  have hprev : a.w < st.previous.length := lt_of_lt_of_le hlt hw.len_prev
  have hnull := hw.null_of_unreached hv
  have hnoslot : ∀ (h : Nat) (sl : Slot), st.digraph_priority_queue[h]? = some sl → sl.key.u ≠ a.w := by
    intro h sl hsl he
    have := hw.slot_hnd h sl hsl
    rw [he, hnull] at this
    cases this
  have hqlt : ∀ (h : Nat) (sl : Slot), st.digraph_priority_queue[h]? = some sl →
      h < st.digraph_priority_queue.length := by
    intro h sl hsl
    by_contra hc
    rw [List.getElem?_eq_none (by omega)] at hsl
    cases hsl
  have heq : relax_arc bits u Du st a = .ok { st with
      previous := st.previous.set a.w u
      node_status := st.node_status.set a.w Label.LABELED
      distance_from_source := st.distance_from_source.set a.w
        (some (st.digraph_priority_queue.push (ValueKey.mk (cneg bits (cadd bits Du a.c)) a.w)).2)
      digraph_priority_queue :=
        (st.digraph_priority_queue.push (ValueKey.mk (cneg bits (cadd bits Du a.c)) a.w)).1 } := by
    simp [relax_arc, hv, hprev]
  refine ⟨_, heq, ?_, ?_⟩
  · constructor
    · simp [hw.len_status]
    · simp [hw.len_dfs]
    · simp [hw.len_prev]
    · intro h sl hsl
      simp only [PriorityQueue.push] at hsl ⊢
      rw [List.getElem?_append] at hsl
      split at hsl
      · rw [List.getElem?_set_ne (Ne.symm (hnoslot h sl hsl))]
        exact hw.slot_hnd h sl hsl
      · rename_i hge
        have : h - st.digraph_priority_queue.length = 0 := by
          by_contra hc
          rw [List.getElem?_eq_none (by simp; omega)] at hsl
          cases hsl
        rw [this] at hsl
        simp at hsl
        subst hsl
        simp only []
        rw [List.getElem?_set_self (by rw [hw.len_dfs]; exact hlt)]
        congr 2
        omega
    · intro v h hd
      simp only [PriorityQueue.push] at hd ⊢
      rw [List.getElem?_set] at hd
      split at hd
      · rename_i he
        split at hd
        · cases hd
          exact ⟨_, List.getElem?_concat_length _ _, he⟩
        · cases hd
      · obtain ⟨sl, hsl, hu⟩ := hw.hnd_slot v h hd
        exact ⟨sl, by rw [List.getElem?_append_left (hqlt h sl hsl)]; exact hsl, hu⟩
    · intro h sl hsl
      simp only [PriorityQueue.push] at hsl ⊢
      rw [List.getElem?_append] at hsl
      split at hsl
      · rw [List.getElem?_set_ne (Ne.symm (hnoslot h sl hsl))]
        exact hw.slot_status h sl hsl
      · rename_i hge
        have : h - st.digraph_priority_queue.length = 0 := by
          by_contra hc
          rw [List.getElem?_eq_none (by simp; omega)] at hsl
          cases hsl
        rw [this] at hsl
        simp at hsl
        subst hsl
        simp only []
        rw [List.getElem?_set_self (by rw [hw.len_status]; exact hlt)]
        rfl
    · intro v hd
      simp only [PriorityQueue.push] at hd ⊢
      rw [List.getElem?_set] at hd
      split at hd
      · split at hd <;> cases hd
      · rename_i hne
        rw [List.getElem?_set_ne hne]
        exact hw.null_unreached v hd
    · intro h sl hsl
      simp only [PriorityQueue.push] at hsl
      rw [List.getElem?_append] at hsl
      split at hsl
      · exact hw.key_range h sl hsl
      · have : h - st.digraph_priority_queue.length = 0 := by
          by_contra hc
          rw [List.getElem?_eq_none (by simp; omega)] at hsl
          cases hsl
        rw [this] at hsl
        simp at hsl
        subst hsl
        exact ⟨_, rfl⟩
    · have hs := hw.start_closed
      have hne : a.w ≠ s := by
        intro he; rw [he, hs] at hv; cases hv
      simp only []
      rw [List.getElem?_set_ne hne]
      exact hs
    · exact hw.trace_nodup
    · intro v
      simp only []
      rw [hw.trace_closed v, List.getElem?_set]
      split
      · rename_i he
        subst he
        rw [hv]
        simp [hw.len_status, hlt]
      · rfl
  · refine ⟨rfl, Or.inr ⟨?_, Or.inl (stat_eq_of_get hv), ?_, ?_, ?_⟩⟩
    · rw [stat_eq_of_get hv]; simp
    · intro x
      simp only [State.stat]
      rw [List.getElem?_set]
      by_cases hx : x = a.w
      · subst hx; simp [hw.len_status, hlt]
      · simp [hx, Ne.symm hx]
    · intro x
      by_cases hx : x = a.w
      · subst hx
        simp only [if_true]
        refine @rawd_eq _ _ st.digraph_priority_queue.length
          (Slot.mk (ValueKey.mk (cneg bits (cadd bits Du a.c)) a.w) true) ?_ ?_
        · simp only [PriorityQueue.push]
          rw [List.getElem?_set_self (by rw [hw.len_dfs]; exact hlt)]
        · simp only [PriorityQueue.push]
          exact List.getElem?_concat_length _ _
      · simp only [hx, if_false]
        cases hd : st.distance_from_source[x]? with
        | none =>
          rw [rawd_out hd]
          apply rawd_out
          simp only []
          rw [List.getElem?_set_ne (Ne.symm hx)]; exact hd
        | some o =>
          cases o with
          | none =>
            rw [rawd_null hd]
            apply rawd_null
            simp only []
            rw [List.getElem?_set_ne (Ne.symm hx)]; exact hd
          | some h =>
            obtain ⟨sl, hsl, hu⟩ := hw.hnd_slot x h hd
            rw [rawd_eq hd hsl]
            apply @rawd_eq _ _ h
            · simp only []
              rw [List.getElem?_set_ne (Ne.symm hx)]; exact hd
            · simp only [PriorityQueue.push]
              rw [List.getElem?_append_left (hqlt h sl hsl)]; exact hsl
    · intro x
      simp only [State.prv]
      rw [List.getElem?_set]
      by_cases hx : x = a.w
      · subst hx; simp [hprev]
      · simp [hx, Ne.symm hx]


theorem relax_arc_closed {bits : Nat} {g : Digraph} {s : Nat} {st : State}
    (hw : Wf bits g s st) (u : Nat) (Du : Int) (a : Arc)
    (hv : st.node_status[a.w]? = some Label.CLOSED) :
    ∃ st', relax_arc bits u Du st a = .ok st' ∧ Wf bits g s st' ∧ Relaxed bits u Du a st st' := by
  refine ⟨st, ?_, hw, rfl, Or.inl ⟨rfl, Or.inl (stat_eq_of_get hv)⟩⟩
  simp [relax_arc, hv]

theorem relax_arc_labeled {bits : Nat} {g : Digraph} {s : Nat} {st : State}
    (hw : Wf bits g s st) (u : Nat) (Du : Int) (a : Arc)
    (hv : st.node_status[a.w]? = some Label.LABELED) :
    ∃ st', relax_arc bits u Du st a = .ok st' ∧ Wf bits g s st' ∧ Relaxed bits u Du a st st' := by
  have hlt : a.w < g.n_nodes := by
    rw [← hw.len_status]
    by_contra hc
    rw [List.getElem?_eq_none (by omega)] at hv
    cases hv
  have hprev : a.w < st.previous.length := lt_of_lt_of_le hlt hw.len_prev
  obtain ⟨h, sl, hd, hsl, hu, hl⟩ := hw.slot_of_status hv (by decide)
  have hlive : sl.live = true := by
    cases hb : sl.live with
    | true => rfl
    | false => rw [hb] at hl; simp at hl
  have hhlt : h < st.digraph_priority_queue.length := by
    by_contra hc
    rw [List.getElem?_eq_none (by omega)] at hsl
    cases hsl
  have hdist : st.dist bits a.w = cneg bits sl.key.d := by
    simp [State.dist, rawd_eq hd hsl]
  by_cases hc : cneg bits sl.key.d > cadd bits Du a.c
  · have heq : relax_arc bits u Du st a = .ok { st with
        previous := st.previous.set a.w u
        digraph_priority_queue := st.digraph_priority_queue.set h
          { sl with key := ValueKey.mk (cneg bits (cadd bits Du a.c)) a.w } } := by
      simp [relax_arc, hv, hprev, State.handleOf, State.keyAt, hd, hsl, hc, PriorityQueue.increase]
    have hnew : ∀ (h' : Nat) (sl' : Slot),
        (st.digraph_priority_queue.set h
          { sl with key := ValueKey.mk (cneg bits (cadd bits Du a.c)) a.w })[h']? = some sl' →
        (h' = h ∧ sl' = { sl with key := ValueKey.mk (cneg bits (cadd bits Du a.c)) a.w }) ∨
        (h' ≠ h ∧ st.digraph_priority_queue[h']? = some sl') := by
      intro h' sl' hs'
      rw [List.getElem?_set] at hs'
      by_cases he : h = h'
      · simp [he] at hs'
        exact Or.inl ⟨he.symm, hs'.2.symm⟩
      · simp [he] at hs'
        exact Or.inr ⟨fun e => he e.symm, hs'⟩
    refine ⟨_, heq, ?_, ?_⟩
    · constructor
      · exact hw.len_status
      · exact hw.len_dfs
      · simp [hw.len_prev]
      · intro h' sl' hs'
        rcases hnew h' sl' hs' with ⟨e1, e2⟩ | ⟨_, e2⟩
        · subst e1; subst e2; exact hd
        · exact hw.slot_hnd h' sl' e2
      · intro v h' hd'
        obtain ⟨sl0, hsl0, hu0⟩ := hw.hnd_slot v h' hd'
        by_cases he : h' = h
        · subst he
          rw [hsl] at hsl0
          cases hsl0
          refine ⟨{ sl with key := ValueKey.mk (cneg bits (cadd bits Du a.c)) a.w }, ?_, ?_⟩
          · simp only []
            rw [List.getElem?_set_self hhlt]
          · simp only []; rw [← hu0, hu]
        · refine ⟨sl0, ?_, hu0⟩
          simp only []
          rw [List.getElem?_set_ne (Ne.symm he)]; exact hsl0
      · intro h' sl' hs'
        rcases hnew h' sl' hs' with ⟨e1, e2⟩ | ⟨_, e2⟩
        · subst e1; subst e2
          simp only [hlive, if_true]
          exact hv
        · exact hw.slot_status h' sl' e2
      · exact hw.null_unreached
      · intro h' sl' hs'
        rcases hnew h' sl' hs' with ⟨e1, e2⟩ | ⟨_, e2⟩
        · subst e2; exact ⟨_, rfl⟩
        · exact hw.key_range h' sl' e2
      · exact hw.start_closed
      · exact hw.trace_nodup
      · exact hw.trace_closed
    · refine ⟨rfl, Or.inr ⟨?_, Or.inr ?_, ?_, ?_, ?_⟩⟩
      · rw [stat_eq_of_get hv]; simp
      · rw [hdist]; exact hc
      · intro x
        by_cases hx : x = a.w
        · subst hx; simp only [if_true]; exact stat_eq_of_get hv
        · simp only [hx, if_false]; rfl
      · intro x
        by_cases hx : x = a.w
        · subst hx
          simp only [if_true]
          refine @rawd_eq _ _ h
            { sl with key := ValueKey.mk (cneg bits (cadd bits Du a.c)) a.w } hd ?_
          simp only []
          rw [List.getElem?_set_self hhlt]
        · simp only [hx, if_false]
          cases hdx : st.distance_from_source[x]? with
          | none => rw [rawd_out hdx]; exact rawd_out hdx
          | some o =>
            cases o with
            | none => rw [rawd_null hdx]; exact rawd_null hdx
            | some h' =>
              obtain ⟨sl0, hsl0, hu0⟩ := hw.hnd_slot x h' hdx
              have hne : h' ≠ h := by
                intro e; subst e
                rw [hsl] at hsl0; cases hsl0
                exact hx (hu0.symm.trans hu)
              rw [rawd_eq hdx hsl0]
              refine @rawd_eq _ _ h' _ hdx ?_
              simp only []
              rw [List.getElem?_set_ne (Ne.symm hne)]; exact hsl0
      · intro x
        simp only [State.prv]
        rw [List.getElem?_set]
        by_cases hx : x = a.w
        · subst hx; simp [hprev]
        · simp [hx, Ne.symm hx]
  · refine ⟨st, ?_, hw, rfl, Or.inl ⟨rfl, Or.inr ⟨stat_eq_of_get hv, ?_⟩⟩⟩
    · simp [relax_arc, hv, State.handleOf, State.keyAt, hd, hsl, hc]
    · rw [hdist]; omega

/-- One call of `relax_arc` on a consistent state: it succeeds, keeps the state
consistent, and acts as `Relaxed` says. -/
theorem relax_arc_ok {bits : Nat} {g : Digraph} {s : Nat} {st : State}
    (hw : Wf bits g s st) (u : Nat) (Du : Int) (a : Arc) (ha : a.w < g.n_nodes) :
    ∃ st', relax_arc bits u Du st a = .ok st' ∧ Wf bits g s st' ∧ Relaxed bits u Du a st st' := by
  have hlt : a.w < st.node_status.length := by rw [hw.len_status]; exact ha
  have hget := List.getElem?_eq_getElem hlt
  cases hl : st.node_status[a.w] with
  | UNREACHED => rw [hl] at hget; exact relax_arc_unreached hw u Du a hget
  | LABELED => rw [hl] at hget; exact relax_arc_labeled hw u Du a hget
  | CLOSED => rw [hl] at hget; exact relax_arc_closed hw u Du a hget

/-- The queue is empty exactly when no node is `LABELED`. -/
theorem Wf.empty_iff {bits : Nat} {g : Digraph} {s : Nat} {st : State}
    (hw : Wf bits g s st) :
    st.digraph_priority_queue.empty = true ↔ ∀ x, st.stat x ≠ Label.LABELED := by
  unfold PriorityQueue.empty
  rw [List.all_eq_true]
  constructor
  · intro hall x hx
    obtain ⟨h, sl, _, hsl, _, hl⟩ := hw.slot_of_status (get_of_stat hx (by decide)) (by decide)
    have hm : sl ∈ st.digraph_priority_queue := List.mem_iff_getElem?.2 ⟨h, hsl⟩
    have := hall sl hm
    cases hb : sl.live with
    | true => rw [hb] at this; simp at this
    | false => rw [hb] at hl; simp at hl
  · intro hno sl hm
    obtain ⟨h, hsl⟩ := List.mem_iff_getElem?.1 hm
    have hst := hw.slot_status h sl hsl
    cases hb : sl.live with
    | true =>
      rw [hb] at hst
      exact absurd (stat_eq_of_get hst) (hno _)
    | false => rfl

/-- One call of `pop_close` on a consistent state with a non-empty queue. -/
theorem pop_close_ok (R : TopRule) {bits : Nat} {g : Digraph} {s : Nat} {st : State}
    (hw : Wf bits g s st) (hne : st.digraph_priority_queue.empty = false) :
    ∃ st1 u, pop_close R bits st = .ok (st1, u, st1.dist bits u) ∧ Popped st st1 u ∧
      Wf bits g s st1 ∧ u < g.n_nodes := by
  obtain ⟨sl, hsl, hlive, hmax⟩ := R.top_spec st.digraph_priority_queue hne
  generalize hh : R.top st.digraph_priority_queue = h at hsl
  have hu : sl.key.u < g.n_nodes := hw.slot_lt hsl
  have hus : sl.key.u < st.node_status.length := by rw [hw.len_status]; exact hu
  have hd := hw.slot_hnd h sl hsl
  have hstatus := hw.slot_status h sl hsl
  rw [hlive] at hstatus
  simp only [if_true] at hstatus
  have hhlt : h < st.digraph_priority_queue.length := by
    by_contra hc
    rw [List.getElem?_eq_none (by omega)] at hsl
    cases hsl
  let st1 : State :=
    { st with
      digraph_priority_queue := st.digraph_priority_queue.set h { sl with live := false }
      node_status := st.node_status.set sl.key.u Label.CLOSED
      trace := st.trace ++ [sl.key] }
  have hq1 : st1.digraph_priority_queue[h]? = some { sl with live := false } := by
    show (st.digraph_priority_queue.set h { sl with live := false })[h]? = _
    rw [List.getElem?_set_self hhlt]
  have hd1 : st1.distance_from_source[sl.key.u]? = some (some h) := hd
  have hnew : ∀ (h' : Nat) (sl' : Slot), st1.digraph_priority_queue[h']? = some sl' →
      (h' = h ∧ sl' = { sl with live := false }) ∨
      (h' ≠ h ∧ st.digraph_priority_queue[h']? = some sl') := by
    intro h' sl' hs'
    change (st.digraph_priority_queue.set h { sl with live := false })[h']? = _ at hs'
    rw [List.getElem?_set] at hs'
    by_cases he : h = h'
    · simp [he] at hs'
      exact Or.inl ⟨he.symm, hs'.2.symm⟩
    · simp [he] at hs'
      exact Or.inr ⟨fun e => he e.symm, hs'⟩
  have hrawd : ∀ x, st1.rawd x = st.rawd x := by
    intro x
    cases hdx : st.distance_from_source[x]? with
    | none => rw [rawd_out hdx]; exact rawd_out hdx
    | some o =>
      cases o with
      | none => rw [rawd_null hdx]; exact rawd_null hdx
      | some h' =>
        obtain ⟨sl0, hsl0, hu0⟩ := hw.hnd_slot x h' hdx
        rw [rawd_eq hdx hsl0]
        by_cases he : h' = h
        · subst he
          rw [hsl] at hsl0; cases hsl0
          exact @rawd_eq st1 _ _ { sl with live := false } hdx hq1
        · refine @rawd_eq st1 _ _ _ hdx ?_
          show (st.digraph_priority_queue.set h { sl with live := false })[h']? = _
          rw [List.getElem?_set_ne (Ne.symm he)]; exact hsl0
  have hstat : ∀ x, st1.stat x = if x = sl.key.u then Label.CLOSED else st.stat x := by
    intro x
    show ((st.node_status.set sl.key.u Label.CLOSED)[x]?).getD Label.UNREACHED = _
    rw [List.getElem?_set]
    by_cases hx : x = sl.key.u
    · subst hx; simp [hus]
    · simp [hx, Ne.symm hx, State.stat]
  have heq : pop_close R bits st = .ok (st1, sl.key.u, st1.dist bits sl.key.u) := by
    have hderef : st1.deref sl.key.u = .ok sl.key :=
      @deref_eq _ _ _ { sl with live := false } hd1 hq1
    have hr : st1.rawd sl.key.u = sl.key.d := @rawd_eq _ _ _ { sl with live := false } hd1 hq1
    have hpop : st.digraph_priority_queue.pop h =
        st.digraph_priority_queue.set h { sl with live := false } := by
      simp [PriorityQueue.pop, hsl]
    simp only [pop_close, hh, hsl, hus, if_true, hpop]
    show (match st1.deref sl.key.u with
      | Except.error e => Except.error e
      | Except.ok k => Except.ok (st1, sl.key.u, cneg bits k.d)) = _
    rw [hderef]
    simp only [State.dist, hr]
  refine ⟨st1, sl.key.u, heq, ?_, ?_, hu⟩
  · refine ⟨stat_eq_of_get hstatus, ?_, hstat, hrawd, fun x => rfl, ?_⟩
    · intro x hx
      obtain ⟨h', sl', hd', hsl', _, hl'⟩ :=
        hw.slot_of_status (get_of_stat hx (by decide)) (by decide)
      rw [rawd_eq hd' hsl', rawd_eq hd hsl]
      apply hmax sl' (List.mem_iff_getElem?.2 ⟨h', hsl'⟩)
      cases hb : sl'.live with
      | true => rfl
      | false => rw [hb] at hl'; simp at hl'
    · show st.trace ++ [sl.key] = _
      rw [rawd_eq hd hsl]
  · constructor
    · show (st.node_status.set sl.key.u Label.CLOSED).length = _
      simp [hw.len_status]
    · exact hw.len_dfs
    · exact hw.len_prev
    · intro h' sl' hs'
      rcases hnew h' sl' hs' with ⟨e1, e2⟩ | ⟨_, e2⟩
      · subst e1; subst e2; exact hd
      · exact hw.slot_hnd h' sl' e2
    · intro v h' hd'
      obtain ⟨sl0, hsl0, hu0⟩ := hw.hnd_slot v h' hd'
      by_cases he : h' = h
      · subst he
        rw [hsl] at hsl0; cases hsl0
        exact ⟨{ sl with live := false }, hq1, hu0⟩
      · refine ⟨sl0, ?_, hu0⟩
        show (st.digraph_priority_queue.set h { sl with live := false })[h']? = _
        rw [List.getElem?_set_ne (Ne.symm he)]; exact hsl0
    · intro h' sl' hs'
      show (st.node_status.set sl.key.u Label.CLOSED)[sl'.key.u]? = _
      rcases hnew h' sl' hs' with ⟨e1, e2⟩ | ⟨hne', e2⟩
      · subst e1; subst e2
        simp only []
        rw [List.getElem?_set_self hus]
        rfl
      · have hne2 : sl.key.u ≠ sl'.key.u := by
          intro e
          have h1 := hw.slot_hnd h' sl' e2
          rw [← e, hd] at h1
          cases h1
          exact hne' rfl
        rw [List.getElem?_set_ne hne2]
        exact hw.slot_status h' sl' e2
    · intro v hv
      show (st.node_status.set sl.key.u Label.CLOSED)[v]? = _
      have hne2 : sl.key.u ≠ v := by
        intro e
        rw [← e] at hv
        have : st.distance_from_source[sl.key.u]? = some none := hv
        rw [hd] at this; cases this
      rw [List.getElem?_set_ne hne2]
      exact hw.null_unreached v hv
    · intro h' sl' hs'
      rcases hnew h' sl' hs' with ⟨e1, e2⟩ | ⟨_, e2⟩
      · subst e2; exact hw.key_range h sl hsl
      · exact hw.key_range h' sl' e2
    · show (st.node_status.set sl.key.u Label.CLOSED)[s]? = _
      rw [List.getElem?_set]
      by_cases he : sl.key.u = s
      · simp [he]; rw [← he]; exact hus
      · simp [he]; exact hw.start_closed
    · show ((st.trace ++ [sl.key]).map (fun k => k.u)).Nodup
      rw [List.map_append, List.nodup_append]
      refine ⟨hw.trace_nodup, by simp, ?_⟩
      intro v hv1 hv2
      simp at hv2
      subst hv2
      have := (hw.trace_closed _).1 hv1
      rw [hstatus] at this
      cases this
    · intro v
      show v ∈ (st.trace ++ [sl.key]).map (fun k => k.u) ↔
        (st.node_status.set sl.key.u Label.CLOSED)[v]? = _
      rw [List.map_append, List.mem_append, hw.trace_closed v, List.getElem?_set]
      by_cases he : sl.key.u = v
      · subst he; simp [hus]
      · simp [he, Ne.symm he]

theorem Wf.trace_le {bits : Nat} {g : Digraph} {s : Nat} {st : State}
    (hw : Wf bits g s st) : st.trace.length ≤ g.n_nodes := by
  have hsub : st.trace.map (fun k => k.u) ⊆ List.range g.n_nodes := by
    intro v hv
    have := (hw.trace_closed v).1 hv
    rw [List.mem_range, ← hw.len_status]
    by_contra hc
    rw [List.getElem?_eq_none (by omega)] at this
    cases this
  have := (List.subperm_of_subset hw.trace_nodup hsub).length_le
  simpa using this

theorem arcsOf_eq {g : Digraph} {x : Nat} (hx : x < g.adjacency_list.length) :
    g.adjacency_list[x]? = some (g.arcsOf x) := by
  simp [Digraph.arcsOf, List.getElem?_eq_getElem hx]

/-- Hoare-style rule for the `for` loop: an invariant indexed by the arcs already
handled is carried through `relax_arcs`. -/
theorem relax_arcs_rule {bits : Nat} {g : Digraph} {s : Nat} (u : Nat) (Du : Int)
    (arcs : List Arc) (M : List Arc → State → Prop)
    (hstep : ∀ pre a post st st', arcs = pre ++ a :: post → Wf bits g s st → M pre st →
      Relaxed bits u Du a st st' → Wf bits g s st' → M (pre ++ [a]) st') :
    ∀ (rest pre : List Arc) (st : State), arcs = pre ++ rest → Wf bits g s st → M pre st →
      (∀ a, a ∈ rest → a.w < g.n_nodes) →
      ∃ st', relax_arcs bits u Du st rest = .ok st' ∧ Wf bits g s st' ∧ M arcs st' ∧
        st'.trace = st.trace := by
  intro rest
  induction rest with
  | nil =>
    intro pre st he hw hm _
    refine ⟨st, rfl, hw, ?_, rfl⟩
    rw [he, List.append_nil]; exact hm
  | cons a rest ih =>
    intro pre st he hw hm hin
    obtain ⟨st1, h1, hw1, hr1⟩ := relax_arc_ok hw u Du a (hin a (List.mem_cons_self _ _))
    have hm1 := hstep pre a rest st st1 he hw hm hr1 hw1
    obtain ⟨st2, h2, hw2, hm2, ht2⟩ := ih (pre ++ [a]) st1 (by rw [he]; simp) hw1 hm1
      (fun b hb => hin b (List.mem_cons_of_mem _ hb))
    refine ⟨st2, ?_, hw2, hm2, ht2.trans hr1.1⟩
    simp only [relax_arcs, h1]
    exact h2

/-- Hoare-style rule for the `while` loop, started in a consistent state: with
enough fuel it ends, in a consistent state satisfying the exit condition. -/
theorem loop_rule (R : TopRule) {bits : Nat} {g : Digraph} {s : Nat} (t : Nat)
    (hadj : g.adjacency_list.length = g.n_nodes)
    (htgt : ∀ x a, a ∈ g.arcsOf x → a.w < g.n_nodes)
    (I : State → Prop) (M : Nat → Int → List Arc → State → Prop) (Q : State → Prop)
    (h_empty : ∀ st, Wf bits g s st → I st → (∀ x, st.stat x ≠ Label.LABELED) → Q st)
    (h_pop_end : ∀ st st1, Wf bits g s st → I st → Popped st st1 t → Wf bits g s st1 → Q st1)
    (h_pop : ∀ st st1 u, Wf bits g s st → I st → Popped st st1 u → Wf bits g s st1 → u ≠ t →
      M u (st1.dist bits u) [] st1)
    (h_relax : ∀ u Du pre a post st st', g.arcsOf u = pre ++ a :: post →
      Wf bits g s st → M u Du pre st → Relaxed bits u Du a st st' → Wf bits g s st' →
      M u Du (pre ++ [a]) st')
    (h_done : ∀ u Du st, Wf bits g s st → M u Du (g.arcsOf u) st → I st) :
    ∀ (fuel : Nat) (st : State), Wf bits g s st → I st → g.n_nodes ≤ fuel + st.trace.length →
      ∃ fin, loop R bits g t fuel st = .ok fin ∧ Wf bits g s fin ∧ Q fin := by
  intro fuel
  induction fuel with
  | zero =>
    intro st hw hi hf
    cases he : st.digraph_priority_queue.empty with
    | true =>
      refine ⟨st, by simp [loop, he], hw, h_empty st hw hi (hw.empty_iff.1 he)⟩
    | false =>
      exfalso
      obtain ⟨st1, u, _, hp, hw1, _⟩ := pop_close_ok R hw he
      have := hw1.trace_le
      rw [hp.2.2.2.2.2] at this
      simp at this
      omega
  | succ fuel ih =>
    intro st hw hi hf
    cases he : st.digraph_priority_queue.empty with
    | true =>
      refine ⟨st, by simp [loop, he], hw, h_empty st hw hi (hw.empty_iff.1 he)⟩
    | false =>
      obtain ⟨st1, u, hpc, hp, hw1, hu⟩ := pop_close_ok R hw he
      by_cases hut : u = t
      · subst hut
        refine ⟨st1, by simp [loop, he, hpc], hw1, h_pop_end st st1 hw hi hp hw1⟩
      · have hm := h_pop st st1 u hw hi hp hw1 hut
        obtain ⟨st2, hr, hw2, hm2, ht2⟩ := relax_arcs_rule (g := g) (s := s) u (st1.dist bits u)
          (g.arcsOf u) (M u (st1.dist bits u))
          (fun pre a post st st' he hw hm hr hw' => h_relax u _ pre a post st st' he hw hm hr hw')
          (g.arcsOf u) [] st1 rfl hw1 hm (fun a ha => htgt u a ha)
        have hi2 := h_done u _ st2 hw2 hm2
        have htr : st2.trace.length = st.trace.length + 1 := by
          rw [ht2, hp.2.2.2.2.2]; simp
        obtain ⟨fin, hl, hwf, hq⟩ := ih st2 hw2 hi2 (by omega)
        refine ⟨fin, ?_, hwf, hq⟩
        simp only [loop, he, hpc, hut, arcsOf_eq (hadj ▸ hu), hr]
        simpa using hl

theorem wrap_zero (bits : Nat) : wrap bits 0 = 0 := by
  unfold wrap
  have hp : (0:Int) < 2 ^ bits := by positivity
  have e : (2:Int) ^ (bits + 1) = 2 * 2 ^ bits := by ring
  rw [Int.emod_eq_of_lt (by omega) (by omega)]
  omega

theorem cneg_zero (bits : Nat) : cneg bits 0 = 0 := by
  simp [cneg, wrap_zero]

theorem closed_start_stat (g : Digraph) (s : Nat) (prev : List Nat) (hs : s < g.n_nodes) (x : Nat) :
    (closed_start g s prev).stat x = if x = s then Label.CLOSED else Label.UNREACHED := by
  simp only [closed_start, State.stat]
  rw [List.getElem?_set]
  by_cases hx : x = s
  · subst hx; simp [hs]
  · simp only [Ne.symm hx, hx, if_false]
    rw [List.getElem?_replicate]
    split <;> rfl

theorem closed_start_rawd (g : Digraph) (s : Nat) (prev : List Nat) (x : Nat) :
    (closed_start g s prev).rawd x = 0 := by
  cases hd : (closed_start g s prev).distance_from_source[x]? with
  | none => exact rawd_out hd
  | some o =>
    cases o with
    | none => exact rawd_null hd
    | some h =>
      have hd' := hd
      simp only [closed_start] at hd'
      rw [List.getElem?_set] at hd'
      by_cases hx : s = x
      · simp only [hx, if_true] at hd'
        split at hd'
        · cases hd'
          exact @rawd_eq _ _ _ (Slot.mk (ValueKey.mk 0 s) false) hd rfl
        · cases hd'
      · simp only [hx, if_false] at hd'
        rw [List.getElem?_replicate] at hd'
        split at hd' <;> cases hd'

theorem closed_start_wf (bits : Nat) (g : Digraph) (s : Nat) (prev : List Nat)
    (hs : s < g.n_nodes) (hprev : g.n_nodes ≤ prev.length) :
    Wf bits g s (closed_start g s prev) := by
  have hnone : ∀ v : Nat, v ≠ s →
      ((List.replicate g.n_nodes (none : Option Nat)).set s (some 0))[v]? ≠ some (some 0) := by
    intro v hv
    rw [List.getElem?_set_ne (Ne.symm hv), List.getElem?_replicate]
    split <;> simp
  constructor
  · simp [closed_start]
  · simp [closed_start]
  · exact hprev
  · intro h sl hsl
    simp only [closed_start] at hsl ⊢
    cases h with
    | zero =>
      simp at hsl; subst hsl
      simp only []
      rw [List.getElem?_set_self (by simpa using hs)]
    | succ h => simp at hsl
  · intro v h hd
    simp only [closed_start] at hd ⊢
    rw [List.getElem?_set] at hd
    by_cases hv : s = v
    · subst hv
      simp only [if_true] at hd
      split at hd
      · cases hd; exact ⟨_, rfl, rfl⟩
      · cases hd
    · simp only [hv, if_false] at hd
      rw [List.getElem?_replicate] at hd
      split at hd <;> cases hd
  · intro h sl hsl
    simp only [closed_start] at hsl ⊢
    cases h with
    | zero =>
      simp at hsl; subst hsl
      simp only []
      rw [List.getElem?_set_self (by simpa using hs)]
      rfl
    | succ h => simp at hsl
  · intro v hd
    simp only [closed_start] at hd ⊢
    rw [List.getElem?_set] at hd
    by_cases hv : s = v
    · subst hv
      simp only [if_true] at hd
      split at hd <;> cases hd
    · simp only [hv, if_false] at hd
      rw [List.getElem?_replicate] at hd
      split at hd
      · rename_i hlt
        rw [List.getElem?_set_ne hv, List.getElem?_replicate, if_pos hlt]
      · cases hd
  · intro h sl hsl
    simp only [closed_start] at hsl
    cases h with
    | zero =>
      simp at hsl; subst hsl
      exact ⟨0, (wrap_zero bits).symm⟩
    | succ h => simp at hsl
  · simp only [closed_start]
    rw [List.getElem?_set_self (by simpa using hs)]
  · simp [closed_start]
  · intro v
    simp only [closed_start]
    rw [List.getElem?_set]
    by_cases hv : s = v
    · subst hv; simp [hs]
    · simp only [hv, if_false]
      rw [List.getElem?_replicate]
      simp [Ne.symm hv]

/-- The first iteration: the only queued entry is the start node's. -/
theorem pop_close_init (R : TopRule) (bits : Nat) (g : Digraph) (s : Nat) (prev : List Nat)
    (hs : s < g.n_nodes) :
    ∃ st0, init_state g s prev = .ok st0 ∧ st0.digraph_priority_queue.empty = false ∧
      pop_close R bits st0 = .ok (closed_start g s prev, s, 0) := by
  refine ⟨_, by simp [init_state, hs]; rfl, ?_, ?_⟩
  · simp [PriorityQueue.push, PriorityQueue.empty]
  · have hne : PriorityQueue.empty [Slot.mk (ValueKey.mk 0 s) true] = false := by
      simp [PriorityQueue.empty]
    obtain ⟨sl, hsl, _, _⟩ := R.top_spec [Slot.mk (ValueKey.mk 0 s) true] hne
    have h0 : R.top [Slot.mk (ValueKey.mk 0 s) true] = 0 := by
      generalize R.top [Slot.mk (ValueKey.mk 0 s) true] = h at hsl
      cases h with
      | zero => rfl
      | succ h => simp at hsl
    simp only [pop_close, PriorityQueue.push, List.nil_append, h0]
    simp [hs, PriorityQueue.pop, State.deref, State.handleOf, State.keyAt, cneg_zero, closed_start]

/-- Hoare-style rule for the whole run: the first iteration closes the start
node, the remaining ones follow `loop_rule`. -/
theorem run_rule (R : TopRule) {bits : Nat} {g : Digraph} (s t : Nat) (prev : List Nat)
    (hs : s < g.n_nodes) (hprev : g.n_nodes ≤ prev.length)
    (hadj : g.adjacency_list.length = g.n_nodes)
    (htgt : ∀ x a, a ∈ g.arcsOf x → a.w < g.n_nodes)
    (I : State → Prop) (M : Nat → Int → List Arc → State → Prop) (Q : State → Prop)
    (h_init_end : s = t → Q (closed_start g s prev))
    (h_init : s ≠ t → M s 0 [] (closed_start g s prev))
    (h_empty : ∀ st, Wf bits g s st → I st → (∀ x, st.stat x ≠ Label.LABELED) → Q st)
    (h_pop_end : ∀ st st1, Wf bits g s st → I st → Popped st st1 t → Wf bits g s st1 → Q st1)
    (h_pop : ∀ st st1 u, Wf bits g s st → I st → Popped st st1 u → Wf bits g s st1 → u ≠ t →
      M u (st1.dist bits u) [] st1)
    (h_relax : ∀ u Du pre a post st st', g.arcsOf u = pre ++ a :: post →
      Wf bits g s st → M u Du pre st → Relaxed bits u Du a st st' → Wf bits g s st' →
      M u Du (pre ++ [a]) st')
    (h_done : ∀ u Du st, Wf bits g s st → M u Du (g.arcsOf u) st → I st) :
    ∀ (fuel : Nat), g.n_nodes ≤ fuel →
      ∃ fin, run R bits g s t prev fuel = .ok fin ∧ Wf bits g s fin ∧ Q fin := by
  intro fuel hf
  obtain ⟨st0, h0, hne, hpc⟩ := pop_close_init R bits g s prev hs
  have hw1 := closed_start_wf bits g s prev hs hprev
  cases fuel with
  | zero => omega
  | succ fuel =>
    by_cases hst : s = t
    · refine ⟨closed_start g s prev, ?_, hw1, h_init_end hst⟩
      simp only [run, h0, loop, hne, hpc]
      simp [hst]
    · obtain ⟨st2, hr, hw2, hm2, ht2⟩ := relax_arcs_rule (g := g) (s := s) s 0
        (g.arcsOf s) (M s 0)
        (fun pre a post st st' he hw hm hr hw' => h_relax s _ pre a post st st' he hw hm hr hw')
        (g.arcsOf s) [] (closed_start g s prev) rfl hw1 (h_init hst) (fun a ha => htgt s a ha)
      have hi2 := h_done s _ st2 hw2 hm2
      have htr : st2.trace.length = 1 := by rw [ht2]; rfl
      obtain ⟨fin, hl, hwf, hq⟩ := loop_rule R t hadj htgt I M Q h_empty h_pop_end h_pop
        h_relax h_done fuel st2 hw2 hi2 (by omega)
      refine ⟨fin, ?_, hwf, hq⟩
      simp only [run, h0, loop, hne, hpc, hst, arcsOf_eq (hadj ▸ hs), hr]
      simpa using hl

theorem targets_of_range {g : Digraph} (h : g.TargetsInRange) (x : Nat) (a : Arc)
    (ha : a ∈ g.arcsOf x) : a.w < g.n_nodes := by
  unfold Digraph.arcsOf at ha
  cases hx : g.adjacency_list[x]? with
  | none => rw [hx] at ha; simp at ha
  | some arcs =>
    rw [hx] at ha
    exact h arcs (List.mem_iff_getElem?.2 ⟨x, hx⟩) a ha

theorem Wf.slots_nodup {bits : Nat} {g : Digraph} {s : Nat} {st : State}
    (hw : Wf bits g s st) : (st.digraph_priority_queue.map (fun sl => sl.key.u)).Nodup := by
  rw [List.nodup_iff_getElem?_ne_getElem?]
  intro i j hij hj
  simp only [List.length_map] at hj
  have hi : i < st.digraph_priority_queue.length := by omega
  rw [List.getElem?_map, List.getElem?_map, List.getElem?_eq_getElem hi,
    List.getElem?_eq_getElem hj]
  simp only [Option.map_some']
  intro he
  have h1 := hw.slot_hnd i _ (List.getElem?_eq_getElem hi)
  have h2 := hw.slot_hnd j _ (List.getElem?_eq_getElem hj)
  rw [Option.some.inj he, h2] at h1
  simp at h1
  omega

/-- C6: whatever the sign of the costs, the loop of `shortest_path` ends within
`n_nodes` iterations; at most `n_nodes` entries are popped, no node is popped
twice and no node is pushed twice. -/
theorem shortest_path_loop_terminates (R : TopRule) (bits : Nat) (g : Digraph)
    (start_node end_node : Nat) (previous : List Nat) (fuel : Nat)
    (hsize : g.WellSized) (htgt : g.TargetsInRange)
    (hs : start_node < g.n_nodes) (hprev : g.n_nodes ≤ previous.length)
    (hfuel : g.n_nodes ≤ fuel) :
    ∃ fin, run R bits g start_node end_node previous fuel = .ok fin ∧
      fin.trace.length ≤ g.n_nodes ∧
      (fin.trace.map (fun k => k.u)).Nodup ∧
      (fin.digraph_priority_queue.map (fun sl => sl.key.u)).Nodup := by
  obtain ⟨fin, hrun, hw, _⟩ := @run_rule R bits g start_node end_node previous hs hprev hsize
    (targets_of_range htgt) (fun _ => True) (fun _ _ _ _ => True) (fun _ => True)
    (fun _ => trivial) (fun _ => trivial) (fun _ _ _ _ => trivial)
    (fun _ _ _ _ _ _ => trivial) (fun _ _ _ _ _ _ _ _ => trivial)
    (fun _ _ _ _ _ _ _ _ _ _ _ _ => trivial) (fun _ _ _ _ _ => trivial) fuel hfuel
  exact ⟨fin, hrun, hw.trace_le, hw.trace_nodup, hw.slots_nodup⟩

theorem sum_range_update (f f' : Nat → Int) (u : Nat) :
    ∀ n, u < n → (∀ x, x ≠ u → f' x = f x) →
      ((List.range n).map f').sum = ((List.range n).map f).sum + (f' u - f u) := by
  intro n
  induction n with
  | zero => intro h; omega
  | succ n ih =>
    intro hu hf
    rw [List.range_succ, List.map_append, List.map_append, List.sum_append, List.sum_append]
    simp only [List.map_cons, List.map_nil, List.sum_cons, List.sum_nil, add_zero]
    by_cases hun : u = n
    · subst hun
      have : (List.range u).map f' = (List.range u).map f := by
        apply List.map_congr_left
        intro x hx
        rw [List.mem_range] at hx
        exact hf x (by omega)
      rw [this]; ring
    · rw [ih (by omega) hf, hf n (fun e => hun e.symm)]; ring

theorem arcs_nonneg {g : Digraph} (h : g.NonNegative) (x : Nat) (a : Arc)
    (ha : a ∈ g.arcsOf x) : 0 ≤ a.c := by
  unfold Digraph.arcsOf at ha
  cases hx : g.adjacency_list[x]? with
  | none => rw [hx] at ha; simp at ha
  | some arcs =>
    rw [hx] at ha
    exact h arcs (List.mem_iff_getElem?.2 ⟨x, hx⟩) a ha

theorem list_sum_nonneg (l : List Int) (h : ∀ c, c ∈ l → 0 ≤ c) : 0 ≤ l.sum := by
  induction l with
  | nil => simp
  | cons c l ih =>
    rw [List.sum_cons]
    have := h c (List.mem_cons_self _ _)
    have := ih (fun c' hc' => h c' (List.mem_cons_of_mem _ hc'))
    omega

theorem mem_le_list_sum (l : List Int) (h : ∀ c, c ∈ l → 0 ≤ c) (c : Int) (hc : c ∈ l) :
    c ≤ l.sum := by
  induction l with
  | nil => cases hc
  | cons c' l ih =>
    rw [List.sum_cons]
    have h0 := h c' (List.mem_cons_self _ _)
    have hl := list_sum_nonneg l (fun c'' hc'' => h c'' (List.mem_cons_of_mem _ hc''))
    rcases List.mem_cons.1 hc with e | hm
    · subst e; omega
    · have := ih (fun c'' hc'' => h c'' (List.mem_cons_of_mem _ hc'')) hm
      omega

theorem outCost_nonneg {g : Digraph} (h : g.NonNegative) (x : Nat) : 0 ≤ g.outCost x := by
  unfold Digraph.outCost
  apply list_sum_nonneg
  intro c hc
  obtain ⟨a, ha, rfl⟩ := List.mem_map.1 hc
  exact arcs_nonneg h x a ha

theorem arc_le_outCost {g : Digraph} (h : g.NonNegative) (x : Nat) (a : Arc)
    (ha : a ∈ g.arcsOf x) : a.c ≤ g.outCost x := by
  unfold Digraph.outCost
  apply mem_le_list_sum
  · intro c hc
    obtain ⟨b, hb, rfl⟩ := List.mem_map.1 hc
    exact arcs_nonneg h x b hb
  · exact List.mem_map.2 ⟨a, ha, rfl⟩

theorem totalCost_eq {g : Digraph} (h : g.WellSized) :
    g.totalCost = ((List.range g.n_nodes).map g.outCost).sum := by
  unfold Digraph.totalCost
  congr 1
  apply List.ext_getElem?
  intro i
  rw [List.getElem?_map, List.getElem?_map]
  by_cases hi : i < g.n_nodes
  · have hi' : i < g.adjacency_list.length := by rw [h]; exact hi
    rw [List.getElem?_range hi, List.getElem?_eq_getElem hi']
    simp [Digraph.outCost, Digraph.arcsOf, List.getElem?_eq_getElem hi']
  · have hi' : g.adjacency_list.length ≤ i := by rw [h]; omega
    rw [List.getElem?_eq_none hi', List.getElem?_eq_none (by simp; omega)]
    rfl

theorem closedCost_le_total {g : Digraph} (hsize : g.WellSized) (hnn : g.NonNegative) (st : State) :
    closedCost g st ≤ g.totalCost := by
  rw [totalCost_eq hsize]
  unfold closedCost
  apply List.sum_le_sum
  intro x _
  split
  · exact le_refl _
  · exact outCost_nonneg hnn x

theorem walk_nonneg {g : Digraph} (hnn : g.NonNegative) {s v : Nat} {d : Int}
    (h : Walk g s v d) : 0 ≤ d := by
  induction h with
  | nil => exact le_refl _
  | snoc a _ ha ih => have := arcs_nonneg hnn _ a ha; omega

theorem closedChain_walk {g : Digraph} {st : State} {s : Nat} :
    ∀ (cs : List Int) (v : Nat), ClosedChain g st s v cs → Walk g s v cs.sum := by
  intro cs
  induction cs with
  | nil => intro v h; simp only [ClosedChain] at h; subst h; exact Walk.nil
  | cons c cs ih =>
    intro v h
    simp only [ClosedChain] at h
    have hw := ih _ h.2.2
    have := Walk.snoc (Arc.mk v c) hw h.2.1
    simpa [add_comm] using this

theorem closedChain_prevChain {g : Digraph} {st : State} {s : Nat} :
    ∀ (cs : List Int) (v : Nat), ClosedChain g st s v cs → PrevChain g st.previous s v cs := by
  intro cs
  induction cs with
  | nil => intro v h; exact h
  | cons c cs ih =>
    intro v h
    simp only [ClosedChain] at h
    exact ⟨h.2.1, ih _ h.2.2⟩

/-- A chain through closed nodes survives a change of `previous` at a node that
is not closed, and the closing of further nodes. -/
theorem closedChain_stable {g : Digraph} {st st' : State} {s : Nat} (v0 : Nat)
    (hprv : ∀ y, y ≠ v0 → st'.prv y = st.prv y)
    (hclosed : ∀ y, st.stat y = Label.CLOSED → st'.stat y = Label.CLOSED)
    (hv0 : st.stat v0 ≠ Label.CLOSED) :
    ∀ (cs : List Int) (x : Nat), x ≠ v0 ∨ cs = [] → ClosedChain g st s x cs →
      ClosedChain g st' s x cs := by
  intro cs
  induction cs with
  | nil => intro x _ h; exact h
  | cons c cs ih =>
    intro x hx h
    have hx' : x ≠ v0 := by
      rcases hx with h1 | h1
      · exact h1
      · cases h1
    simp only [ClosedChain] at h ⊢
    rw [hprv x hx']
    refine ⟨hclosed _ h.1, h.2.1, ih _ (Or.inl ?_) h.2.2⟩
    intro e
    rw [e] at h
    exact hv0 h.1

theorem Wf.rawd_wrap {bits : Nat} {g : Digraph} {s : Nat} {st : State}
    (hw : Wf bits g s st) (v : Nat) : ∃ y, st.rawd v = wrap bits y := by
  cases hd : st.distance_from_source[v]? with
  | none => exact ⟨0, by rw [rawd_out hd, wrap_zero]⟩
  | some o =>
    cases o with
    | none => exact ⟨0, by rw [rawd_null hd, wrap_zero]⟩
    | some h =>
      obtain ⟨sl, hsl, _⟩ := hw.hnd_slot v h hd
      rw [rawd_eq hd hsl]
      exact hw.key_range h sl hsl

theorem inf_lt (bits : Nat) : Inf bits < (2:Int) ^ bits := by
  unfold Inf; omega

theorem pow_pos_int (bits : Nat) : (0:Int) < 2 ^ bits := by positivity

/-- A recorded distance in `[0, Inf]` is the exact negation of the stored key. -/
theorem Wf.rawd_neg {bits : Nat} {g : Digraph} {s : Nat} {st : State}
    (hw : Wf bits g s st) (v : Nat) (h0 : 0 ≤ st.dist bits v) (h1 : st.dist bits v ≤ Inf bits) :
    st.rawd v = - st.dist bits v := by
  obtain ⟨y, hy⟩ := hw.rawd_wrap v
  have hcc : cneg bits (st.dist bits v) = st.rawd v := by
    unfold State.dist
    rw [hy, cneg_cneg]
  have hp := pow_pos_int bits
  have hi := inf_lt bits
  rw [← hcc, cneg_of_range bits _ (by omega) (by omega)]

theorem cadd_exact (bits : Nat) (x y : Int) (h0 : 0 ≤ x + y) (h1 : x + y ≤ Inf bits) :
    cadd bits x y = x + y := by
  unfold cadd
  have hp := pow_pos_int bits
  have hi := inf_lt bits
  exact wrap_id bits _ (by omega) (by omega)

theorem cneg_cneg_cadd (bits : Nat) (x y : Int) :
    cneg bits (cneg bits (cadd bits x y)) = cadd bits x y := by
  unfold cadd
  exact cneg_cneg bits _

/-- Recorded distances are path costs, hence non-negative, and do not exceed `Inf`. -/
theorem CostInv.dist_range {bits : Nat} {g : Digraph} {s : Nat} {st : State}
    (hc : CostInv bits g s st) (hsize : g.WellSized) (hnn : g.NonNegative)
    (hsum : g.totalCost ≤ Inf bits) (v : Nat) (hv : st.stat v ≠ Label.UNREACHED) :
    0 ≤ st.dist bits v ∧ st.dist bits v ≤ Inf bits := by
  obtain ⟨cs, hch, hs, _⟩ := hc.chain v hv
  have h0 := walk_nonneg hnn (closedChain_walk cs v hch)
  rw [hs] at h0
  have hcc := closedCost_le_total hsize hnn st
  refine ⟨h0, ?_⟩
  cases hl : st.stat v with
  | UNREACHED => exact absurd hl hv
  | LABELED => have := hc.bound_labeled v hl; omega
  | CLOSED =>
    have := hc.bound_closed v hl
    have := outCost_nonneg hnn v
    omega

theorem CostInv.walk {bits : Nat} {g : Digraph} {s : Nat} {st : State}
    (hc : CostInv bits g s st) (v : Nat) (hv : st.stat v ≠ Label.UNREACHED) :
    Walk g s v (st.dist bits v) := by
  obtain ⟨cs, hch, hs, _⟩ := hc.chain v hv
  rw [← hs]
  exact closedChain_walk cs v hch

/-- Every path out of the start node either ends in a closed node whose distance
it does not undercut, or passes a queued node that it does not undercut. -/
theorem frontier {bits : Nat} {g : Digraph} {s : Nat} {st : State}
    (hnn : g.NonNegative) (hi : HeadInv bits g s st) (hs : st.stat s = Label.CLOSED) :
    ∀ (v : Nat) (d : Int), Walk g s v d →
      (st.stat v = Label.CLOSED ∧ st.dist bits v ≤ d) ∨
      (∃ y, st.stat y = Label.LABELED ∧ st.dist bits y ≤ d) := by
  intro v d hw
  induction hw with
  | nil => exact Or.inl ⟨hs, hi.1.optimal s hs 0 Walk.nil⟩
  | snoc a _ ha ih =>
    have hc0 := arcs_nonneg hnn _ a ha
    rcases ih with ⟨hx, hdx⟩ | ⟨y, hy, hdy⟩
    · obtain ⟨hne, hle⟩ := hi.2 _ hx a ha
      cases hl : st.stat a.w with
      | UNREACHED => exact absurd hl hne
      | LABELED => exact Or.inr ⟨a.w, hl, by omega⟩
      | CLOSED => exact Or.inl ⟨rfl, by omega⟩
    · exact Or.inr ⟨y, hy, by omega⟩

theorem closedChain_mono {g : Digraph} {st st' : State} {s : Nat}
    (hprv : ∀ y, st'.prv y = st.prv y)
    (hclosed : ∀ y, st.stat y = Label.CLOSED → st'.stat y = Label.CLOSED) :
    ∀ (cs : List Int) (x : Nat), ClosedChain g st s x cs → ClosedChain g st' s x cs := by
  intro cs
  induction cs with
  | nil => intro x h; exact h
  | cons c cs ih =>
    intro x h
    simp only [ClosedChain] at h ⊢
    rw [hprv x]
    exact ⟨hclosed _ h.1, h.2.1, ih _ h.2.2⟩

theorem dist_congr {bits : Nat} {st st' : State} {x : Nat} (h : st'.rawd x = st.rawd x) :
    st'.dist bits x = st.dist bits x := by
  simp [State.dist, h]

theorem closedCost_pop {g : Digraph} {st st1 : State} {u : Nat} (hu : u < g.n_nodes)
    (hstat : ∀ x, st1.stat x = if x = u then Label.CLOSED else st.stat x)
    (hnc : st.stat u ≠ Label.CLOSED) :
    closedCost g st1 = closedCost g st + g.outCost u := by
  unfold closedCost
  rw [sum_range_update (fun x => if st.stat x = Label.CLOSED then g.outCost x else 0)
    (fun x => if st1.stat x = Label.CLOSED then g.outCost x else 0) u g.n_nodes hu]
  · simp [hstat u, hnc]
  · intro x hx
    simp [hstat x, hx]

theorem costInv_init (bits : Nat) (g : Digraph) (s : Nat) (prev : List Nat)
    (hs : s < g.n_nodes) (hnn : g.NonNegative) :
    CostInv bits g s (closed_start g s prev) := by
  have hstat := closed_start_stat g s prev hs
  have hdist : ∀ x, (closed_start g s prev).dist bits x = 0 := by
    intro x
    simp [State.dist, closed_start_rawd, cneg_zero]
  have hcc : closedCost g (closed_start g s prev) = g.outCost s := by
    unfold closedCost
    rw [sum_range_update (fun _ => 0)
      (fun x => if (closed_start g s prev).stat x = Label.CLOSED then g.outCost x else 0)
      s g.n_nodes hs]
    · simp [hstat s]
    · intro x hx
      simp [hstat x, hx]
  constructor
  · intro v hv
    rw [hstat v] at hv
    by_cases hvs : v = s
    · subst hvs
      refine ⟨[], rfl, by simp [hdist], ?_⟩
      have : (closed_start g v prev).trace.length = 1 := rfl
      rw [this]
      split <;> simp
    · simp [hvs] at hv
  · intro v hv
    rw [hstat v] at hv
    split at hv <;> cases hv
  · intro v hv
    rw [hstat v] at hv
    by_cases hvs : v = s
    · subst hvs; rw [hdist, hcc]; omega
    · simp [hvs] at hv
  · intro v _ d hw
    rw [hdist]
    exact walk_nonneg hnn hw

theorem costInv_pop {bits : Nat} {g : Digraph} {s : Nat} {st st1 : State} {u : Nat}
    (hsize : g.WellSized) (hnn : g.NonNegative) (hsum : g.totalCost ≤ Inf bits)
    (hw : Wf bits g s st) (hi : HeadInv bits g s st) (hp : Popped st st1 u) :
    CostInv bits g s st1 := by
  obtain ⟨hlab, hmax, hstat, hrawd, hprv, htrace⟩ := hp
  have hu : u < g.n_nodes := by
    rw [← hw.len_status]
    have := get_of_stat hlab (by decide)
    by_contra hc
    rw [List.getElem?_eq_none (by omega)] at this
    cases this
  have hdist : ∀ x, st1.dist bits x = st.dist bits x := fun x => dist_congr (hrawd x)
  have hcc := closedCost_pop hu hstat (by rw [hlab]; decide)
  have hout := outCost_nonneg hnn u
  have hold : ∀ v, st1.stat v ≠ Label.UNREACHED → st.stat v ≠ Label.UNREACHED := by
    intro v hv he
    rw [hstat v] at hv
    by_cases hvu : v = u
    · subst hvu; rw [hlab] at he; cases he
    · simp [hvu] at hv; exact hv he
  have hmono : ∀ y, st.stat y = Label.CLOSED → st1.stat y = Label.CLOSED := by
    intro y hy
    rw [hstat y]; split
    · rfl
    · exact hy
  have hs : st.stat s = Label.CLOSED := stat_eq_of_get hw.start_closed
  constructor
  · intro v hv
    obtain ⟨cs, hch, hsum', hlen⟩ := hi.1.chain v (hold v hv)
    refine ⟨cs, closedChain_mono hprv hmono cs v hch, by rw [hdist]; exact hsum', ?_⟩
    rw [htrace, List.length_append, List.length_singleton]
    by_cases hvu : v = u
    · subst hvu
      rw [hlab] at hlen
      simp at hlen
      split <;> omega
    · rw [hstat v]
      simp only [hvu, if_false]
      omega
  · intro v hv
    rw [hstat v] at hv
    by_cases hvu : v = u
    · simp [hvu] at hv
    · simp only [hvu, if_false] at hv
      have := hi.1.bound_labeled v hv
      rw [hdist, hcc]; omega
  · intro v hv
    rw [hstat v] at hv
    rw [hdist, hcc]
    by_cases hvu : v = u
    · subst hvu
      have := hi.1.bound_labeled v hlab
      omega
    · simp only [hvu, if_false] at hv
      have := hi.1.bound_closed v hv
      omega
  · intro v hv d hwalk
    rw [hstat v] at hv
    rw [hdist]
    by_cases hvu : v = u
    · subst hvu
      rcases frontier hnn hi hs v d hwalk with ⟨hcl, _⟩ | ⟨y, hy, hdy⟩
      · rw [hlab] at hcl; cases hcl
      · have hry := hi.1.dist_range hsize hnn hsum y (by rw [hy]; decide)
        have hrv := hi.1.dist_range hsize hnn hsum v (by rw [hlab]; decide)
        have h1 := hw.rawd_neg y hry.1 hry.2
        have h2 := hw.rawd_neg v hrv.1 hrv.2
        have := hmax y hy
        omega
    · simp only [hvu, if_false] at hv
      exact hi.1.optimal v hv d hwalk

theorem closedCost_congr {g : Digraph} {st st' : State}
    (h : ∀ x, st'.stat x = Label.CLOSED ↔ st.stat x = Label.CLOSED) :
    closedCost g st' = closedCost g st := by
  unfold closedCost
  congr 1
  apply List.map_congr_left
  intro x _
  by_cases hx : st.stat x = Label.CLOSED
  · simp [hx, (h x).2 hx]
  · have : ¬ st'.stat x = Label.CLOSED := fun e => hx ((h x).1 e)
    simp [hx, this]

theorem midInv_relax {bits : Nat} {g : Digraph} {s : Nat}
    (hsize : g.WellSized) (hnn : g.NonNegative) (hsum : g.totalCost ≤ Inf bits)
    (u : Nat) (Du : Int) (pre : List Arc) (a : Arc) (post : List Arc) (st st' : State)
    (harcs : g.arcsOf u = pre ++ a :: post)
    (hm : MidInv bits g s u Du pre st) (hr : Relaxed bits u Du a st st') :
    MidInv bits g s u Du (pre ++ [a]) st' := by
  obtain ⟨hc, hcu, hdu, hrel, hpre⟩ := hm
  have ha : a ∈ g.arcsOf u := by rw [harcs]; simp
  have hac := arcs_nonneg hnn u a ha
  have haout := arc_le_outCost hnn u a ha
  have hru := hc.dist_range hsize hnn hsum u (by rw [hcu]; decide)
  have hbu := hc.bound_closed u hcu
  have hcct := closedCost_le_total hsize hnn st
  rw [hdu] at hru hbu
  have hexact : cadd bits Du a.c = Du + a.c := cadd_exact bits Du a.c (by omega) (by omega)
  have hwalk_u : Walk g s u Du := by
    have := hc.walk u (by rw [hcu]; decide)
    rwa [hdu] at this
  obtain ⟨htr, hcase⟩ := hr
  rcases hcase with ⟨heq, hcond⟩ | ⟨hnc, hcond, hstat', hrawd', hprv'⟩
  · subst heq
    refine ⟨hc, hcu, hdu, hrel, ?_⟩
    intro b hb
    rcases List.mem_append.1 hb with hb | hb
    · exact hpre b hb
    · simp at hb; subst hb
      rcases hcond with hcl | ⟨hl, hle⟩
      · refine ⟨by rw [hcl]; decide, ?_⟩
        exact hc.optimal _ hcl _ (Walk.snoc b hwalk_u ha)
      · refine ⟨by rw [hl]; decide, ?_⟩
        rw [hexact] at hle; exact hle
  · have hvu : a.w ≠ u := by
      intro e; rw [e] at hnc; exact hnc hcu
    have hdist' : ∀ x, st'.dist bits x = if x = a.w then Du + a.c else st.dist bits x := by
      intro x
      unfold State.dist
      rw [hrawd' x]
      by_cases hx : x = a.w
      · simp only [hx, if_true]
        rw [cneg_cneg_cadd, hexact]
      · simp only [hx, if_false]
    have hclosed_iff : ∀ x, st'.stat x = Label.CLOSED ↔ st.stat x = Label.CLOSED := by
      intro x
      rw [hstat' x]
      by_cases hx : x = a.w
      · subst hx
        simp only [if_true]
        constructor
        · intro h; cases h
        · intro h; exact absurd h hnc
      · simp only [hx, if_false]
    have hcc' := closedCost_congr (g := g) hclosed_iff
    have hmono : ∀ y, st.stat y ≠ Label.UNREACHED →
        st'.stat y ≠ Label.UNREACHED ∧ st'.dist bits y ≤ st.dist bits y := by
      intro y hy
      rw [hstat' y, hdist' y]
      by_cases hyv : y = a.w
      · subst hyv
        simp only [if_true]
        refine ⟨by decide, ?_⟩
        rcases hcond with h1 | h1
        · exact absurd h1 hy
        · rw [hexact] at h1; omega
      · simp only [hyv, if_false]
        exact ⟨hy, le_refl _⟩
    have hstable : ∀ (cs : List Int) (x : Nat), x ≠ a.w → ClosedChain g st s x cs →
        ClosedChain g st' s x cs := by
      intro cs x hx
      apply closedChain_stable a.w (fun y hy => by rw [hprv' y]; simp [hy])
        (fun y hy => (hclosed_iff y).2 hy) hnc cs x (Or.inl hx)
    have hc' : CostInv bits g s st' := by
      constructor
      · intro x hx
        by_cases hxv : x = a.w
        · obtain ⟨cs, hch, hsum', hlen⟩ := hc.chain u (by rw [hcu]; decide)
          refine ⟨a.c :: cs, ?_, ?_, ?_⟩
          · rw [hxv]
            simp only [ClosedChain]
            have hp : st'.prv a.w = u := by rw [hprv' a.w]; simp
            rw [hp]
            exact ⟨(hclosed_iff u).2 hcu, ha, hstable cs u (Ne.symm hvu) hch⟩
          · rw [hdist' x]
            simp only [hxv, if_true, List.sum_cons]
            rw [hsum', hdu]; ring
          · rw [htr, hstat' x]
            simp only [hxv, if_true, List.length_cons]
            rw [hcu] at hlen
            simp at hlen ⊢
            omega
        · have hxs : st'.stat x = st.stat x := by rw [hstat' x]; simp [hxv]
          rw [hxs] at hx
          obtain ⟨cs, hch, hsum', hlen⟩ := hc.chain x hx
          refine ⟨cs, hstable cs x hxv hch, ?_, ?_⟩
          · rw [hdist' x]; simp only [hxv, if_false]; exact hsum'
          · rw [htr, hxs]; exact hlen
      · intro x hx
        rw [hcc', hdist' x]
        by_cases hxv : x = a.w
        · simp only [hxv, if_true]; omega
        · simp only [hxv, if_false]
          rw [hstat' x] at hx
          simp only [hxv, if_false] at hx
          exact hc.bound_labeled x hx
      · intro x hx
        have hx0 := (hclosed_iff x).1 hx
        have hxv : x ≠ a.w := by intro e; rw [e] at hx0; exact hnc hx0
        rw [hcc', hdist' x]
        simp only [hxv, if_false]
        exact hc.bound_closed x hx0
      · intro x hx d hwalk
        have hx0 := (hclosed_iff x).1 hx
        have hxv : x ≠ a.w := by intro e; rw [e] at hx0; exact hnc hx0
        rw [hdist' x]
        simp only [hxv, if_false]
        exact hc.optimal x hx0 d hwalk
    refine ⟨hc', (hclosed_iff u).2 hcu, ?_, ?_, ?_⟩
    · rw [hdist' u]; simp only [Ne.symm hvu, if_false]; exact hdu
    · intro x hxu hx b hb
      have hx0 := (hclosed_iff x).1 hx
      have hxv : x ≠ a.w := by intro e; rw [e] at hx0; exact hnc hx0
      obtain ⟨h1, h2⟩ := hrel x hxu hx0 b hb
      obtain ⟨h3, h4⟩ := hmono b.w h1
      refine ⟨h3, ?_⟩
      have : st'.dist bits x = st.dist bits x := by rw [hdist' x]; simp [hxv]
      rw [this]; omega
    · intro b hb
      rcases List.mem_append.1 hb with hb | hb
      · obtain ⟨h1, h2⟩ := hpre b hb
        obtain ⟨h3, h4⟩ := hmono b.w h1
        exact ⟨h3, by omega⟩
      · simp at hb; subst hb
        rw [hstat' b.w, hdist' b.w]
        simp

/-- The read `-(*distance_from_source[v]).d` is defined for every node that has
been labeled. -/
theorem Wf.distance_ok {bits : Nat} {g : Digraph} {s : Nat} {st : State}
    (hw : Wf bits g s st) (v : Nat) (hv : st.stat v ≠ Label.UNREACHED) :
    st.distance bits v = .ok (st.dist bits v) := by
  cases hl : st.stat v with
  | UNREACHED => exact absurd hl hv
  | LABELED =>
    obtain ⟨h, sl, hd, hsl, _, _⟩ := hw.slot_of_status (get_of_stat hl (by decide)) (by decide)
    simp [State.distance, State.dist, deref_eq hd hsl, rawd_eq hd hsl]
  | CLOSED =>
    obtain ⟨h, sl, hd, hsl, _, _⟩ := hw.slot_of_status (get_of_stat hl (by decide)) (by decide)
    simp [State.distance, State.dist, deref_eq hd hsl, rawd_eq hd hsl]

/-- The run of `shortest_path` on a graph with non-negative costs whose total
does not exceed `Inf`: it ends within `n_nodes` iterations in a consistent state
where the invariants on recorded distances hold and a reachable end node is
closed. -/
theorem run_exit (R : TopRule) (bits : Nat) (g : Digraph) (s t : Nat) (prev : List Nat)
    (fuel : Nat) (hsize : g.WellSized) (htgt : g.TargetsInRange) (hnn : g.NonNegative)
    (hsum : g.totalCost ≤ Inf bits) (hs : s < g.n_nodes) (hprev : g.n_nodes ≤ prev.length)
    (hfuel : g.n_nodes ≤ fuel) :
    ∃ fin, run R bits g s t prev fuel = .ok fin ∧ Wf bits g s fin ∧ ExitInv bits g s t fin := by
  apply @run_rule R bits g s t prev hs hprev hsize (targets_of_range htgt)
    (HeadInv bits g s) (MidInv bits g s) (ExitInv bits g s t)
  · intro hst
    refine ⟨costInv_init bits g s prev hs hnn, fun _ => ?_⟩
    rw [← hst, closed_start_stat g s prev hs]; simp
  · intro _
    refine ⟨costInv_init bits g s prev hs hnn, ?_, ?_, ?_, ?_⟩
    · rw [closed_start_stat g s prev hs]; simp
    · simp [State.dist, closed_start_rawd, cneg_zero]
    · intro x hx hc
      rw [closed_start_stat g s prev hs] at hc
      simp [hx] at hc
    · intro a ha; cases ha
  · intro st hw hi hno
    refine ⟨hi.1, fun ⟨d, hwalk⟩ => ?_⟩
    rcases frontier hnn hi (stat_eq_of_get hw.start_closed) t d hwalk with ⟨h, _⟩ | ⟨y, hy, _⟩
    · exact h
    · exact absurd hy (hno y)
  · intro st st1 hw hi hp _
    refine ⟨costInv_pop hsize hnn hsum hw hi hp, fun _ => ?_⟩
    rw [hp.2.2.1 t]; simp
  · intro st st1 u hw hi hp _ _
    refine ⟨costInv_pop hsize hnn hsum hw hi hp, ?_, rfl, ?_, ?_⟩
    · rw [hp.2.2.1 u]; simp
    · intro x hxu hx b hb
      rw [hp.2.2.1 x] at hx
      simp only [hxu, if_false] at hx
      obtain ⟨h1, h2⟩ := hi.2 x hx b hb
      refine ⟨?_, ?_⟩
      · rw [hp.2.2.1 b.w]
        split
        · decide
        · exact h1
      · rw [dist_congr (hp.2.2.2.1 b.w), dist_congr (hp.2.2.2.1 x)]; exact h2
    · intro a ha; cases ha
  · intro u Du pre a post st st' harcs _ hm hr _
    exact midInv_relax hsize hnn hsum u Du pre a post st st' harcs hm hr
  · intro u Du st _ hm
    obtain ⟨hc, hcu, hdu, hrel, hpre⟩ := hm
    refine ⟨hc, ?_⟩
    intro x hx
    by_cases hxu : x = u
    · subst hxu
      intro b hb
      rw [hdu]
      exact hpre b hb
    · exact hrel x hxu hx
  · exact hfuel

/-- C1: on a graph with non-negative costs whose total does not exceed `Inf`,
for an end node reachable from the start node, `shortest_path` returns the
minimum of the costs of the directed paths from the start node to the end node. -/
theorem shortest_path_returns_minimum (R : TopRule) (bits : Nat) (g : Digraph)
    (start_node end_node : Nat) (previous : List Nat) (fuel : Nat)
    (hsize : g.WellSized) (htgt : g.TargetsInRange) (hnn : g.NonNegative)
    (hsum : g.totalCost ≤ Inf bits)
    (hs : start_node < g.n_nodes) (_ht : end_node < g.n_nodes)
    (hprev : g.n_nodes ≤ previous.length) (hfuel : g.n_nodes ≤ fuel)
    (hreach : ∃ d, Walk g start_node end_node d) :
    ∃ cost previous', shortest_path R bits g start_node end_node previous fuel =
        .ok (cost, previous') ∧
      Walk g start_node end_node cost ∧
      ∀ d, Walk g start_node end_node d → cost ≤ d := by
  obtain ⟨fin, hrun, hw, hc, hcl⟩ :=
    run_exit R bits g start_node end_node previous fuel hsize htgt hnn hsum hs hprev hfuel
  have hclosed := hcl hreach
  have hne : fin.stat end_node ≠ Label.UNREACHED := by rw [hclosed]; decide
  refine ⟨fin.dist bits end_node, fin.previous, ?_, hc.walk end_node hne,
    hc.optimal end_node hclosed⟩
  simp [shortest_path, hrun, hw.distance_ok end_node hne]

/-- C3, as amended: on a graph with non-negative costs whose total does not
exceed `Inf`, for every node that has been labeled when `shortest_path` leaves
its loop, the recorded distance is the sum of the arc costs along its
predecessor chain back to the start node. -/
theorem recorded_distance_is_chain_cost (R : TopRule) (bits : Nat) (g : Digraph)
    (start_node end_node : Nat) (previous : List Nat) (fuel : Nat)
    (hsize : g.WellSized) (htgt : g.TargetsInRange) (hnn : g.NonNegative)
    (hsum : g.totalCost ≤ Inf bits)
    (hs : start_node < g.n_nodes)
    (hprev : g.n_nodes ≤ previous.length) (hfuel : g.n_nodes ≤ fuel) :
    ∃ fin, run R bits g start_node end_node previous fuel = .ok fin ∧
      ∀ v, fin.stat v ≠ Label.UNREACHED →
        ∃ (D : Int) (cs : List Int), fin.distance bits v = .ok D ∧
          PrevChain g fin.previous start_node v cs ∧ cs.sum = D := by
  obtain ⟨fin, hrun, hw, hc, _⟩ :=
    run_exit R bits g start_node end_node previous fuel hsize htgt hnn hsum hs hprev hfuel
  refine ⟨fin, hrun, fun v hv => ?_⟩
  obtain ⟨cs, hch, hsum', _⟩ := hc.chain v hv
  exact ⟨fin.dist bits v, cs, hw.distance_ok v hv, closedChain_prevChain cs v hch, hsum'⟩

/-- C10: `addArc` on a node of the graph appends the arc to that node's list and
touches nothing else; the arc is appended whether or not an equal arc is already
present and whether or not it is a self-loop. -/
theorem addArc_appends (g : Digraph) (source_node target_node : Nat) (cost : Int)
    (hsize : g.WellSized) (hs : source_node < g.n_nodes) :
    ∃ g', g.addArc source_node target_node cost = .ok g' ∧
      g'.arcsOf source_node = g.arcsOf source_node ++ [Arc.mk target_node cost] ∧
      (∀ x, x ≠ source_node → g'.arcsOf x = g.arcsOf x) ∧
      g'.adjacency_list.length = g.adjacency_list.length ∧
      g'.n_nodes = g.n_nodes := by
  have hlt : source_node < g.adjacency_list.length := by rw [hsize]; exact hs
  refine ⟨Digraph.mk g.n_nodes g.m_edges (g.adjacency_list.set source_node
      (g.arcsOf source_node ++ [Arc.mk target_node cost])), ?_, ?_, ?_, ?_, rfl⟩
  · simp [Digraph.addArc, Digraph.arcsOf, List.getElem?_eq_getElem hlt]
  · simp only [Digraph.arcsOf]
    rw [List.getElem?_set_self hlt]
    rfl
  · intro x hx
    simp only [Digraph.arcsOf]
    rw [List.getElem?_set_ne (Ne.symm hx)]
  · simp

/-- C7: with the end node equal to the start node, `shortest_path` returns 0
and leaves `previous` as it was, whatever the arcs of the graph. -/
theorem shortest_path_same_node (R : TopRule) (bits : Nat) (g : Digraph) (s : Nat)
    (previous : List Nat) (fuel : Nat) (hs : s < g.n_nodes) (hfuel : 1 ≤ fuel) :
    shortest_path R bits g s s previous fuel = .ok (0, previous) := by
  obtain ⟨st0, h0, hne, hpc⟩ := pop_close_init R bits g s previous hs
  cases fuel with
  | zero => omega
  | succ fuel =>
    have hrun : run R bits g s s previous (fuel + 1) = .ok (closed_start g s previous) := by
      simp [run, h0, loop, hne, hpc]
    have hd : (closed_start g s previous).distance bits s = .ok 0 := by
      have h1 : (closed_start g s previous).distance_from_source[s]? = some (some 0) := by
        simp only [closed_start]
        rw [List.getElem?_set_self (by simpa using hs)]
      have h2 : (closed_start g s previous).digraph_priority_queue[0]? =
          some (Slot.mk (ValueKey.mk 0 s) false) := rfl
      simp [State.distance, deref_eq h1 h2, cneg_zero]
    simp only [shortest_path, hrun, hd]
    rfl

/-- When one queued entry is strictly larger than all others, `top` returns it. -/
theorem top_unique_max (R : TopRule) (q : PriorityQueue) (h : Nat) (sl : Slot)
    (hsl : q[h]? = some sl) (hl : sl.live = true)
    (hmax : ∀ (h' : Nat) (sl' : Slot), q[h']? = some sl' → sl'.live = true → h' ≠ h →
      sl'.key.d < sl.key.d) :
    R.top q = h := by
  have hne : q.empty = false := by
    unfold PriorityQueue.empty
    rw [List.all_eq_false]
    exact ⟨sl, List.mem_iff_getElem?.2 ⟨h, hsl⟩, by simp [hl]⟩
  obtain ⟨s, hs, hsl', hsmax⟩ := R.top_spec q hne
  by_contra hc
  have h1 := hmax (R.top q) s hs hsl' hc
  have h2 := hsmax sl (List.mem_iff_getElem?.2 ⟨h, hsl⟩) hl
  omega

theorem cadd_zero_left (bits : Nat) (a : Int) (h0 : 0 ≤ a) (h1 : a ≤ Inf bits) :
    cadd bits 0 a = a := by
  rw [cadd_exact bits 0 a (by omega) (by omega)]; simp

theorem cneg_cneg_range (bits : Nat) (a : Int) (h0 : 0 ≤ a) (h1 : a ≤ Inf bits) :
    cneg bits (cneg bits a) = a := by
  have hp := pow_pos_int bits
  have hi := inf_lt bits
  rw [cneg_of_range bits a (by omega) (by omega), cneg_of_range bits (-a) (by omega) (by omega)]
  simp

/-- The second iteration on the two-node graph: the only queued entry is the
one of node 1, which is the end node. -/
theorem parallel_second (R : TopRule) (bits : Nat) (m : Int) (a b : Int) (k : Int)
    (prev : List Nat) (fuel : Nat) :
    loop R bits (Digraph.mk 2 m [[Arc.mk 1 a, Arc.mk 1 b], []]) 1 (fuel + 1)
      { digraph_priority_queue :=
          [Slot.mk (ValueKey.mk 0 0) false, Slot.mk (ValueKey.mk k 1) true]
        distance_from_source := [some 0, some 1]
        node_status := [Label.CLOSED, Label.LABELED]
        previous := prev
        trace := [ValueKey.mk 0 0] } = .ok
      { digraph_priority_queue :=
          [Slot.mk (ValueKey.mk 0 0) false, Slot.mk (ValueKey.mk k 1) false]
        distance_from_source := [some 0, some 1]
        node_status := [Label.CLOSED, Label.CLOSED]
        previous := prev
        trace := [ValueKey.mk 0 0, ValueKey.mk k 1] } := by
  have htop : R.top
      [Slot.mk (ValueKey.mk 0 0) false, Slot.mk (ValueKey.mk k 1) true] = 1 := by
    apply top_unique_max R _ 1 (Slot.mk (ValueKey.mk k 1) true) rfl rfl
    intro h' sl' hs' hl' hne'
    match h', hs', hne' with
    | 0, hs', _ => simp at hs'; subst hs'; simp at hl'
    | h' + 2, hs', _ => simp at hs'
  simp [loop, PriorityQueue.empty, pop_close, htop, PriorityQueue.pop, State.deref,
    State.handleOf, State.keyAt]

/-- The run on the two-node graph with two parallel arcs `0 → 1`. -/
theorem parallel_run (R : TopRule) (bits : Nat) (a b : Int) (m : Int) (previous : List Nat)
    (fuel : Nat) (ha0 : 0 ≤ a) (ha1 : a ≤ Inf bits) (hb0 : 0 ≤ b) (hb1 : b ≤ Inf bits)
    (hprev : 2 ≤ previous.length) (hfuel : 2 ≤ fuel) :
    shortest_path R bits (Digraph.mk 2 m [[Arc.mk 1 a, Arc.mk 1 b], []]) 0 1 previous fuel =
      .ok (min a b, previous.set 1 0) := by
  obtain ⟨st0, h0, hne, hpc⟩ := pop_close_init R bits
    (Digraph.mk 2 m [[Arc.mk 1 a, Arc.mk 1 b], []]) 0 previous (show 0 < 2 by omega)
  have hp1 : 1 < previous.length := by omega
  match fuel, hfuel with
  | fuel + 2, _ =>
    have hrel : ∃ k, cneg bits k = min a b ∧ relax_arcs bits 0 0
        (closed_start (Digraph.mk 2 m [[Arc.mk 1 a, Arc.mk 1 b], []]) 0 previous)
        [Arc.mk 1 a, Arc.mk 1 b] = .ok
        { digraph_priority_queue :=
            [Slot.mk (ValueKey.mk 0 0) false, Slot.mk (ValueKey.mk k 1) true]
          distance_from_source := [some 0, some 1]
          node_status := [Label.CLOSED, Label.LABELED]
          previous := previous.set 1 0
          trace := [ValueKey.mk 0 0] } := by
      by_cases hab : a > b
      · refine ⟨cneg bits b, ?_, ?_⟩
        · rw [cneg_cneg_range bits b hb0 hb1]; omega
        · simp [relax_arcs, relax_arc, closed_start, hp1, PriorityQueue.push, State.handleOf,
            State.keyAt, PriorityQueue.increase, cadd_zero_left, ha0, ha1, hb0, hb1,
            cneg_cneg_range, hab]
      · refine ⟨cneg bits a, ?_, ?_⟩
        · rw [cneg_cneg_range bits a ha0 ha1]; omega
        · simp [relax_arcs, relax_arc, closed_start, hp1, PriorityQueue.push, State.handleOf,
            State.keyAt, PriorityQueue.increase, cadd_zero_left, ha0, ha1, hb0, hb1,
            cneg_cneg_range, hab]
    obtain ⟨k, hk, hrel⟩ := hrel
    have hrun : run R bits (Digraph.mk 2 m [[Arc.mk 1 a, Arc.mk 1 b], []]) 0 1 previous
        (fuel + 2) = .ok
        { digraph_priority_queue :=
            [Slot.mk (ValueKey.mk 0 0) false, Slot.mk (ValueKey.mk k 1) false]
          distance_from_source := [some 0, some 1]
          node_status := [Label.CLOSED, Label.CLOSED]
          previous := previous.set 1 0
          trace := [ValueKey.mk 0 0, ValueKey.mk k 1] } := by
      simp only [run, h0]
      rw [loop]
      simp only [hne, hpc, show ¬ (0 = 1) by decide, if_false, Bool.false_eq_true,
        List.getElem?_cons_zero, hrel]
      exact parallel_second R bits m a b k (previous.set 1 0) fuel
    simp [shortest_path, hrun, State.distance, State.deref, State.handleOf, State.keyAt, hk]

theorem cadd_small (bits : Nat) (hb : 6 ≤ Inf bits) (x y : Int) (h0 : 0 ≤ x + y)
    (h1 : x + y ≤ 6) : cadd bits x y = x + y :=
  cadd_exact bits x y h0 (by omega)

theorem cneg_small (bits : Nat) (hb : 6 ≤ Inf bits) (x : Int) (h0 : -6 ≤ x) (h1 : x ≤ 6) :
    cneg bits x = -x := by
  have hi := inf_lt bits
  exact cneg_of_range bits x (by omega) (by omega)

/-- The run on the four-node example graph. -/
theorem example_run (R : TopRule) (bits : Nat) (m : Int) (previous : List Nat) (fuel : Nat)
    (hb : 6 ≤ Inf bits) (hprev : 4 ≤ previous.length) (hfuel : 4 ≤ fuel) :
    run R bits (Digraph.mk 4 m
        [[Arc.mk 1 4, Arc.mk 2 1], [Arc.mk 3 1], [Arc.mk 1 2, Arc.mk 3 5], []])
      0 3 previous fuel = .ok
      { digraph_priority_queue :=
          [Slot.mk (ValueKey.mk 0 0) false, Slot.mk (ValueKey.mk (-3) 1) false,
           Slot.mk (ValueKey.mk (-1) 2) false, Slot.mk (ValueKey.mk (-4) 3) false]
        distance_from_source := [some 0, some 1, some 2, some 3]
        node_status := [Label.CLOSED, Label.CLOSED, Label.CLOSED, Label.CLOSED]
        previous := ((((previous.set 1 0).set 2 0).set 1 2).set 3 2).set 3 1
        trace := [ValueKey.mk 0 0, ValueKey.mk (-1) 2, ValueKey.mk (-3) 1, ValueKey.mk (-4) 3] } := by
  obtain ⟨st0, h0, hne, hpc⟩ := pop_close_init R bits (Digraph.mk 4 m
        [[Arc.mk 1 4, Arc.mk 2 1], [Arc.mk 3 1], [Arc.mk 1 2, Arc.mk 3 5], []])
    0 previous (show 0 < 4 by omega)
  have hp1 : 1 < previous.length := by omega
  have hp2 : 2 < previous.length := by omega
  have hp3 : 3 < previous.length := by omega
  have ca := cadd_small bits hb
  have cn := cneg_small bits hb
  match fuel, hfuel with
  | fuel + 4, _ =>
    -- arcs of node 0
    have hrel0 : relax_arcs bits 0 0
        (closed_start (Digraph.mk 4 m
          [[Arc.mk 1 4, Arc.mk 2 1], [Arc.mk 3 1], [Arc.mk 1 2, Arc.mk 3 5], []]) 0 previous)
        [Arc.mk 1 4, Arc.mk 2 1] = .ok
        { digraph_priority_queue :=
            [Slot.mk (ValueKey.mk 0 0) false, Slot.mk (ValueKey.mk (-4) 1) true,
             Slot.mk (ValueKey.mk (-1) 2) true]
          distance_from_source := [some 0, some 1, some 2, none]
          node_status := [Label.CLOSED, Label.LABELED, Label.LABELED, Label.UNREACHED]
          previous := (previous.set 1 0).set 2 0
          trace := [ValueKey.mk 0 0] } := by
      simp [relax_arcs, relax_arc, closed_start, hp1, hp2, PriorityQueue.push, ca, cn]
    -- second iteration: node 2 is popped
    have htop1 : R.top
        [Slot.mk (ValueKey.mk 0 0) false, Slot.mk (ValueKey.mk (-4) 1) true,
         Slot.mk (ValueKey.mk (-1) 2) true] = 2 := by
      apply top_unique_max R _ 2 (Slot.mk (ValueKey.mk (-1) 2) true) rfl rfl
      intro h' sl' hs' hl' hne'
      match h', hs', hne' with
      | 0, hs', _ => simp at hs'; subst hs'; simp at hl'
      | 1, hs', _ => simp at hs'; subst hs'; decide
      | h' + 3, hs', _ => simp at hs'
    have hiter1 : loop R bits (Digraph.mk 4 m
          [[Arc.mk 1 4, Arc.mk 2 1], [Arc.mk 3 1], [Arc.mk 1 2, Arc.mk 3 5], []]) 3 (fuel + 3)
        { digraph_priority_queue :=
            [Slot.mk (ValueKey.mk 0 0) false, Slot.mk (ValueKey.mk (-4) 1) true,
             Slot.mk (ValueKey.mk (-1) 2) true]
          distance_from_source := [some 0, some 1, some 2, none]
          node_status := [Label.CLOSED, Label.LABELED, Label.LABELED, Label.UNREACHED]
          previous := (previous.set 1 0).set 2 0
          trace := [ValueKey.mk 0 0] } =
        loop R bits (Digraph.mk 4 m
          [[Arc.mk 1 4, Arc.mk 2 1], [Arc.mk 3 1], [Arc.mk 1 2, Arc.mk 3 5], []]) 3 (fuel + 2)
        { digraph_priority_queue :=
            [Slot.mk (ValueKey.mk 0 0) false, Slot.mk (ValueKey.mk (-3) 1) true,
             Slot.mk (ValueKey.mk (-1) 2) false, Slot.mk (ValueKey.mk (-6) 3) true]
          distance_from_source := [some 0, some 1, some 2, some 3]
          node_status := [Label.CLOSED, Label.LABELED, Label.CLOSED, Label.LABELED]
          previous := (((previous.set 1 0).set 2 0).set 1 2).set 3 2
          trace := [ValueKey.mk 0 0, ValueKey.mk (-1) 2] } := by
      rw [loop]
      simp [PriorityQueue.empty, pop_close, htop1, PriorityQueue.pop, State.deref,
        State.handleOf, State.keyAt, relax_arcs, relax_arc, hp1, hp2, hp3, PriorityQueue.push,
        PriorityQueue.increase, ca, cn]
    -- third iteration: node 1 is popped
    have htop2 : R.top
        [Slot.mk (ValueKey.mk 0 0) false, Slot.mk (ValueKey.mk (-3) 1) true,
         Slot.mk (ValueKey.mk (-1) 2) false, Slot.mk (ValueKey.mk (-6) 3) true] = 1 := by
      apply top_unique_max R _ 1 (Slot.mk (ValueKey.mk (-3) 1) true) rfl rfl
      intro h' sl' hs' hl' hne'
      match h', hs', hne' with
      | 0, hs', _ => simp at hs'; subst hs'; simp at hl'
      | 2, hs', _ => simp at hs'; subst hs'; simp at hl'
      | 3, hs', _ => simp at hs'; subst hs'; decide
      | h' + 4, hs', _ => simp at hs'
    have hiter2 : loop R bits (Digraph.mk 4 m
          [[Arc.mk 1 4, Arc.mk 2 1], [Arc.mk 3 1], [Arc.mk 1 2, Arc.mk 3 5], []]) 3 (fuel + 2)
        { digraph_priority_queue :=
            [Slot.mk (ValueKey.mk 0 0) false, Slot.mk (ValueKey.mk (-3) 1) true,
             Slot.mk (ValueKey.mk (-1) 2) false, Slot.mk (ValueKey.mk (-6) 3) true]
          distance_from_source := [some 0, some 1, some 2, some 3]
          node_status := [Label.CLOSED, Label.LABELED, Label.CLOSED, Label.LABELED]
          previous := (((previous.set 1 0).set 2 0).set 1 2).set 3 2
          trace := [ValueKey.mk 0 0, ValueKey.mk (-1) 2] } =
        loop R bits (Digraph.mk 4 m
          [[Arc.mk 1 4, Arc.mk 2 1], [Arc.mk 3 1], [Arc.mk 1 2, Arc.mk 3 5], []]) 3 (fuel + 1)
        { digraph_priority_queue :=
            [Slot.mk (ValueKey.mk 0 0) false, Slot.mk (ValueKey.mk (-3) 1) false,
             Slot.mk (ValueKey.mk (-1) 2) false, Slot.mk (ValueKey.mk (-4) 3) true]
          distance_from_source := [some 0, some 1, some 2, some 3]
          node_status := [Label.CLOSED, Label.CLOSED, Label.CLOSED, Label.LABELED]
          previous := ((((previous.set 1 0).set 2 0).set 1 2).set 3 2).set 3 1
          trace := [ValueKey.mk 0 0, ValueKey.mk (-1) 2, ValueKey.mk (-3) 1] } := by
      rw [loop]
      simp [PriorityQueue.empty, pop_close, htop2, PriorityQueue.pop, State.deref,
        State.handleOf, State.keyAt, relax_arcs, relax_arc, hp1, hp2, hp3, PriorityQueue.push,
        PriorityQueue.increase, ca, cn]
    -- fourth iteration: node 3, the end node, is popped
    have htop3 : R.top
        [Slot.mk (ValueKey.mk 0 0) false, Slot.mk (ValueKey.mk (-3) 1) false,
         Slot.mk (ValueKey.mk (-1) 2) false, Slot.mk (ValueKey.mk (-4) 3) true] = 3 := by
      apply top_unique_max R _ 3 (Slot.mk (ValueKey.mk (-4) 3) true) rfl rfl
      intro h' sl' hs' hl' hne'
      match h', hs', hne' with
      | 0, hs', _ => simp at hs'; subst hs'; simp at hl'
      | 1, hs', _ => simp at hs'; subst hs'; simp at hl'
      | 2, hs', _ => simp at hs'; subst hs'; simp at hl'
      | h' + 4, hs', _ => simp at hs'
    have hiter3 : loop R bits (Digraph.mk 4 m
          [[Arc.mk 1 4, Arc.mk 2 1], [Arc.mk 3 1], [Arc.mk 1 2, Arc.mk 3 5], []]) 3 (fuel + 1)
        { digraph_priority_queue :=
            [Slot.mk (ValueKey.mk 0 0) false, Slot.mk (ValueKey.mk (-3) 1) false,
             Slot.mk (ValueKey.mk (-1) 2) false, Slot.mk (ValueKey.mk (-4) 3) true]
          distance_from_source := [some 0, some 1, some 2, some 3]
          node_status := [Label.CLOSED, Label.CLOSED, Label.CLOSED, Label.LABELED]
          previous := ((((previous.set 1 0).set 2 0).set 1 2).set 3 2).set 3 1
          trace := [ValueKey.mk 0 0, ValueKey.mk (-1) 2, ValueKey.mk (-3) 1] } = .ok
        { digraph_priority_queue :=
            [Slot.mk (ValueKey.mk 0 0) false, Slot.mk (ValueKey.mk (-3) 1) false,
             Slot.mk (ValueKey.mk (-1) 2) false, Slot.mk (ValueKey.mk (-4) 3) false]
          distance_from_source := [some 0, some 1, some 2, some 3]
          node_status := [Label.CLOSED, Label.CLOSED, Label.CLOSED, Label.CLOSED]
          previous := ((((previous.set 1 0).set 2 0).set 1 2).set 3 2).set 3 1
          trace := [ValueKey.mk 0 0, ValueKey.mk (-1) 2, ValueKey.mk (-3) 1,
            ValueKey.mk (-4) 3] } := by
      rw [loop]
      simp [PriorityQueue.empty, pop_close, htop3, PriorityQueue.pop, State.deref,
        State.handleOf, State.keyAt]
    simp only [run, h0]
    rw [loop]
    simp only [hne, hpc, show ¬ (0 = 3) by decide, if_false, Bool.false_eq_true,
      List.getElem?_cons_zero, hrel0]
    rw [hiter1, hiter2, hiter3]

theorem construct_ok {bits : Nat} {n m : Int} {g : Digraph}
    (h : Digraph.construct bits n m = .ok g) :
    n < Inf bits ∧ 0 < n ∧ g = Digraph.mk n.toNat m (List.replicate n.toNat []) := by
  unfold Digraph.construct at h
  split at h
  · rename_i hlt
    split at h
    · cases h
    · split at h
      · cases h
      · simp only [] at h
        split at h
        · cases h
        · split at h
          · cases h
          · split at h
            · cases h
            · cases h
              exact ⟨hlt.1, by omega, rfl⟩
  · cases h

theorem exampleGraph_eq {bits : Nat} {m : Int} {g : Digraph}
    (h : exampleGraph bits m = .ok g) :
    5 ≤ Inf bits ∧ g = Digraph.mk 4 m
      [[Arc.mk 1 4, Arc.mk 2 1], [Arc.mk 3 1], [Arc.mk 1 2, Arc.mk 3 5], []] := by
  unfold exampleGraph at h
  cases hc : Digraph.construct bits 4 m with
  | error e => rw [hc] at h; cases h
  | ok g0 =>
    rw [hc] at h
    obtain ⟨hlt, _, rfl⟩ := construct_ok hc
    refine ⟨by omega, ?_⟩
    simp [Digraph.addArcs, Digraph.addArc] at h
    exact h.symm

theorem parallelGraph_eq {bits : Nat} {m a b : Int} {g : Digraph}
    (h : parallelGraph bits m a b = .ok g) :
    g = Digraph.mk 2 m [[Arc.mk 1 a, Arc.mk 1 b], []] := by
  unfold parallelGraph at h
  cases hc : Digraph.construct bits 2 m with
  | error e => rw [hc] at h; cases h
  | ok g0 =>
    rw [hc] at h
    obtain ⟨_, _, rfl⟩ := construct_ok hc
    simp [Digraph.addArcs, Digraph.addArc] at h
    exact h.symm

/-- A `cost_t` that can hold 5 can hold 6. -/
theorem inf_six_of_five (bits : Nat) (h : 5 ≤ Inf bits) : 6 ≤ Inf bits := by
  unfold Inf at h ⊢
  match bits, h with
  | 0, h => norm_num at h
  | 1, h => norm_num at h
  | 2, h => norm_num at h
  | bits + 3, _ =>
    have : (0:Int) < 2 ^ bits := by positivity
    have e : (2:Int) ^ (bits + 3) = 8 * 2 ^ bits := by ring
    omega

/-- C8: on the four-node example graph `shortest_path(0, 3, previous)` returns 4
and leaves `previous[3] = 1`, `previous[1] = 2`, `previous[2] = 0`. -/
theorem example_graph_cost_and_path (R : TopRule) (bits : Nat) (m : Int) (g : Digraph)
    (previous : List Nat) (fuel : Nat) (hg : exampleGraph bits m = .ok g)
    (hprev : 4 ≤ previous.length) (hfuel : 4 ≤ fuel) :
    ∃ previous', shortest_path R bits g 0 3 previous fuel = .ok (4, previous') ∧
      previous'[3]? = some 1 ∧ previous'[1]? = some 2 ∧ previous'[2]? = some 0 := by
  obtain ⟨h5, rfl⟩ := exampleGraph_eq hg
  have hb := inf_six_of_five bits h5
  have hrun := example_run R bits m previous fuel hb hprev hfuel
  refine ⟨((((previous.set 1 0).set 2 0).set 1 2).set 3 2).set 3 1, ?_, ?_, ?_, ?_⟩
  · simp [shortest_path, hrun, State.distance, State.deref, State.handleOf, State.keyAt,
      cneg_small bits hb]
  · rw [List.getElem?_set_self (by simp; omega)]
  · rw [List.getElem?_set_ne (by decide), List.getElem?_set_ne (by decide),
      List.getElem?_set_self (by simp; omega)]
  · rw [List.getElem?_set_ne (by decide), List.getElem?_set_ne (by decide),
      List.getElem?_set_ne (by decide), List.getElem?_set_self (by simp; omega)]

/-- C9: on the two-node graph with two parallel arcs `0 → 1` of non-negative
costs `a` and `b`, added in either order, `shortest_path(0, 1, previous)`
returns `min a b`. -/
theorem parallel_arcs_cheaper_wins (R : TopRule) (bits : Nat) (m : Int) (a b : Int)
    (g g' : Digraph) (previous : List Nat) (fuel : Nat)
    (ha0 : 0 ≤ a) (ha1 : a ≤ Inf bits) (hb0 : 0 ≤ b) (hb1 : b ≤ Inf bits)
    (hg : parallelGraph bits m a b = .ok g) (hg' : parallelGraph bits m b a = .ok g')
    (hprev : 2 ≤ previous.length) (hfuel : 2 ≤ fuel) :
    (∃ previous', shortest_path R bits g 0 1 previous fuel = .ok (min a b, previous')) ∧
    (∃ previous', shortest_path R bits g' 0 1 previous fuel = .ok (min a b, previous')) := by
  rw [parallelGraph_eq hg, parallelGraph_eq hg']
  refine ⟨⟨previous.set 1 0,
    parallel_run R bits a b m previous fuel ha0 ha1 hb0 hb1 hprev hfuel⟩,
    ⟨previous.set 1 0, ?_⟩⟩
  rw [min_comm]
  exact parallel_run R bits b a m previous fuel hb0 hb1 ha0 ha1 hprev hfuel

theorem prevChain_sum_nonneg {g : Digraph} (hnn : g.NonNegative) (previous : List Nat)
    (s : Nat) : ∀ (cs : List Int) (v : Nat), PrevChain g previous s v cs → 0 ≤ cs.sum := by
  intro cs
  induction cs with
  | nil => intro v _; simp
  | cons c cs ih =>
    intro v h
    simp only [PrevChain] at h
    have h1 := arcs_nonneg hnn _ _ h.1
    have h2 := ih _ h.2
    rw [List.sum_cons]
    simp only [] at h1
    omega

theorem inf_nonneg (bits : Nat) : 0 ≤ Inf bits := by
  have := pow_pos_int bits
  unfold Inf; omega

theorem two_lt_pow (bits : Nat) (hb : 2 ≤ bits) : (2:Int) < 2 ^ bits := by
  obtain ⟨k, rfl⟩ := Nat.exists_eq_add_of_le hb
  have : (0:Int) < 2 ^ k := by positivity
  have e : (2:Int) ^ (2 + k) = 4 * 2 ^ k := by ring
  omega

theorem cadd_inf_inf (bits : Nat) (hb : 2 ≤ bits) : cadd bits (Inf bits) (Inf bits) = -2 := by
  have h2 := two_lt_pow bits hb
  have e : (2:Int) ^ (bits + 1) = 2 * 2 ^ bits := by ring
  unfold cadd wrap Inf
  have : ((2:Int) ^ bits - 1 + (2 ^ bits - 1) + 2 ^ bits) = (2 ^ bits - 2) + 1 * 2 ^ (bits + 1) := by
    rw [e]; ring
  rw [this, Int.add_mul_emod_self, Int.emod_eq_of_lt (by omega) (by omega)]
  omega

/-- The run on the heavy path graph: three iterations, each with a single queued
entry; the second candidate distance `Inf + Inf` wraps to `-2`. -/
theorem heavy_run (R : TopRule) (bits : Nat) (hb : 2 ≤ bits) :
    run R bits (heavyPathGraph bits) 0 2 [0, 0, 0] 3 = .ok (State.mk
      [Slot.mk (ValueKey.mk 0 0) false, Slot.mk (ValueKey.mk (-(Inf bits)) 1) false,
        Slot.mk (ValueKey.mk 2 2) false]
      [some 0, some 1, some 2] [Label.CLOSED, Label.CLOSED, Label.CLOSED] [0, 0, 1]
      [ValueKey.mk 0 0, ValueKey.mk (-(Inf bits)) 1, ValueKey.mk 2 2]) := by
  obtain ⟨st0, h0, hne, hpc⟩ := pop_close_init R bits (heavyPathGraph bits) 0 [0, 0, 0]
    (show 0 < 3 by omega)
  have h2 := two_lt_pow bits hb
  have hi := inf_lt bits
  have hi0 := inf_nonneg bits
  have e1 : cadd bits 0 (Inf bits) = Inf bits := cadd_zero_left bits _ hi0 (le_refl _)
  have e2 : cneg bits (Inf bits) = -(Inf bits) := cneg_of_range bits _ (by omega) (by omega)
  have e3 : cneg bits (-(Inf bits)) = Inf bits := by
    rw [cneg_of_range bits _ (by omega) (by omega)]; simp
  have e4 := cadd_inf_inf bits hb
  have e5 : cneg bits (-2) = 2 := by
    rw [cneg_of_range bits _ (by omega) (by omega)]; simp
  have hrel0 : relax_arcs bits 0 0 (closed_start (heavyPathGraph bits) 0 [0, 0, 0])
      [Arc.mk 1 (Inf bits)] = .ok (State.mk
      [Slot.mk (ValueKey.mk 0 0) false, Slot.mk (ValueKey.mk (-(Inf bits)) 1) true]
      [some 0, some 1, none] [Label.CLOSED, Label.LABELED, Label.UNREACHED] [0, 0, 0]
      [ValueKey.mk 0 0]) := by
    simp [relax_arcs, relax_arc, closed_start, heavyPathGraph, PriorityQueue.push, e1, e2]
  have htop1 : R.top
      [Slot.mk (ValueKey.mk 0 0) false, Slot.mk (ValueKey.mk (-(Inf bits)) 1) true] = 1 := by
    apply top_unique_max R _ 1 (Slot.mk (ValueKey.mk (-(Inf bits)) 1) true) rfl rfl
    intro h' sl' hs' hl' hne'
    match h', hs', hne' with
    | 0, hs', _ => simp at hs'; subst hs'; simp at hl'
    | h' + 2, hs', _ => simp at hs'
  have hiter1 : loop R bits (heavyPathGraph bits) 2 2 (State.mk
      [Slot.mk (ValueKey.mk 0 0) false, Slot.mk (ValueKey.mk (-(Inf bits)) 1) true]
      [some 0, some 1, none] [Label.CLOSED, Label.LABELED, Label.UNREACHED] [0, 0, 0]
      [ValueKey.mk 0 0]) = loop R bits (heavyPathGraph bits) 2 1 (State.mk
      [Slot.mk (ValueKey.mk 0 0) false, Slot.mk (ValueKey.mk (-(Inf bits)) 1) false,
        Slot.mk (ValueKey.mk 2 2) true]
      [some 0, some 1, some 2] [Label.CLOSED, Label.CLOSED, Label.LABELED] [0, 0, 1]
      [ValueKey.mk 0 0, ValueKey.mk (-(Inf bits)) 1]) := by
    rw [loop]
    simp [PriorityQueue.empty, pop_close, htop1, PriorityQueue.pop, State.deref,
      State.handleOf, State.keyAt, relax_arcs, relax_arc, heavyPathGraph, PriorityQueue.push,
      e3, e4, e5]
  have htop2 : R.top
      [Slot.mk (ValueKey.mk 0 0) false, Slot.mk (ValueKey.mk (-(Inf bits)) 1) false,
        Slot.mk (ValueKey.mk 2 2) true] = 2 := by
    apply top_unique_max R _ 2 (Slot.mk (ValueKey.mk 2 2) true) rfl rfl
    intro h' sl' hs' hl' hne'
    match h', hs', hne' with
    | 0, hs', _ => simp at hs'; subst hs'; simp at hl'
    | 1, hs', _ => simp at hs'; subst hs'; simp at hl'
    | h' + 3, hs', _ => simp at hs'
  have hiter2 : loop R bits (heavyPathGraph bits) 2 1 (State.mk
      [Slot.mk (ValueKey.mk 0 0) false, Slot.mk (ValueKey.mk (-(Inf bits)) 1) false,
        Slot.mk (ValueKey.mk 2 2) true]
      [some 0, some 1, some 2] [Label.CLOSED, Label.CLOSED, Label.LABELED] [0, 0, 1]
      [ValueKey.mk 0 0, ValueKey.mk (-(Inf bits)) 1]) = .ok (State.mk
      [Slot.mk (ValueKey.mk 0 0) false, Slot.mk (ValueKey.mk (-(Inf bits)) 1) false,
        Slot.mk (ValueKey.mk 2 2) false]
      [some 0, some 1, some 2] [Label.CLOSED, Label.CLOSED, Label.CLOSED] [0, 0, 1]
      [ValueKey.mk 0 0, ValueKey.mk (-(Inf bits)) 1, ValueKey.mk 2 2]) := by
    rw [loop]
    simp [PriorityQueue.empty, pop_close, htop2, PriorityQueue.pop, State.deref,
      State.handleOf, State.keyAt]
  simp only [run, h0]
  rw [loop]
  simp only [hne, hpc, show ¬ (0 = 2) by decide, if_false, Bool.false_eq_true]
  have harcs : (heavyPathGraph bits).adjacency_list[0]? = some [Arc.mk 1 (Inf bits)] := rfl
  simp only [harcs, hrel0]
  rw [hiter1, hiter2]

theorem heavy_result (R : TopRule) (bits : Nat) (hb : 2 ≤ bits) :
    shortest_path R bits (heavyPathGraph bits) 0 2 [0, 0, 0] 3 = .ok (-2, [0, 0, 1]) := by
  have h2 := two_lt_pow bits hb
  have e6 : cneg bits 2 = -2 := cneg_of_range bits _ (by omega) (by omega)
  simp [shortest_path, heavy_run R bits hb, State.distance, State.deref, State.handleOf,
    State.keyAt, e6]

/-- The run on the unit-cost path graph with end node 1: two iterations, each
with a single queued entry. -/
theorem path_run (R : TopRule) (bits : Nat) (hb : 1 ≤ bits) :
    run R bits pathGraph 0 1 [0, 0, 0] 3 = .ok (State.mk
      [Slot.mk (ValueKey.mk 0 0) false, Slot.mk (ValueKey.mk (-1) 1) false]
      [some 0, some 1, none] [Label.CLOSED, Label.CLOSED, Label.UNREACHED] [0, 0, 0]
      [ValueKey.mk 0 0, ValueKey.mk (-1) 1]) := by
  obtain ⟨st0, h0, hne, hpc⟩ := pop_close_init R bits pathGraph 0 [0, 0, 0]
    (show 0 < 3 by omega)
  have h1 : (1:Int) < 2 ^ bits := by
    obtain ⟨k, rfl⟩ := Nat.exists_eq_add_of_le hb
    have : (0:Int) < 2 ^ k := by positivity
    have e : (2:Int) ^ (1 + k) = 2 * 2 ^ k := by ring
    omega
  have e1 : cadd bits 0 1 = 1 := cadd_zero_left bits 1 (by omega) (by unfold Inf; omega)
  have e2 : cneg bits 1 = -1 := cneg_of_range bits _ (by omega) (by omega)
  have hrel0 : relax_arcs bits 0 0 (closed_start pathGraph 0 [0, 0, 0])
      [Arc.mk 1 1] = .ok (State.mk
      [Slot.mk (ValueKey.mk 0 0) false, Slot.mk (ValueKey.mk (-1) 1) true]
      [some 0, some 1, none] [Label.CLOSED, Label.LABELED, Label.UNREACHED] [0, 0, 0]
      [ValueKey.mk 0 0]) := by
    simp [relax_arcs, relax_arc, closed_start, pathGraph, PriorityQueue.push, e1, e2]
  have htop1 : R.top
      [Slot.mk (ValueKey.mk 0 0) false, Slot.mk (ValueKey.mk (-1) 1) true] = 1 := by
    apply top_unique_max R _ 1 (Slot.mk (ValueKey.mk (-1) 1) true) rfl rfl
    intro h' sl' hs' hl' hne'
    match h', hs', hne' with
    | 0, hs', _ => simp at hs'; subst hs'; simp at hl'
    | h' + 2, hs', _ => simp at hs'
  have hiter1 : loop R bits pathGraph 1 2 (State.mk
      [Slot.mk (ValueKey.mk 0 0) false, Slot.mk (ValueKey.mk (-1) 1) true]
      [some 0, some 1, none] [Label.CLOSED, Label.LABELED, Label.UNREACHED] [0, 0, 0]
      [ValueKey.mk 0 0]) = .ok (State.mk
      [Slot.mk (ValueKey.mk 0 0) false, Slot.mk (ValueKey.mk (-1) 1) false]
      [some 0, some 1, none] [Label.CLOSED, Label.CLOSED, Label.UNREACHED] [0, 0, 0]
      [ValueKey.mk 0 0, ValueKey.mk (-1) 1]) := by
    rw [loop]
    simp [PriorityQueue.empty, pop_close, htop1, PriorityQueue.pop, State.deref,
      State.handleOf, State.keyAt]
  simp only [run, h0]
  rw [loop]
  simp only [hne, hpc, show ¬ (0 = 1) by decide, if_false, Bool.false_eq_true]
  have harcs : pathGraph.adjacency_list[0]? = some [Arc.mk 1 1] := rfl
  simp only [harcs, hrel0]
  rw [hiter1]

/-- The run of `shortest_path_for_dummies` on the four-node example graph: five
iterations, the fourth of which pops a superseded entry of node 1. -/
theorem dummies_example_result (bits : Nat) (hb : 6 ≤ Inf bits) (f : Nat) :
    shortest_path_for_dummies bits scenarioGraph 0 3 [0, 0, 0, 0] (f + 5) =
      .ok (6, [0, 2, 0, 1]) := by
  have ca := cadd_small bits hb
  have cn := cneg_small bits hb
  have cz := cneg_zero bits
  have hiter0 : loop_for_dummies bits scenarioGraph 3 (f + 5)
      (DummyState.mk [ValueKey.mk 0 0]
        [ValueKey.mk 0 0, ValueKey.mk (Inf bits) 0, ValueKey.mk (Inf bits) 0,
          ValueKey.mk (Inf bits) 0]
        [Label.UNREACHED, Label.UNREACHED, Label.UNREACHED, Label.UNREACHED] [0, 0, 0, 0]) =
      loop_for_dummies bits scenarioGraph 3 (f + 4)
      (DummyState.mk [ValueKey.mk (-4) 1, ValueKey.mk (-1) 2]
        [ValueKey.mk 0 0, ValueKey.mk (-4) 1, ValueKey.mk (-1) 2, ValueKey.mk (Inf bits) 0]
        [Label.CLOSED, Label.LABELED, Label.LABELED, Label.UNREACHED] [0, 0, 0, 0]) := by
    rw [loop_for_dummies]
    simp [DumbQueue.empty, DumbQueue.top, DumbQueue.pop, dumbScan, scenarioGraph,
      relax_arcs_for_dummies, relax_arc_for_dummies, DumbQueue.push, DumbQueue.increase,
      ca, cn, cz]
  have hiter1 : loop_for_dummies bits scenarioGraph 3 (f + 4)
      (DummyState.mk [ValueKey.mk (-4) 1, ValueKey.mk (-1) 2]
        [ValueKey.mk 0 0, ValueKey.mk (-4) 1, ValueKey.mk (-1) 2, ValueKey.mk (Inf bits) 0]
        [Label.CLOSED, Label.LABELED, Label.LABELED, Label.UNREACHED] [0, 0, 0, 0]) =
      loop_for_dummies bits scenarioGraph 3 (f + 3)
      (DummyState.mk [ValueKey.mk (-4) 1, ValueKey.mk (-3) 1, ValueKey.mk (-6) 3]
        [ValueKey.mk 0 0, ValueKey.mk (-4) 1, ValueKey.mk (-1) 2, ValueKey.mk (-6) 3]
        [Label.CLOSED, Label.LABELED, Label.CLOSED, Label.LABELED] [0, 2, 0, 2]) := by
    rw [loop_for_dummies]
    simp [DumbQueue.empty, DumbQueue.top, DumbQueue.pop, dumbScan, scenarioGraph,
      relax_arcs_for_dummies, relax_arc_for_dummies, DumbQueue.push, DumbQueue.increase,
      ca, cn, cz]
  have hiter2 : loop_for_dummies bits scenarioGraph 3 (f + 3)
      (DummyState.mk [ValueKey.mk (-4) 1, ValueKey.mk (-3) 1, ValueKey.mk (-6) 3]
        [ValueKey.mk 0 0, ValueKey.mk (-4) 1, ValueKey.mk (-1) 2, ValueKey.mk (-6) 3]
        [Label.CLOSED, Label.LABELED, Label.CLOSED, Label.LABELED] [0, 2, 0, 2]) =
      loop_for_dummies bits scenarioGraph 3 (f + 2)
      (DummyState.mk [ValueKey.mk (-4) 1, ValueKey.mk (-6) 3, ValueKey.mk (-5) 3]
        [ValueKey.mk 0 0, ValueKey.mk (-4) 1, ValueKey.mk (-1) 2, ValueKey.mk (-6) 3]
        [Label.CLOSED, Label.CLOSED, Label.CLOSED, Label.LABELED] [0, 2, 0, 1]) := by
    rw [loop_for_dummies]
    simp [DumbQueue.empty, DumbQueue.top, DumbQueue.pop, dumbScan, scenarioGraph,
      relax_arcs_for_dummies, relax_arc_for_dummies, DumbQueue.push, DumbQueue.increase,
      ca, cn, cz]
  have hiter3 : loop_for_dummies bits scenarioGraph 3 (f + 2)
      (DummyState.mk [ValueKey.mk (-4) 1, ValueKey.mk (-6) 3, ValueKey.mk (-5) 3]
        [ValueKey.mk 0 0, ValueKey.mk (-4) 1, ValueKey.mk (-1) 2, ValueKey.mk (-6) 3]
        [Label.CLOSED, Label.CLOSED, Label.CLOSED, Label.LABELED] [0, 2, 0, 1]) =
      loop_for_dummies bits scenarioGraph 3 (f + 1)
      (DummyState.mk [ValueKey.mk (-6) 3, ValueKey.mk (-5) 3, ValueKey.mk (-5) 3]
        [ValueKey.mk 0 0, ValueKey.mk (-4) 1, ValueKey.mk (-1) 2, ValueKey.mk (-6) 3]
        [Label.CLOSED, Label.CLOSED, Label.CLOSED, Label.LABELED] [0, 2, 0, 1]) := by
    rw [loop_for_dummies]
    simp [DumbQueue.empty, DumbQueue.top, DumbQueue.pop, dumbScan, scenarioGraph,
      relax_arcs_for_dummies, relax_arc_for_dummies, DumbQueue.push, DumbQueue.increase,
      ca, cn, cz]
  have hiter4 : loop_for_dummies bits scenarioGraph 3 (f + 1)
      (DummyState.mk [ValueKey.mk (-6) 3, ValueKey.mk (-5) 3, ValueKey.mk (-5) 3]
        [ValueKey.mk 0 0, ValueKey.mk (-4) 1, ValueKey.mk (-1) 2, ValueKey.mk (-6) 3]
        [Label.CLOSED, Label.CLOSED, Label.CLOSED, Label.LABELED] [0, 2, 0, 1]) = .ok
      (DummyState.mk [ValueKey.mk (-6) 3, ValueKey.mk (-5) 3]
        [ValueKey.mk 0 0, ValueKey.mk (-4) 1, ValueKey.mk (-1) 2, ValueKey.mk (-6) 3]
        [Label.CLOSED, Label.CLOSED, Label.CLOSED, Label.CLOSED] [0, 2, 0, 1]) := by
    rw [loop_for_dummies]
    simp [DumbQueue.empty, DumbQueue.top, DumbQueue.pop, dumbScan]
  have hstart : shortest_path_for_dummies bits scenarioGraph 0 3 [0, 0, 0, 0] (f + 5) =
      match loop_for_dummies bits scenarioGraph 3 (f + 5)
        (DummyState.mk [ValueKey.mk 0 0]
          [ValueKey.mk 0 0, ValueKey.mk (Inf bits) 0, ValueKey.mk (Inf bits) 0,
            ValueKey.mk (Inf bits) 0]
          [Label.UNREACHED, Label.UNREACHED, Label.UNREACHED, Label.UNREACHED]
          [0, 0, 0, 0]) with
      | Except.error e => Except.error e
      | Except.ok st =>
        match st.distance_from_source[3]? with
        | none => Except.error Fault.undefinedIndex
        | some k => Except.ok (cneg bits k.d, st.previous) := by
    rfl
  rw [hstart, hiter0, hiter1, hiter2, hiter3, hiter4]
  simp [cn]

/-- The run of `shortest_path_for_dummies` on two nodes without arcs. -/
theorem dummies_isolated_result (bits : Nat) (f : Nat) :
    shortest_path_for_dummies bits twoIsolatedNodes 0 1 [0, 0] (f + 1) =
      .ok (cneg bits (Inf bits), [0, 0]) := by
  have cz := cneg_zero bits
  have hiter0 : loop_for_dummies bits twoIsolatedNodes 1 (f + 1)
      (DummyState.mk [ValueKey.mk 0 0] [ValueKey.mk 0 0, ValueKey.mk (Inf bits) 0]
        [Label.UNREACHED, Label.UNREACHED] [0, 0]) = .ok
      (DummyState.mk [] [ValueKey.mk 0 0, ValueKey.mk (Inf bits) 0]
        [Label.CLOSED, Label.UNREACHED] [0, 0]) := by
    rw [loop_for_dummies]
    simp [DumbQueue.empty, DumbQueue.top, DumbQueue.pop, dumbScan, twoIsolatedNodes,
      relax_arcs_for_dummies]
    cases f <;> simp [loop_for_dummies, DumbQueue.empty]
  have hstart : shortest_path_for_dummies bits twoIsolatedNodes 0 1 [0, 0] (f + 1) =
      match loop_for_dummies bits twoIsolatedNodes 1 (f + 1)
        (DummyState.mk [ValueKey.mk 0 0] [ValueKey.mk 0 0, ValueKey.mk (Inf bits) 0]
          [Label.UNREACHED, Label.UNREACHED] [0, 0]) with
      | Except.error e => Except.error e
      | Except.ok st =>
        match st.distance_from_source[1]? with
        | none => Except.error Fault.undefinedIndex
        | some k => Except.ok (cneg bits k.d, st.previous) := by
    rfl
  rw [hstart, hiter0]
  simp

/-- Counterexample to C2 as stated: with 32-bit costs, on the path `0 → 1 → 2`
whose two arcs cost 2147483647 each, `shortest_path(0, 2, previous)` returns `-2`
whatever the tie rule of the queue, and no predecessor chain has arc costs that
sum to `-2`.  The last part records that the same result comes out at every
width of `cost_t` when the two costs are `Inf`. -/
theorem chain_cost_overflow :
    heavyPathGraph 31 =
      Digraph.mk 3 2 [[Arc.mk 1 2147483647], [Arc.mk 2 2147483647], []] ∧
    (heavyPathGraph 31).NonNegative ∧ (∃ d, Walk (heavyPathGraph 31) 0 2 d) ∧
    (∀ R : TopRule,
      shortest_path R 31 (heavyPathGraph 31) 0 2 [0, 0, 0] 3 = .ok (-2, [0, 0, 1])) ∧
    (¬ ∃ cs : List Int, cs.length ≤ (heavyPathGraph 31).n_nodes - 1 ∧
        PrevChain (heavyPathGraph 31) [0, 0, 1] 0 2 cs ∧ cs.sum = -2) ∧
    (∀ bits : Nat, 2 ≤ bits → ∀ R : TopRule,
      shortest_path R bits (heavyPathGraph bits) 0 2 [0, 0, 0] 3 = .ok (-2, [0, 0, 1])) := by
  refine ⟨by decide, by decide, ⟨_, Walk.snoc (Arc.mk 2 (Inf 31))
    (Walk.snoc (Arc.mk 1 (Inf 31)) Walk.nil (by decide)) (by decide)⟩,
    fun R => heavy_result R 31 (by decide), ?_, fun bits hb R => heavy_result R bits hb⟩
  rintro ⟨cs, _, hch, hsum⟩
  have := prevChain_sum_nonneg (show (heavyPathGraph 31).NonNegative by decide) _ _ cs 2 hch
  omega

/-- Counterexample to C3 as stated, whatever the tie rule of the queue.  On the
path `0 → 1 → 2` with unit costs and end node 1 the loop is left when node 1 is
closed: node 2 is reachable, but no distance is recorded for it.  And with
32-bit costs of 2147483647 each and end node 2, the distance recorded for node 2
is `-2`, which no chain of arc costs sums to. -/
theorem reachable_node_without_recorded_cost :
    (pathGraph.NonNegative ∧ (∃ d, Walk pathGraph 0 2 d) ∧
      ∀ R : TopRule, ∃ fin, run R 31 pathGraph 0 1 [0, 0, 0] 3 = .ok fin ∧
        fin.distance 31 2 = .error Fault.nullHandle ∧
        ¬ ∃ (D : Int) (cs : List Int), fin.distance 31 2 = .ok D ∧
            PrevChain pathGraph fin.previous 0 2 cs ∧ cs.sum = D) ∧
    ((heavyPathGraph 31).NonNegative ∧ (∃ d, Walk (heavyPathGraph 31) 0 2 d) ∧
      ∀ R : TopRule, ∃ fin, run R 31 (heavyPathGraph 31) 0 2 [0, 0, 0] 3 = .ok fin ∧
        fin.distance 31 2 = .ok (-2) ∧
        ¬ ∃ (D : Int) (cs : List Int), fin.distance 31 2 = .ok D ∧
            PrevChain (heavyPathGraph 31) fin.previous 0 2 cs ∧ cs.sum = D) := by
  constructor
  · refine ⟨by decide, ⟨_, Walk.snoc (Arc.mk 2 1)
      (Walk.snoc (Arc.mk 1 1) Walk.nil (by decide)) (by decide)⟩, fun R => ?_⟩
    have hd : State.distance 31 (State.mk
        [Slot.mk (ValueKey.mk 0 0) false, Slot.mk (ValueKey.mk (-1) 1) false]
        [some 0, some 1, none] [Label.CLOSED, Label.CLOSED, Label.UNREACHED] [0, 0, 0]
        [ValueKey.mk 0 0, ValueKey.mk (-1) 1]) 2 = .error Fault.nullHandle := by rfl
    refine ⟨_, path_run R 31 (by decide), hd, ?_⟩
    rintro ⟨D, cs, hD, _, _⟩
    rw [hd] at hD
    cases hD
  · refine ⟨by decide, ⟨_, Walk.snoc (Arc.mk 2 (Inf 31))
      (Walk.snoc (Arc.mk 1 (Inf 31)) Walk.nil (by decide)) (by decide)⟩, fun R => ?_⟩
    have hd : State.distance 31 (State.mk [Slot.mk (ValueKey.mk 0 0) false,
        Slot.mk (ValueKey.mk (-(Inf 31)) 1) false, Slot.mk (ValueKey.mk 2 2) false]
        [some 0, some 1, some 2] [Label.CLOSED, Label.CLOSED, Label.CLOSED] [0, 0, 1]
        [ValueKey.mk 0 0, ValueKey.mk (-(Inf 31)) 1, ValueKey.mk 2 2]) 2 = .ok (-2) := by
      rfl
    refine ⟨_, heavy_run R 31 (by decide), hd, ?_⟩
    rintro ⟨D, cs, hD, hch, hsum⟩
    rw [hd] at hD
    cases hD
    have := prevChain_sum_nonneg (show (heavyPathGraph 31).NonNegative by decide) _ _ cs 2 hch
    omega

/-- C4, the run on which the two variants differ: on the four-node example graph,
at every width of `cost_t` that holds the value 6, the handle-based
`shortest_path` returns 4 whatever the tie rule of the queue, while
`shortest_path_for_dummies` with the linear-scan queue returns 6.  The latter
reads the distance of a node from the key recorded at its first push, which the
later key update does not refresh. -/
theorem dummies_returns_stale_distance :
    exampleGraph 31 5 = .ok scenarioGraph ∧
    (∀ (bits : Nat) (R : TopRule) (f : Nat), 6 ≤ Inf bits →
      shortest_path R bits scenarioGraph 0 3 [0, 0, 0, 0] (f + 4) = .ok (4, [0, 2, 0, 1])) ∧
    (∀ (bits : Nat) (f : Nat), 6 ≤ Inf bits →
      shortest_path_for_dummies bits scenarioGraph 0 3 [0, 0, 0, 0] (f + 5) =
        .ok (6, [0, 2, 0, 1])) := by
  refine ⟨by rfl, fun bits R f hb => ?_, fun bits f hb => dummies_example_result bits hb f⟩
  have hrun := example_run R bits 5 [0, 0, 0, 0] (f + 4) hb (by decide) (by omega)
  simp [shortest_path, scenarioGraph, hrun, State.distance, State.deref, State.handleOf,
    State.keyAt, cneg_small bits hb]

theorem walk_isolated : ∀ (v : Nat) (d : Int), Walk twoIsolatedNodes 0 v d → v = 0 := by
  intro v d h
  induction h with
  | nil => rfl
  | snoc a _ ha ih =>
    subst ih
    simp [twoIsolatedNodes, Digraph.arcsOf] at ha

/-- C5, the run on which the code departs from the claim: on two nodes without
arcs, node 1 is not reachable from node 0 and `shortest_path_for_dummies(0, 1)`
returns `-Inf`, the negation of the initial key `Inf`, at every width of
`cost_t`; for a 32-bit `cost_t` that is -2147483647, not 2147483647. -/
theorem dummies_unreachable_returns_minus_inf :
    (¬ ∃ d, Walk twoIsolatedNodes 0 1 d) ∧
    (∀ (bits : Nat) (f : Nat),
      shortest_path_for_dummies bits twoIsolatedNodes 0 1 [0, 0] (f + 1) =
        .ok (-(Inf bits), [0, 0])) ∧
    (∀ bits : Nat, 1 ≤ bits → -(Inf bits) ≠ Inf bits) ∧
    -(Inf 31) = -2147483647 := by
  refine ⟨?_, fun bits f => ?_, fun bits hb => ?_, by decide⟩
  · rintro ⟨d, h⟩
    have := walk_isolated 1 d h
    omega
  · have hi := inf_lt bits
    have h0 := inf_nonneg bits
    rw [dummies_isolated_result, cneg_of_range bits _ (by omega) (by omega)]
  · have : (1:Int) < 2 ^ bits := by
      obtain ⟨k, rfl⟩ := Nat.exists_eq_add_of_le hb
      have : (0:Int) < 2 ^ k := by positivity
      have e : (2:Int) ^ (1 + k) = 2 * 2 ^ k := by ring
      omega
    unfold Inf
    omega

/-- Witness for C1: the four-node example graph, from node 0 to node 3. -/
theorem shortest_path_returns_minimum_witness :
    ∃ cost previous', shortest_path firstMaxRule 31 scenarioGraph 0 3 [0, 0, 0, 0] 4 =
        .ok (cost, previous') ∧
      Walk scenarioGraph 0 3 cost ∧ ∀ d, Walk scenarioGraph 0 3 d → cost ≤ d :=
  shortest_path_returns_minimum firstMaxRule 31 scenarioGraph 0 3 [0, 0, 0, 0] 4
    (by decide) (by decide) (by decide) (by decide) (by decide) (by decide) (by decide)
    (by decide)
    ⟨_, Walk.snoc (Arc.mk 3 1) (Walk.snoc (Arc.mk 1 2)
      (Walk.snoc (Arc.mk 2 1) Walk.nil (by decide)) (by decide)) (by decide)⟩

/-- Witness for C3 as amended: the unit-cost path `0 → 1 → 2` with end node 1. -/
theorem recorded_distance_is_chain_cost_witness :
    ∃ fin, run firstMaxRule 31 pathGraph 0 1 [0, 0, 0] 3 = .ok fin ∧
      ∀ v, fin.stat v ≠ Label.UNREACHED →
        ∃ (D : Int) (cs : List Int), fin.distance 31 v = .ok D ∧
          PrevChain pathGraph fin.previous 0 v cs ∧ cs.sum = D :=
  recorded_distance_is_chain_cost firstMaxRule 31 pathGraph 0 1 [0, 0, 0] 3
    (by decide) (by decide) (by decide) (by decide) (by decide) (by decide) (by decide)

/-- Witness for C6: a graph with a negative cost and a cycle. -/
theorem shortest_path_loop_terminates_witness :
    ∃ fin, run firstMaxRule 31
        (Digraph.mk 2 2 [[Arc.mk 1 (-3)], [Arc.mk 0 (-4)]]) 0 7 [0, 0] 2 = .ok fin ∧
      fin.trace.length ≤ 2 ∧
      (fin.trace.map (fun k => k.u)).Nodup ∧
      (fin.digraph_priority_queue.map (fun sl => sl.key.u)).Nodup :=
  shortest_path_loop_terminates firstMaxRule 31
    (Digraph.mk 2 2 [[Arc.mk 1 (-3)], [Arc.mk 0 (-4)]]) 0 7 [0, 0] 2
    (by decide) (by decide) (by decide) (by decide) (by decide)

/-- Witness for C7: a start node with a self-loop and a second arc. -/
theorem shortest_path_same_node_witness :
    shortest_path firstMaxRule 31 (Digraph.mk 2 2 [[Arc.mk 0 1, Arc.mk 1 2], []]) 0 0 [7, 8] 1 =
      .ok (0, [7, 8]) :=
  shortest_path_same_node firstMaxRule 31 (Digraph.mk 2 2 [[Arc.mk 0 1, Arc.mk 1 2], []]) 0
    [7, 8] 1 (by decide) (by decide)

/-- Witness for C8: 32-bit costs and the first-maximum rule. -/
theorem example_graph_cost_and_path_witness :
    ∃ previous', shortest_path firstMaxRule 31 scenarioGraph 0 3 [0, 0, 0, 0] 4 =
        .ok (4, previous') ∧
      previous'[3]? = some 1 ∧ previous'[1]? = some 2 ∧ previous'[2]? = some 0 :=
  example_graph_cost_and_path firstMaxRule 31 5 scenarioGraph [0, 0, 0, 0] 4
    (by rfl) (by decide) (by decide)

/-- Witness for C9: the scenario of the spec, costs 5 and 2; the result is 2. -/
theorem parallel_arcs_cheaper_wins_witness :
    (∃ previous', shortest_path firstMaxRule 31
        (Digraph.mk 2 2 [[Arc.mk 1 5, Arc.mk 1 2], []]) 0 1 [0, 0] 2 = .ok (2, previous')) ∧
    (∃ previous', shortest_path firstMaxRule 31
        (Digraph.mk 2 2 [[Arc.mk 1 2, Arc.mk 1 5], []]) 0 1 [0, 0] 2 = .ok (2, previous')) :=
  parallel_arcs_cheaper_wins firstMaxRule 31 2 5 2
    (Digraph.mk 2 2 [[Arc.mk 1 5, Arc.mk 1 2], []])
    (Digraph.mk 2 2 [[Arc.mk 1 2, Arc.mk 1 5], []]) [0, 0] 2
    (by decide) (by decide) (by decide) (by decide) (by rfl) (by rfl) (by decide) (by decide)

/-- Witness for C10: a second copy of an arc, which is a self-loop, is appended. -/
theorem addArc_appends_witness :
    ∃ g', (Digraph.mk 2 1 [[Arc.mk 0 3], []]).addArc 0 0 3 = .ok g' ∧
      g'.arcsOf 0 = (Digraph.mk 2 1 [[Arc.mk 0 3], []]).arcsOf 0 ++ [Arc.mk 0 3] ∧
      (∀ x, x ≠ 0 → g'.arcsOf x = (Digraph.mk 2 1 [[Arc.mk 0 3], []]).arcsOf x) ∧
      g'.adjacency_list.length = (Digraph.mk 2 1 [[Arc.mk 0 3], []]).adjacency_list.length ∧
      g'.n_nodes = (Digraph.mk 2 1 [[Arc.mk 0 3], []]).n_nodes :=
  addArc_appends (Digraph.mk 2 1 [[Arc.mk 0 3], []]) 0 0 3 (by decide) (by decide)

/-- Counterexample to C11 as stated: on a graph with two nodes, `addArc(0, 5, 1)`
reports nothing and appends an arc whose target 5 is not a node. -/
theorem addArc_accepts_bad_target :
    twoIsolatedNodes.n_nodes = 2 ∧ twoIsolatedNodes.WellSized ∧ ¬ (5 < twoIsolatedNodes.n_nodes) ∧
    twoIsolatedNodes.addArc 0 5 1 = .ok (Digraph.mk 2 0 [[Arc.mk 5 1], []]) ∧
    Digraph.mk 2 0 [[Arc.mk 5 1], []] ≠ twoIsolatedNodes := by
  refine ⟨rfl, by decide, by decide, by rfl, by decide⟩

/-- C11, as amended: `addArc` checks neither node.  With `source_node` in range
it appends the arc whatever `target_node` is; with `source_node` out of range it
indexes the adjacency list out of bounds, which is undefined in the source; no
error about the range is produced in either case. -/
theorem addArc_checks_nothing (g : Digraph) (source_node target_node : Nat) (cost : Int)
    (hsize : g.WellSized) :
    (source_node < g.n_nodes →
      ∃ g', g.addArc source_node target_node cost = .ok g' ∧
        g'.arcsOf source_node = g.arcsOf source_node ++ [Arc.mk target_node cost]) ∧
    (g.n_nodes ≤ source_node →
      g.addArc source_node target_node cost = .error Fault.undefinedIndex) := by
  constructor
  · intro hs
    have hlt : source_node < g.adjacency_list.length := by rw [hsize]; exact hs
    refine ⟨Digraph.mk g.n_nodes g.m_edges (g.adjacency_list.set source_node
      (g.arcsOf source_node ++ [Arc.mk target_node cost])), ?_, ?_⟩
    · simp [Digraph.addArc, Digraph.arcsOf, List.getElem?_eq_getElem hlt]
    · simp only [Digraph.arcsOf]
      rw [List.getElem?_set_self hlt]
      rfl
  · intro hs
    have hge : g.adjacency_list.length ≤ source_node := by rw [hsize]; exact hs
    simp [Digraph.addArc, List.getElem?_eq_none hge]

/-- Witness for C11 as amended: a target outside the graph, a source inside. -/
theorem addArc_checks_nothing_witness :
    (0 < twoIsolatedNodes.n_nodes →
      ∃ g', twoIsolatedNodes.addArc 0 5 1 = .ok g' ∧
        g'.arcsOf 0 = twoIsolatedNodes.arcsOf 0 ++ [Arc.mk 5 1]) ∧
    (twoIsolatedNodes.n_nodes ≤ 0 →
      twoIsolatedNodes.addArc 0 5 1 = .error Fault.undefinedIndex) :=
  addArc_checks_nothing twoIsolatedNodes 0 5 1 (by decide)

/-- When `cost_t` is no wider than `int`, a positive node count and a
non-negative edge count below `Inf` fit `int`, and so does the average degree. -/
theorem int_fits_of_narrow {bits : Nat} {n_nodes m_edges : Int} (hw : Inf bits ≤ INT_MAX)
    (hn : 0 < n_nodes) (hm : 0 ≤ m_edges) (hnI : n_nodes < Inf bits)
    (hmI : m_edges < Inf bits) :
    n_nodes ≤ INT_MAX ∧ Int.tdiv m_edges n_nodes + 1 ≤ INT_MAX := by
  refine ⟨by omega, ?_⟩
  have hdiv : Int.tdiv m_edges n_nodes ≤ m_edges := by
    rw [Int.tdiv_eq_ediv hm (le_of_lt hn)]
    exact Int.ediv_le_self _ hm
  omega

/-- C13, what the constructor does with a non-positive node count: there is no
check of it.  With `n_nodes = 0` the division `m_edges / n_nodes` is a division
by zero; with `n_nodes < 0` the call `reserve(n_nodes)` is a request beyond
`max_size`. -/
theorem construct_nonpositive_size :
    Digraph.construct 31 0 0 = .error Fault.divByZero ∧
    Digraph.construct 31 (-1) 0 = .error Fault.lengthError ∧
    (∀ (bits : Nat) (m_edges : Int), 0 < Inf bits → m_edges < Inf bits →
      Digraph.construct bits 0 m_edges = .error Fault.divByZero) ∧
    (∀ (bits : Nat) (n_nodes m_edges : Int), n_nodes < 0 → m_edges < Inf bits →
      Digraph.construct bits n_nodes m_edges = .error Fault.lengthError) := by
  refine ⟨by rfl, by rfl, ?_, ?_⟩
  · intro bits m h0 hm
    unfold Digraph.construct
    rw [if_pos ⟨h0, hm⟩, if_neg (by omega), if_pos rfl]
  · intro bits n m hn hm
    have := inf_nonneg bits
    unfold Digraph.construct
    rw [if_pos ⟨by omega, hm⟩, if_pos hn]

/-- C19, the run on which a handle is read that no push assigned: on two nodes
without arcs the loop ends with node 1 never pushed, and the return statement
reads through the default-constructed handle of node 1. -/
theorem return_reads_null_handle :
    twoIsolatedNodes.TargetsInRange ∧ 0 < twoIsolatedNodes.n_nodes ∧
    1 < twoIsolatedNodes.n_nodes ∧
    (∀ (R : TopRule) (bits : Nat) (f : Nat),
      run R bits twoIsolatedNodes 0 1 [0, 0] (f + 1) = .ok (closed_start twoIsolatedNodes 0 [0, 0]) ∧
      (closed_start twoIsolatedNodes 0 [0, 0]).distance_from_source = [some 0, none] ∧
      shortest_path R bits twoIsolatedNodes 0 1 [0, 0] (f + 1) = .error Fault.nullHandle) := by
  refine ⟨by decide, by decide, by decide, fun R bits f => ?_⟩
  obtain ⟨st0, h0, hne, hpc⟩ := pop_close_init R bits twoIsolatedNodes 0 [0, 0]
    (show 0 < 2 by omega)
  have hempty : (closed_start twoIsolatedNodes 0 [0, 0]).digraph_priority_queue.empty = true := by
    rfl
  have hloop : loop R bits twoIsolatedNodes 1 f (closed_start twoIsolatedNodes 0 [0, 0]) =
      .ok (closed_start twoIsolatedNodes 0 [0, 0]) := by
    cases f <;> simp [loop, hempty]
  have hrun : run R bits twoIsolatedNodes 0 1 [0, 0] (f + 1) =
      .ok (closed_start twoIsolatedNodes 0 [0, 0]) := by
    simp only [run, h0]
    rw [loop]
    simp only [hne, hpc, show ¬ (0 = 1) by decide, if_false, Bool.false_eq_true]
    have harcs : twoIsolatedNodes.adjacency_list[0]? = some [] := rfl
    simp only [harcs, relax_arcs, hloop]
  refine ⟨hrun, by rfl, ?_⟩
  simp only [shortest_path, hrun]
  rfl

theorem frameInv_pop {s : Nat} {prev : List Nat} {st st1 : State} {u : Nat}
    (hf : FrameInv s prev st) (hp : Popped st st1 u) : FrameInv s prev st1 := by
  intro v hv
  rw [hp.2.2.2.2.1 v]
  apply hf v
  rcases hv with hv | hv
  · exact Or.inl hv
  · right
    rw [hp.2.2.1 v] at hv
    by_cases hvu : v = u
    · simp [hvu] at hv
    · simpa [hvu] using hv

theorem frameInv_relax {bits : Nat} {g : Digraph} {s : Nat} {prev : List Nat} {st st' : State}
    {u : Nat} {Du : Int} {a : Arc}
    (hw : Wf bits g s st) (hf : FrameInv s prev st) (hr : Relaxed bits u Du a st st') :
    FrameInv s prev st' := by
  rcases hr.2 with ⟨he, _⟩ | ⟨hnc, _, hstat, _, hprv⟩
  · rw [he]; exact hf
  · have hsw : s ≠ a.w := by
      intro h
      apply hnc
      rw [← h]
      exact stat_eq_of_get hw.start_closed
    intro v hv
    rw [hprv v]
    rcases hv with hv | hv
    · subst hv
      simp only [hsw, if_false]
      exact hf v (Or.inl rfl)
    · rw [hstat v] at hv
      by_cases hva : v = a.w
      · simp [hva] at hv
      · simp only [hva, if_false] at hv ⊢
        exact hf v (Or.inr hv)

theorem run_frame (R : TopRule) (bits : Nat) (g : Digraph) (s t : Nat) (prev : List Nat)
    (fuel : Nat) (hsize : g.WellSized) (htgt : g.TargetsInRange)
    (hs : s < g.n_nodes) (hprev : g.n_nodes ≤ prev.length) (hfuel : g.n_nodes ≤ fuel) :
    ∃ fin, run R bits g s t prev fuel = .ok fin ∧ Wf bits g s fin ∧ FrameInv s prev fin := by
  have h0 : FrameInv s prev (closed_start g s prev) := fun v _ => rfl
  apply @run_rule R bits g s t prev hs hprev hsize (targets_of_range htgt)
    (FrameInv s prev) (fun _ _ _ => FrameInv s prev) (FrameInv s prev)
  · exact fun _ => h0
  · exact fun _ => h0
  · exact fun st _ hi _ => hi
  · exact fun st st1 _ hi hp _ => frameInv_pop hi hp
  · exact fun st st1 u _ hi hp _ _ => frameInv_pop hi hp
  · exact fun u Du pre a post st st' _ hw hm hr _ => frameInv_relax hw hm hr
  · exact fun u Du st _ hm => hm
  · exact hfuel

theorem getElem?_of_getD {l l' : List Nat} {v : Nat} (h1 : v < l.length) (h2 : v < l'.length)
    (h : (l[v]?).getD 0 = (l'[v]?).getD 0) : l[v]? = l'[v]? := by
  rw [List.getElem?_eq_getElem h1, List.getElem?_eq_getElem h2] at h ⊢
  simpa using h

/-- C17: the run leaves `previous[start_node]` and `previous[v]` of every node
`v` that never left `UNREACHED` as the caller passed them; the vector
`shortest_path` hands back is the one of the final state. -/
theorem previous_untouched_outside_labeled (R : TopRule) (bits : Nat) (g : Digraph)
    (start_node end_node : Nat) (previous : List Nat) (fuel : Nat)
    (hsize : g.WellSized) (htgt : g.TargetsInRange)
    (hs : start_node < g.n_nodes) (_ht : end_node < g.n_nodes)
    (hprev : g.n_nodes ≤ previous.length) (hfuel : g.n_nodes ≤ fuel) :
    ∃ fin, run R bits g start_node end_node previous fuel = .ok fin ∧
      (∀ cost previous', shortest_path R bits g start_node end_node previous fuel =
        .ok (cost, previous') → previous' = fin.previous) ∧
      fin.previous[start_node]? = previous[start_node]? ∧
      (∀ v, v < g.n_nodes → fin.stat v = Label.UNREACHED →
        fin.previous[v]? = previous[v]?) := by
  obtain ⟨fin, hrun, hw, hf⟩ := run_frame R bits g start_node end_node previous fuel hsize htgt
    hs hprev hfuel
  have hlen := hw.len_prev
  refine ⟨fin, hrun, ?_, ?_, ?_⟩
  · intro cost previous' hsp
    simp only [shortest_path, hrun] at hsp
    cases hd : fin.distance bits end_node with
    | error e => simp [hd] at hsp
    | ok c =>
      simp only [hd] at hsp
      injection hsp with hsp
      injection hsp with _ hsp
      exact hsp.symm
  · exact getElem?_of_getD (by omega) (by omega) (hf start_node (Or.inl rfl))
  · intro v hv hu
    exact getElem?_of_getD (by omega) (by omega) (hf v (Or.inr hu))

theorem midInv_init (bits : Nat) (g : Digraph) (s : Nat) (prev : List Nat)
    (hs : s < g.n_nodes) (hnn : g.NonNegative) :
    MidInv bits g s s 0 [] (closed_start g s prev) := by
  refine ⟨costInv_init bits g s prev hs hnn, ?_, ?_, ?_, ?_⟩
  · rw [closed_start_stat g s prev hs]; simp
  · simp [State.dist, closed_start_rawd, cneg_zero]
  · intro x hx hc
    rw [closed_start_stat g s prev hs] at hc
    simp [hx] at hc
  · intro a ha; cases ha

theorem midInv_pop {bits : Nat} {g : Digraph} {s : Nat} {st st1 : State} {u : Nat}
    (hsize : g.WellSized) (hnn : g.NonNegative) (hsum : g.totalCost ≤ Inf bits)
    (hw : Wf bits g s st) (hi : HeadInv bits g s st) (hp : Popped st st1 u) :
    MidInv bits g s u (st1.dist bits u) [] st1 := by
  refine ⟨costInv_pop hsize hnn hsum hw hi hp, ?_, rfl, ?_, ?_⟩
  · rw [hp.2.2.1 u]; simp
  · intro x hxu hx b hb
    rw [hp.2.2.1 x] at hx
    simp only [hxu, if_false] at hx
    obtain ⟨h1, h2⟩ := hi.2 x hx b hb
    refine ⟨?_, ?_⟩
    · rw [hp.2.2.1 b.w]
      split
      · decide
      · exact h1
    · rw [dist_congr (hp.2.2.2.1 b.w), dist_congr (hp.2.2.2.1 x)]; exact h2
  · intro a ha; cases ha

theorem headInv_done {bits : Nat} {g : Digraph} {s : Nat} {st : State} {u : Nat} {Du : Int}
    (hm : MidInv bits g s u Du (g.arcsOf u) st) : HeadInv bits g s st := by
  obtain ⟨hc, hcu, hdu, hrel, hpre⟩ := hm
  refine ⟨hc, ?_⟩
  intro x hx
  by_cases hxu : x = u
  · subst hxu
    intro b hb
    rw [hdu]
    exact hpre b hb
  · exact hrel x hxu hx

theorem poppedDistances_pop {bits : Nat} {st st1 : State} {u : Nat} (hp : Popped st st1 u) :
    st1.poppedDistances bits = st.poppedDistances bits ++ [st.dist bits u] := by
  simp [State.poppedDistances, hp.2.2.2.2.2, State.dist]

theorem closed_start_popped (bits : Nat) (g : Digraph) (s : Nat) (prev : List Nat) :
    (closed_start g s prev).poppedDistances bits = [0] := by
  simp [State.poppedDistances, closed_start, cneg_zero]

/-- Closing the queued node of least distance keeps the popped distances
ordered and below the distances still queued. -/
theorem traceInv_pop {bits : Nat} {g : Digraph} {s : Nat} {st st1 : State} {u : Nat}
    (hsize : g.WellSized) (hnn : g.NonNegative) (hsum : g.totalCost ≤ Inf bits)
    (hw : Wf bits g s st) (hi : HeadInv bits g s st) (ht : TraceInv bits st)
    (hp : Popped st st1 u) :
    TraceInv bits st1 ∧ ∀ d, d ∈ st1.poppedDistances bits → d ≤ st1.dist bits u := by
  have hpd := @poppedDistances_pop bits st st1 u hp
  obtain ⟨hlab, hmax, hstat, hrawd, _, _⟩ := hp
  have hmin : ∀ y, st.stat y = Label.LABELED → st.dist bits u ≤ st.dist bits y := by
    intro y hy
    have ru := hi.1.dist_range hsize hnn hsum u (by rw [hlab]; decide)
    have ry := hi.1.dist_range hsize hnn hsum y (by rw [hy]; decide)
    have e1 := hw.rawd_neg u ru.1 ru.2
    have e2 := hw.rawd_neg y ry.1 ry.2
    have := hmax y hy
    omega
  have hdu : st1.dist bits u = st.dist bits u := dist_congr (hrawd u)
  refine ⟨⟨?_, ?_⟩, ?_⟩
  · rw [hpd, List.pairwise_append]
    refine ⟨ht.1, List.pairwise_singleton _ _, ?_⟩
    intro a ha b hb
    simp only [List.mem_singleton] at hb
    rw [hb]
    exact ht.2 a ha u hlab
  · intro d hd y hy
    rw [hstat y] at hy
    have hyu : y ≠ u := by
      intro e; simp [e] at hy
    simp only [hyu, if_false] at hy
    rw [dist_congr (hrawd y)]
    rw [hpd, List.mem_append, List.mem_singleton] at hd
    rcases hd with hd | hd
    · exact ht.2 d hd y hy
    · rw [hd]; exact hmin y hy
  · intro d hd
    rw [hdu]
    rw [hpd, List.mem_append, List.mem_singleton] at hd
    rcases hd with hd | hd
    · exact ht.2 d hd u hlab
    · rw [hd]

/-- Relaxing an arc out of the node just closed keeps the popped distances below
the distances queued: the candidate is not below the distance of that node. -/
theorem traceInv_relax {bits : Nat} {g : Digraph} {s : Nat}
    (hsize : g.WellSized) (hnn : g.NonNegative) (hsum : g.totalCost ≤ Inf bits)
    (u : Nat) (Du : Int) (pre : List Arc) (a : Arc) (st st' : State)
    (ha : a ∈ g.arcsOf u)
    (hm : MidInv bits g s u Du pre st) (ht : TraceInv bits st)
    (hle : ∀ d, d ∈ st.poppedDistances bits → d ≤ Du)
    (hr : Relaxed bits u Du a st st') :
    TraceInv bits st' ∧ ∀ d, d ∈ st'.poppedDistances bits → d ≤ Du := by
  obtain ⟨hc, hcu, hdu, _, _⟩ := hm
  have hac := arcs_nonneg hnn u a ha
  have haout := arc_le_outCost hnn u a ha
  have hru := hc.dist_range hsize hnn hsum u (by rw [hcu]; decide)
  have hbu := hc.bound_closed u hcu
  have hcct := closedCost_le_total hsize hnn st
  rw [hdu] at hru hbu
  have hexact : cadd bits Du a.c = Du + a.c := cadd_exact bits Du a.c (by omega) (by omega)
  obtain ⟨htr, hcase⟩ := hr
  have hpd : st'.poppedDistances bits = st.poppedDistances bits := by
    simp [State.poppedDistances, htr]
  rcases hcase with ⟨heq, _⟩ | ⟨_, _, hstat', hrawd', _⟩
  · subst heq
    exact ⟨ht, hle⟩
  · refine ⟨⟨by rw [hpd]; exact ht.1, ?_⟩, by rw [hpd]; exact hle⟩
    intro d hd y hy
    rw [hpd] at hd
    by_cases hya : y = a.w
    · have : st'.dist bits y = Du + a.c := by
        unfold State.dist
        rw [hrawd' y]
        simp only [hya, if_true]
        rw [cneg_cneg_cadd, hexact]
      rw [this]
      have := hle d hd
      omega
    · rw [hstat' y] at hy
      simp only [hya, if_false] at hy
      have : st'.dist bits y = st.dist bits y := by
        apply dist_congr
        rw [hrawd' y]
        simp only [hya, if_false]
      rw [this]
      exact ht.2 d hd y hy

theorem run_trace (R : TopRule) (bits : Nat) (g : Digraph) (s t : Nat) (prev : List Nat)
    (fuel : Nat) (hsize : g.WellSized) (htgt : g.TargetsInRange) (hnn : g.NonNegative)
    (hsum : g.totalCost ≤ Inf bits) (hs : s < g.n_nodes) (hprev : g.n_nodes ≤ prev.length)
    (hfuel : g.n_nodes ≤ fuel) :
    ∃ fin, run R bits g s t prev fuel = .ok fin ∧ Wf bits g s fin ∧
      (fin.poppedDistances bits).Pairwise (fun x y => x ≤ y) := by
  have h0 : TraceInv bits (closed_start g s prev) := by
    refine ⟨by rw [closed_start_popped]; exact List.pairwise_singleton _ _, ?_⟩
    intro d _ y hy
    rw [closed_start_stat g s prev hs] at hy
    split at hy <;> cases hy
  apply @run_rule R bits g s t prev hs hprev hsize (targets_of_range htgt)
    (fun st => HeadInv bits g s st ∧ TraceInv bits st)
    (fun u Du pre st => MidInv bits g s u Du pre st ∧ TraceInv bits st ∧
      ∀ d, d ∈ st.poppedDistances bits → d ≤ Du)
    (fun st => (st.poppedDistances bits).Pairwise (fun x y => x ≤ y))
  · exact fun _ => h0.1
  · intro _
    refine ⟨midInv_init bits g s prev hs hnn, h0, ?_⟩
    intro d hd
    rw [closed_start_popped] at hd
    simp at hd
    omega
  · exact fun st _ hi _ => hi.2.1
  · exact fun st st1 hw hi hp _ => (traceInv_pop hsize hnn hsum hw hi.1 hi.2 hp).1.1
  · intro st st1 u hw hi hp _ _
    have := traceInv_pop hsize hnn hsum hw hi.1 hi.2 hp
    exact ⟨midInv_pop hsize hnn hsum hw hi.1 hp, this.1, this.2⟩
  · intro u Du pre a post st st' harcs _ hm hr _
    have ha : a ∈ g.arcsOf u := by rw [harcs]; simp
    have := traceInv_relax hsize hnn hsum u Du pre a st st' ha hm.1 hm.2.1 hm.2.2 hr
    exact ⟨midInv_relax hsize hnn hsum u Du pre a post st st' harcs hm.1 hr, this.1, this.2⟩
  · exact fun u Du st _ hm => ⟨headInv_done hm.1, hm.2.1⟩
  · exact hfuel

/-- Counterexample to C14 as stated: on the path `0 → 1 → 2` with two arcs of
cost 2147483647 (non-negative costs, 32-bit `cost_t`) the second candidate
distance wraps around, and the popped distances are 0, 2147483647, -2. -/
theorem popped_distances_overflow :
    (heavyPathGraph 31).NonNegative ∧ (heavyPathGraph 31).TargetsInRange ∧
    (heavyPathGraph 31).WellSized ∧
    (∀ R : TopRule, ∃ fin, run R 31 (heavyPathGraph 31) 0 2 [0, 0, 0] 3 = .ok fin ∧
      fin.poppedDistances 31 = [0, 2147483647, -2]) ∧
    ¬ List.Pairwise (fun x y => x ≤ y) ([0, 2147483647, -2] : List Int) := by
  refine ⟨by decide, by decide, by decide, fun R => ⟨_, heavy_run R 31 (by decide), by rfl⟩,
    by decide⟩

/-- C14, as amended: on a graph with non-negative costs whose total does not
exceed `Inf`, the distances of the entries popped by the successive iterations of
the loop never decrease. -/
theorem popped_distances_nondecreasing (R : TopRule) (bits : Nat) (g : Digraph)
    (start_node end_node : Nat) (previous : List Nat) (fuel : Nat)
    (hsize : g.WellSized) (htgt : g.TargetsInRange) (hnn : g.NonNegative)
    (hsum : g.totalCost ≤ Inf bits)
    (hs : start_node < g.n_nodes) (_ht : end_node < g.n_nodes)
    (hprev : g.n_nodes ≤ previous.length) (hfuel : g.n_nodes ≤ fuel) :
    ∃ fin, run R bits g start_node end_node previous fuel = .ok fin ∧
      (fin.poppedDistances bits).Pairwise (fun x y => x ≤ y) := by
  obtain ⟨fin, hrun, _, hp⟩ := run_trace R bits g start_node end_node previous fuel hsize htgt
    hnn hsum hs hprev hfuel
  exact ⟨fin, hrun, hp⟩

/-- Witness for C14 as amended: the four-node example graph, from node 0 to node 3. -/
theorem popped_distances_nondecreasing_witness :
    ∃ fin, run firstMaxRule 31 scenarioGraph 0 3 [0, 0, 0, 0] 4 = .ok fin ∧
      (fin.poppedDistances 31).Pairwise (fun x y => x ≤ y) :=
  popped_distances_nondecreasing firstMaxRule 31 scenarioGraph 0 3 [0, 0, 0, 0] 4
    (by decide) (by decide) (by decide) (by decide) (by decide) (by decide) (by decide)
    (by decide)

/-- Witness for C17: the four-node example graph, from node 0 to node 3. -/
theorem previous_untouched_outside_labeled_witness :
    ∃ fin, run firstMaxRule 31 scenarioGraph 0 3 [7, 7, 7, 7] 4 = .ok fin ∧
      (∀ cost previous', shortest_path firstMaxRule 31 scenarioGraph 0 3 [7, 7, 7, 7] 4 =
        .ok (cost, previous') → previous' = fin.previous) ∧
      fin.previous[0]? = [7, 7, 7, 7][0]? ∧
      (∀ v, v < scenarioGraph.n_nodes → fin.stat v = Label.UNREACHED →
        fin.previous[v]? = [7, 7, 7, 7][v]?) :=
  previous_untouched_outside_labeled firstMaxRule 31 scenarioGraph 0 3 [7, 7, 7, 7] 4
    (by decide) (by decide) (by decide) (by decide) (by decide) (by decide)

theorem init_state_stat {g : Digraph} {s : Nat} {prev : List Nat} {st0 : State}
    (h : init_state g s prev = .ok st0) (x : Nat) : st0.stat x = Label.UNREACHED := by
  unfold init_state at h
  split at h
  · injection h with h
    subst h
    simp only [State.stat]
    rw [List.getElem?_replicate]
    split <;> rfl
  · cases h

theorem init_state_pop (R : TopRule) (bits : Nat) {g : Digraph} {s : Nat} {prev : List Nat}
    {st0 st1 : State} {u : Nat} {Du : Int} (hs : s < g.n_nodes)
    (h : init_state g s prev = .ok st0) (hp : pop_close R bits st0 = .ok (st1, u, Du)) :
    st1 = closed_start g s prev ∧ u = s ∧ Du = 0 := by
  obtain ⟨st0', h0, _, hpc⟩ := pop_close_init R bits g s prev hs
  rw [h] at h0
  injection h0 with h0
  subst h0
  rw [hp] at hpc
  injection hpc with hpc
  injection hpc with h1 h2
  injection h2 with h2 h3
  exact ⟨h1, h2, h3⟩

/-- A step out of a consistent state leads to a consistent state. -/
theorem step_wf {R : TopRule} {bits : Nat} {g : Digraph} {s : Nat} {st st' : State}
    (htgt : g.TargetsInRange) (hw : Wf bits g s st) (hstep : Step R bits g st st') :
    Wf bits g s st' ∧
    ((∃ u, Popped st st' u) ∨
      (∃ u a, st.stat u = Label.CLOSED ∧ a ∈ g.arcsOf u ∧
        Relaxed bits u (st.dist bits u) a st st')) := by
  cases hstep with
  | @pop u Du hne hp =>
    obtain ⟨st1, u1, hpc, hpop, hw1, _⟩ := pop_close_ok R hw hne
    rw [hp] at hpc
    injection hpc with hpc
    injection hpc with h1 h2
    injection h2 with h2 _
    subst h1
    exact ⟨hw1, Or.inl ⟨u1, hpop⟩⟩
  | @relax u a hcl ha hr =>
    obtain ⟨st1, hra, hw1, hrel⟩ := relax_arc_ok hw u (st.dist bits u) a
      (targets_of_range htgt u a ha)
    rw [hr] at hra
    injection hra with hra
    subst hra
    exact ⟨hw1, Or.inr ⟨u, a, hcl, ha, hrel⟩⟩

/-- Every visited state is the initial one or is consistent. -/
theorem visited_cases {R : TopRule} {bits : Nat} {g : Digraph} {s : Nat} {prev : List Nat}
    {st : State} (htgt : g.TargetsInRange) (hs : s < g.n_nodes)
    (hprev : g.n_nodes ≤ prev.length) (hv : Visited R bits g s prev st) :
    init_state g s prev = .ok st ∨ Wf bits g s st := by
  obtain ⟨st0, h0, hsteps⟩ := hv
  induction hsteps with
  | refl => exact Or.inl h0
  | @tail b c _ hstep ih =>
    right
    rcases ih with hb | hb
    · cases hstep with
      | @pop u Du hne hp =>
        rw [(init_state_pop R bits hs hb hp).1]
        exact closed_start_wf bits g s prev hs hprev
      | @relax u a hcl ha hr =>
        rw [init_state_stat hb u] at hcl
        cases hcl
    · exact (step_wf htgt hb hstep).1

theorem steps_wf {R : TopRule} {bits : Nat} {g : Digraph} {s : Nat} {st st' : State}
    (htgt : g.TargetsInRange) (hw : Wf bits g s st)
    (hsteps : Relation.ReflTransGen (Step R bits g) st st') : Wf bits g s st' := by
  induction hsteps with
  | refl => exact hw
  | tail _ hstep ih => exact (step_wf htgt ih hstep).1

/-- A relaxation leaves closed nodes alone. -/
theorem relaxed_closed {bits : Nat} {u : Nat} {Du : Int} {a : Arc} {st st' : State}
    (hr : Relaxed bits u Du a st st') (v : Nat) (hv : st.stat v = Label.CLOSED) :
    st'.stat v = Label.CLOSED ∧ st'.rawd v = st.rawd v ∧ st'.prv v = st.prv v := by
  rcases hr.2 with ⟨he, _⟩ | ⟨hnc, _, hstat, hrawd, hprv⟩
  · rw [he]; exact ⟨hv, rfl, rfl⟩
  · have hva : v ≠ a.w := by
      intro e; rw [e] at hv; exact hnc hv
    rw [hstat v, hrawd v, hprv v]
    simp only [hva, if_false]
    exact ⟨hv, trivial, trivial⟩

theorem relaxed_rank {bits : Nat} {u : Nat} {Du : Int} {a : Arc} {st st' : State}
    (hr : Relaxed bits u Du a st st') (v : Nat) : (st.stat v).rank ≤ (st'.stat v).rank := by
  rcases hr.2 with ⟨he, _⟩ | ⟨hnc, _, hstat, _, _⟩
  · rw [he]
  · rw [hstat v]
    by_cases hva : v = a.w
    · simp only [hva, if_true]
      cases hl : st.stat a.w with
      | UNREACHED => decide
      | LABELED => decide
      | CLOSED => exact absurd hl hnc
    · simp only [hva, if_false]
      exact le_refl _

theorem popped_rank {st st1 : State} {u : Nat} (hp : Popped st st1 u) (v : Nat) :
    (st.stat v).rank ≤ (st1.stat v).rank := by
  rw [hp.2.2.1 v]
  by_cases hvu : v = u
  · simp only [hvu, if_true]
    cases st.stat u <;> decide
  · simp only [hvu, if_false]
    exact le_refl _

theorem popped_closed {st st1 : State} {u : Nat} (hp : Popped st st1 u) (v : Nat)
    (hv : st.stat v = Label.CLOSED) :
    st1.stat v = Label.CLOSED ∧ st1.rawd v = st.rawd v ∧ st1.prv v = st.prv v := by
  refine ⟨?_, hp.2.2.2.1 v, hp.2.2.2.2.1 v⟩
  rw [hp.2.2.1 v]
  split
  · rfl
  · exact hv

/-- The for loop is a sequence of relaxation steps. -/
theorem relax_arcs_steps {R : TopRule} {bits : Nat} {g : Digraph} {s : Nat}
    (htgt : g.TargetsInRange) (u : Nat) :
    ∀ (arcs : List Arc) (st st' : State), Wf bits g s st → st.stat u = Label.CLOSED →
      (∀ a, a ∈ arcs → a ∈ g.arcsOf u) →
      relax_arcs bits u (st.dist bits u) st arcs = .ok st' →
      Relation.ReflTransGen (Step R bits g) st st' := by
  intro arcs
  induction arcs with
  | nil =>
    intro st st' _ _ _ h
    simp only [relax_arcs] at h
    injection h with h
    subst h
    exact Relation.ReflTransGen.refl
  | cons a rest ih =>
    intro st st' hw hcl harcs h
    have ha : a ∈ g.arcsOf u := harcs a (List.mem_cons_self _ _)
    obtain ⟨st1, hra, hw1, hrel⟩ := relax_arc_ok hw u (st.dist bits u) a
      (targets_of_range htgt u a ha)
    simp only [relax_arcs, hra] at h
    obtain ⟨hcl1, hrawd1, _⟩ := relaxed_closed hrel u hcl
    rw [← dist_congr hrawd1] at h
    have hstep : Step R bits g st st1 := Step.relax hcl ha hra
    exact Relation.ReflTransGen.head hstep
      (ih st1 st' hw1 hcl1 (fun b hb => harcs b (List.mem_cons_of_mem _ hb)) h)

theorem arcsOf_of_get {g : Digraph} {x : Nat} {arcs : List Arc}
    (h : g.adjacency_list[x]? = some arcs) : g.arcsOf x = arcs := by
  simp [Digraph.arcsOf, h]

/-- The while loop is a sequence of steps. -/
theorem loop_steps {R : TopRule} {bits : Nat} {g : Digraph} {s : Nat} (t : Nat)
    (htgt : g.TargetsInRange) :
    ∀ (fuel : Nat) (st fin : State), Wf bits g s st → loop R bits g t fuel st = .ok fin →
      Relation.ReflTransGen (Step R bits g) st fin := by
  intro fuel
  induction fuel with
  | zero =>
    intro st fin _ h
    rw [loop] at h
    split at h
    · injection h with h; subst h; exact Relation.ReflTransGen.refl
    · cases h
  | succ fuel ih =>
    intro st fin hw h
    rw [loop] at h
    cases he : st.digraph_priority_queue.empty with
    | true =>
      simp only [he, if_true] at h
      injection h with h; subst h; exact Relation.ReflTransGen.refl
    | false =>
      obtain ⟨st1, u, hpc, hpop, hw1, _⟩ := pop_close_ok R hw he
      have hstep : Step R bits g st st1 := Step.pop he hpc
      simp only [he, hpc, Bool.false_eq_true, if_false] at h
      by_cases hut : u = t
      · simp only [hut, if_true] at h
        injection h with h; subst h
        exact Relation.ReflTransGen.single hstep
      · simp only [hut, if_false] at h
        cases harcs : g.adjacency_list[u]? with
        | none => simp [harcs] at h
        | some arcs =>
          simp only [harcs] at h
          cases hr : relax_arcs bits u (st1.dist bits u) st1 arcs with
          | error e => simp [hr] at h
          | ok st2 =>
            simp only [hr] at h
            have hcl : st1.stat u = Label.CLOSED := by rw [hpop.2.2.1 u]; simp
            have hsteps := @relax_arcs_steps R bits g s htgt u arcs st1 st2 hw1 hcl
              (fun a ha => by rw [arcsOf_of_get harcs]; exact ha) hr
            exact Relation.ReflTransGen.head hstep
              (hsteps.trans (ih st2 fin (steps_wf htgt hw1 hsteps) h))

/-- The state in which a run leaves the loop is a visited state. -/
theorem run_visited {R : TopRule} {bits : Nat} {g : Digraph} {s t : Nat} {prev : List Nat}
    {fuel : Nat} {fin : State} (htgt : g.TargetsInRange) (hs : s < g.n_nodes)
    (hprev : g.n_nodes ≤ prev.length) (h : run R bits g s t prev fuel = .ok fin) :
    Visited R bits g s prev fin := by
  obtain ⟨st0, h0, hne, hpc⟩ := pop_close_init R bits g s prev hs
  have hw1 := closed_start_wf bits g s prev hs hprev
  refine ⟨st0, h0, ?_⟩
  simp only [run, h0] at h
  cases fuel with
  | zero =>
    rw [loop] at h
    simp [hne] at h
  | succ fuel =>
    rw [loop] at h
    have hstep : Step R bits g st0 (closed_start g s prev) := Step.pop hne hpc
    simp only [hne, hpc, Bool.false_eq_true, if_false] at h
    by_cases hst : s = t
    · rw [if_pos hst] at h
      injection h with h; subst h
      exact Relation.ReflTransGen.single hstep
    · rw [if_neg hst] at h
      cases harcs : g.adjacency_list[s]? with
      | none => simp [harcs] at h
      | some arcs =>
        simp only [harcs] at h
        have hd0 : (closed_start g s prev).dist bits s = 0 := by
          simp [State.dist, closed_start_rawd, cneg_zero]
        cases hr : relax_arcs bits s 0 (closed_start g s prev) arcs with
        | error e => simp [hr] at h
        | ok st2 =>
          simp only [hr] at h
          have hcl : (closed_start g s prev).stat s = Label.CLOSED := by
            rw [closed_start_stat g s prev hs]; simp
          rw [← hd0] at hr
          have hsteps := @relax_arcs_steps R bits g s htgt s arcs _ st2 hw1 hcl
            (fun a ha => by rw [arcsOf_of_get harcs]; exact ha) hr
          exact Relation.ReflTransGen.head hstep
            (hsteps.trans (loop_steps t htgt fuel st2 fin (steps_wf htgt hw1 hsteps) h))

theorem stat_lt_of_ne {bits : Nat} {g : Digraph} {s : Nat} {st : State} (hw : Wf bits g s st)
    {v : Nat} (hv : st.stat v ≠ Label.UNREACHED) : v < g.n_nodes := by
  rw [← hw.len_status]
  by_contra hc
  apply hv
  simp [State.stat, List.getElem?_eq_none (show st.node_status.length ≤ v by omega)]

/-- A node that has left `UNREACHED` has been pushed exactly once. -/
theorem Wf.pushes_one {bits : Nat} {g : Digraph} {s : Nat} {st : State} (hw : Wf bits g s st)
    {v : Nat} (hv : st.stat v ≠ Label.UNREACHED) : st.pushes v = 1 := by
  have hget : st.node_status[v]? = some (st.stat v) := get_of_stat rfl hv
  obtain ⟨h, sl, _, hsl, hu, _⟩ := hw.slot_of_status hget hv
  apply List.count_eq_one_of_mem hw.slots_nodup
  rw [List.mem_map]
  exact ⟨sl, List.mem_iff_getElem?.2 ⟨h, hsl⟩, hu⟩

theorem forward_refl (bits : Nat) (st : State) : Forward bits st st :=
  fun _ => ⟨le_refl _, fun h => ⟨h, rfl, rfl, rfl⟩⟩

theorem forward_trans {bits : Nat} {st1 st2 st3 : State} (h12 : Forward bits st1 st2)
    (h23 : Forward bits st2 st3) : Forward bits st1 st3 := by
  intro v
  refine ⟨le_trans (h12 v).1 (h23 v).1, fun hc => ?_⟩
  obtain ⟨a1, a2, a3, a4⟩ := (h12 v).2 hc
  obtain ⟨b1, b2, b3, b4⟩ := (h23 v).2 a1
  exact ⟨b1, b2.trans a2, b3.trans a3, b4.trans a4⟩

/-- Two consistent states of which the later keeps the labels in order and the
closed nodes as they are. -/
theorem forward_of_views {bits : Nat} {g : Digraph} {s : Nat} {st st' : State}
    (hw : Wf bits g s st) (hw' : Wf bits g s st')
    (hrank : ∀ v, (st.stat v).rank ≤ (st'.stat v).rank)
    (hclosed : ∀ v, st.stat v = Label.CLOSED →
      st'.stat v = Label.CLOSED ∧ st'.rawd v = st.rawd v ∧ st'.prv v = st.prv v) :
    Forward bits st st' := by
  intro v
  refine ⟨hrank v, fun hc => ?_⟩
  obtain ⟨hc', hrawd, hprv⟩ := hclosed v hc
  have hne : st.stat v ≠ Label.UNREACHED := by rw [hc]; decide
  have hne' : st'.stat v ≠ Label.UNREACHED := by rw [hc']; decide
  have hv := stat_lt_of_ne hw hne
  have hl := hw.len_prev
  have hl' := hw'.len_prev
  refine ⟨hc', ?_, ?_, ?_⟩
  · rw [hw'.distance_ok v hne', hw.distance_ok v hne, dist_congr hrawd]
  · exact getElem?_of_getD (by omega) (by omega) hprv
  · rw [hw'.pushes_one hne', hw.pushes_one hne]

theorem step_forward {R : TopRule} {bits : Nat} {g : Digraph} {s : Nat} {st st' : State}
    (htgt : g.TargetsInRange) (hw : Wf bits g s st) (hstep : Step R bits g st st') :
    Forward bits st st' := by
  obtain ⟨hw', hcase⟩ := step_wf htgt hw hstep
  rcases hcase with ⟨u, hp⟩ | ⟨u, a, _, _, hr⟩
  · exact forward_of_views hw hw' (popped_rank hp) (popped_closed hp)
  · exact forward_of_views hw hw' (relaxed_rank hr) (relaxed_closed hr)

theorem steps_forward {R : TopRule} {bits : Nat} {g : Digraph} {s : Nat} {st st' : State}
    (htgt : g.TargetsInRange) (hw : Wf bits g s st)
    (hsteps : Relation.ReflTransGen (Step R bits g) st st') : Forward bits st st' := by
  induction hsteps with
  | refl => exact forward_refl bits st
  | tail hab hstep ih => exact forward_trans ih (step_forward htgt (steps_wf htgt hw hab) hstep)

theorem wf_queueInv {bits : Nat} {g : Digraph} {s : Nat} {st : State} (hw : Wf bits g s st) :
    QueueInv bits st := by
  refine ⟨?_, ?_, ?_⟩
  · intro i j si sj hi hj _ _ he
    have h1 := hw.slot_hnd i si hi
    have h2 := hw.slot_hnd j sj hj
    rw [he, h2] at h1
    injection h1 with h1
    injection h1 with h1
    exact h1.symm
  · intro v hv
    obtain ⟨h, sl, hd, hsl, hu, hl⟩ := hw.slot_of_status (get_of_stat hv (by decide)) (by decide)
    have hlive : sl.live = true := by
      cases hb : sl.live with
      | true => rfl
      | false => rw [hb] at hl; simp at hl
    refine ⟨h, sl, hsl, hlive, hu, ⟨cneg bits sl.key.d, ?_, ?_⟩, ?_⟩
    · simp [State.distance, deref_eq hd hsl]
    · obtain ⟨x, hx⟩ := hw.key_range h sl hsl
      rw [hx, cneg_cneg]
    · intro h' sl' hsl' _ hu'
      have h1 := hw.slot_hnd h' sl' hsl'
      rw [hu', hd] at h1
      injection h1 with h1
      injection h1 with h1
      exact h1.symm
  · intro h sl hsl hlive
    have := hw.slot_status h sl hsl
    rw [hlive] at this
    rw [stat_eq_of_get this]
    decide

theorem init_queueInv {bits : Nat} {g : Digraph} {s : Nat} {prev : List Nat} {st0 : State}
    (h : init_state g s prev = .ok st0) : QueueInv bits st0 := by
  have hstat := init_state_stat h
  refine ⟨?_, ?_, ?_⟩
  · intro i j si sj hi hj _ _ _
    unfold init_state at h
    split at h
    · injection h with h
      subst h
      simp only [PriorityQueue.push] at hi hj
      have hi' : i < 1 := by
        by_contra hc
        rw [List.getElem?_eq_none (by simp; omega)] at hi
        cases hi
      have hj' : j < 1 := by
        by_contra hc
        rw [List.getElem?_eq_none (by simp; omega)] at hj
        cases hj
      omega
    · cases h
  · intro v hv
    rw [hstat v] at hv
    cases hv
  · intro h' sl _ _
    rw [hstat]
    decide

/-- Between a visited state and any state reached from it by further steps, no
label has moved backwards and the closed nodes are as they were. -/
theorem visited_forward {R : TopRule} {bits : Nat} {g : Digraph} {s : Nat}
    {prev : List Nat} (htgt : g.TargetsInRange) (hs : s < g.n_nodes)
    (hprev : g.n_nodes ≤ prev.length) {st st' : State}
    (hv : Visited R bits g s prev st)
    (hsteps : Relation.ReflTransGen (Step R bits g) st st') :
    Forward bits st st' := by
  rcases visited_cases htgt hs hprev hv with h0 | hw
  · intro v
    rw [init_state_stat h0 v]
    exact ⟨Nat.zero_le _, fun h => by cases h⟩
  · exact steps_forward htgt hw hsteps

theorem visited_queueInv {R : TopRule} {bits : Nat} {g : Digraph} {s : Nat}
    {prev : List Nat} (htgt : g.TargetsInRange) (hs : s < g.n_nodes)
    (hprev : g.n_nodes ≤ prev.length) {st : State}
    (hv : Visited R bits g s prev st) :
    QueueInv bits st := by
  rcases visited_cases htgt hs hprev hv with h0 | hw
  · exact init_queueInv h0
  · exact wf_queueInv hw

theorem costs_within {g : Digraph} {C : Int} (h : g.CostsWithin C) (x : Nat) (a : Arc)
    (ha : a ∈ g.arcsOf x) : 0 ≤ a.c ∧ a.c ≤ C := by
  unfold Digraph.arcsOf at ha
  cases hx : g.adjacency_list[x]? with
  | none => rw [hx] at ha; simp at ha
  | some arcs =>
    rw [hx] at ha
    exact h arcs (List.mem_iff_getElem?.2 ⟨x, hx⟩) a ha

theorem closedPath_pathTo {g : Digraph} {st : State} {s : Nat} :
    ∀ (ps : List Nat) (cs : List Int) (v : Nat), ClosedPath g st s v ps cs →
      PathTo g s v ps cs := by
  intro ps
  induction ps with
  | nil =>
    intro cs v h
    cases cs with
    | nil => exact h
    | cons c cs => simp [ClosedPath] at h
  | cons p ps ih =>
    intro cs v h
    cases cs with
    | nil => simp [ClosedPath] at h
    | cons c cs =>
      simp only [ClosedPath] at h
      exact ⟨h.2.2.1, ih cs p h.2.2.2⟩

theorem closedPath_length {g : Digraph} {st : State} {s : Nat} :
    ∀ (ps : List Nat) (cs : List Int) (v : Nat), ClosedPath g st s v ps cs →
      cs.length = ps.length := by
  intro ps
  induction ps with
  | nil =>
    intro cs v h
    cases cs with
    | nil => rfl
    | cons c cs => simp [ClosedPath] at h
  | cons p ps ih =>
    intro cs v h
    cases cs with
    | nil => simp [ClosedPath] at h
    | cons c cs =>
      simp only [ClosedPath] at h
      simp [ih cs p h.2.2.2]

theorem closedPath_closed {g : Digraph} {st : State} {s : Nat} :
    ∀ (ps : List Nat) (cs : List Int) (v : Nat), ClosedPath g st s v ps cs →
      ∀ p, p ∈ ps → st.stat p = Label.CLOSED := by
  intro ps
  induction ps with
  | nil => intro cs v _ p hp; cases hp
  | cons q ps ih =>
    intro cs v h p hp
    cases cs with
    | nil => simp [ClosedPath] at h
    | cons c cs =>
      simp only [ClosedPath] at h
      rcases List.mem_cons.1 hp with e | hp
      · rw [e]; exact h.2.1
      · exact ih cs q h.2.2.2 p hp

/-- The cost of a path of `k` arcs lies between `0` and `k * C`. -/
theorem closedPath_sum {g : Digraph} {st : State} {s : Nat} {C : Int} (hC : g.CostsWithin C) :
    ∀ (ps : List Nat) (cs : List Int) (v : Nat), ClosedPath g st s v ps cs →
      0 ≤ cs.sum ∧ cs.sum ≤ (ps.length : Int) * C := by
  intro ps
  induction ps with
  | nil =>
    intro cs v h
    cases cs with
    | nil => simp
    | cons c cs => simp [ClosedPath] at h
  | cons p ps ih =>
    intro cs v h
    cases cs with
    | nil => simp [ClosedPath] at h
    | cons c cs =>
      simp only [ClosedPath] at h
      obtain ⟨h0, h1⟩ := ih cs p h.2.2.2
      obtain ⟨c0, c1⟩ := costs_within hC p (Arc.mk v c) h.2.2.1
      simp only [List.sum_cons, List.length_cons, Nat.cast_add, Nat.cast_one]
      simp only at c0 c1
      constructor
      · omega
      · have : ((ps.length : Int) + 1) * C = (ps.length : Int) * C + C := by ring
        omega

/-- A chain through closed nodes survives a change of `previous` at a node that
is not closed. -/
theorem closedPath_stable {g : Digraph} {st st' : State} {s : Nat} (v0 : Nat)
    (hprv : ∀ y, y ≠ v0 → st'.prv y = st.prv y)
    (hclosed : ∀ y, st.stat y = Label.CLOSED → st'.stat y = Label.CLOSED)
    (hv0 : st.stat v0 ≠ Label.CLOSED) :
    ∀ (ps : List Nat) (cs : List Int) (x : Nat), x ≠ v0 → ClosedPath g st s x ps cs →
      ClosedPath g st' s x ps cs := by
  intro ps
  induction ps with
  | nil =>
    intro cs x _ h
    cases cs with
    | nil => exact h
    | cons c cs => simp [ClosedPath] at h
  | cons p ps ih =>
    intro cs x hx h
    cases cs with
    | nil => simp [ClosedPath] at h
    | cons c cs =>
      simp only [ClosedPath] at h ⊢
      obtain ⟨h1, h2, h3, h4⟩ := h
      have hp : p ≠ v0 := by
        intro e; rw [e] at h2; exact hv0 h2
      exact ⟨by rw [hprv x hx]; exact h1, hclosed p h2, h3, ih cs p hp h4⟩

theorem closedPath_mono {g : Digraph} {st st' : State} {s : Nat}
    (hprv : ∀ y, st'.prv y = st.prv y)
    (hclosed : ∀ y, st.stat y = Label.CLOSED → st'.stat y = Label.CLOSED) :
    ∀ (ps : List Nat) (cs : List Int) (x : Nat), ClosedPath g st s x ps cs →
      ClosedPath g st' s x ps cs := by
  intro ps
  induction ps with
  | nil =>
    intro cs x h
    cases cs with
    | nil => exact h
    | cons c cs => simp [ClosedPath] at h
  | cons p ps ih =>
    intro cs x h
    cases cs with
    | nil => simp [ClosedPath] at h
    | cons c cs =>
      simp only [ClosedPath] at h ⊢
      obtain ⟨h1, h2, h3, h4⟩ := h
      exact ⟨by rw [hprv x]; exact h1, hclosed p h2, h3, ih cs p h4⟩

/-- While some node of the graph is not closed, fewer than `n_nodes` nodes have
been popped. -/
theorem Wf.trace_lt {bits : Nat} {g : Digraph} {s : Nat} {st : State} (hw : Wf bits g s st)
    {w : Nat} (hw1 : w < g.n_nodes) (hnc : st.stat w ≠ Label.CLOSED) :
    st.trace.length + 1 ≤ g.n_nodes := by
  have hnot : w ∉ st.trace.map (fun k => k.u) := by
    intro hm
    exact hnc (stat_eq_of_get ((hw.trace_closed w).1 hm))
  have hnd : (w :: st.trace.map (fun k => k.u)).Nodup := List.nodup_cons.2 ⟨hnot, hw.trace_nodup⟩
  have hsub : (w :: st.trace.map (fun k => k.u)) ⊆ List.range g.n_nodes := by
    intro v hv
    rw [List.mem_range]
    rcases List.mem_cons.1 hv with e | hv
    · rw [e]; exact hw1
    · have := (hw.trace_closed v).1 hv
      rw [← hw.len_status]
      by_contra hc
      rw [List.getElem?_eq_none (by omega)] at this
      cases this
  have := (List.subperm_of_subset hnd hsub).length_le
  simpa using this

/-- The candidate distance for an arc out of a closed node `u` into a node that
is not closed: the chain of `u` extended by the arc is a simple path, short enough
for its cost to stay below `Inf`, so the addition is exact. -/
theorem candidate_path {bits : Nat} {g : Digraph} {s : Nat} {st : State} {C : Int}
    (hw : Wf bits g s st) (hp : PathInv bits g s st) (hC : g.CostsWithin C)
    (hb : ((g.n_nodes : Int) - 1) * C < Inf bits) {u : Nat} {a : Arc}
    (hcl : st.stat u = Label.CLOSED) (ha : a ∈ g.arcsOf u) (haw : a.w < g.n_nodes)
    (hnc : st.stat a.w ≠ Label.CLOSED) :
    ∃ ps cs, ClosedPath g st s u ps cs ∧ (a.w :: u :: ps).Nodup ∧
      cs.sum = st.dist bits u ∧ ps.length + 1 ≤ st.trace.length ∧
      ps.length + 2 ≤ g.n_nodes ∧ 0 ≤ st.dist bits u + a.c ∧
      st.dist bits u + a.c ≤ ((g.n_nodes : Int) - 1) * C ∧
      cadd bits (st.dist bits u) a.c = st.dist bits u + a.c := by
  obtain ⟨ps, cs, hpath, hnd, hsum, hlen⟩ := hp u (by rw [hcl]; decide)
  simp only [hcl, if_true] at hlen
  have htl := hw.trace_lt haw hnc
  obtain ⟨s0, s1⟩ := closedPath_sum hC ps cs u hpath
  obtain ⟨c0, c1⟩ := costs_within hC u a ha
  have hC0 : 0 ≤ C := le_trans c0 c1
  have hk : (ps.length : Int) + 1 ≤ (g.n_nodes : Int) - 1 := by omega
  have hmul : ((ps.length : Int) + 1) * C ≤ ((g.n_nodes : Int) - 1) * C :=
    mul_le_mul_of_nonneg_right hk hC0
  have hexp : ((ps.length : Int) + 1) * C = (ps.length : Int) * C + C := by ring
  rw [hsum] at s0 s1
  have hup : st.dist bits u + a.c ≤ ((g.n_nodes : Int) - 1) * C := by omega
  refine ⟨ps, cs, hpath, ?_, hsum, hlen, by omega, by omega, hup, ?_⟩
  · refine List.nodup_cons.2 ⟨?_, hnd⟩
    intro hm
    rcases List.mem_cons.1 hm with e | hm
    · rw [e] at hnc; exact hnc hcl
    · exact hnc (closedPath_closed ps cs u hpath a.w hm)
  · exact cadd_exact bits _ _ (by omega) (by omega)

theorem pathInv_init (bits : Nat) (g : Digraph) (s : Nat) (prev : List Nat)
    (hs : s < g.n_nodes) : PathInv bits g s (closed_start g s prev) := by
  intro v hv
  rw [closed_start_stat g s prev hs] at hv
  have hvs : v = s := by
    by_contra hne
    simp [hne] at hv
  refine ⟨[], [], hvs, by simp, ?_, ?_⟩
  · simp [State.dist, closed_start_rawd, cneg_zero]
  · have : (closed_start g s prev).trace.length = 1 := rfl
    rw [this]
    simp only [List.length_nil]
    split <;> omega

theorem pathInv_pop {bits : Nat} {g : Digraph} {s : Nat} {st st1 : State} {u : Nat}
    (hp : PathInv bits g s st) (hpop : Popped st st1 u) : PathInv bits g s st1 := by
  obtain ⟨hlab, _, hstat, hrawd, hprv, htrace⟩ := hpop
  have hclosed : ∀ y, st.stat y = Label.CLOSED → st1.stat y = Label.CLOSED := by
    intro y hy
    rw [hstat y]
    split
    · rfl
    · exact hy
  intro v hv
  have hv0 : st.stat v ≠ Label.UNREACHED := by
    by_cases hvu : v = u
    · rw [hvu, hlab]; decide
    · rw [hstat v] at hv
      simpa [hvu] using hv
  obtain ⟨ps, cs, hpath, hnd, hsum, hlen⟩ := hp v hv0
  refine ⟨ps, cs, closedPath_mono hprv hclosed ps cs v hpath, hnd, ?_, ?_⟩
  · rw [dist_congr (hrawd v)]; exact hsum
  · rw [htrace, List.length_append, List.length_singleton]
    by_cases hvu : v = u
    · rw [hvu, hlab] at hlen
      simp only [reduceCtorEq, if_false] at hlen
      split <;> omega
    · rw [hstat v]
      simp only [hvu, if_false]
      omega

theorem pathInv_relax {bits : Nat} {g : Digraph} {s : Nat} {st st' : State} {C : Int}
    (htgt : g.TargetsInRange) (hC : g.CostsWithin C)
    (hb : ((g.n_nodes : Int) - 1) * C < Inf bits)
    (hw : Wf bits g s st) (hp : PathInv bits g s st) {u : Nat} {a : Arc}
    (hcl : st.stat u = Label.CLOSED) (ha : a ∈ g.arcsOf u)
    (hr : Relaxed bits u (st.dist bits u) a st st') : PathInv bits g s st' := by
  obtain ⟨htr, hcase⟩ := hr
  rcases hcase with ⟨heq, _⟩ | ⟨hnc, _, hstat', hrawd', hprv'⟩
  · rw [heq]; exact hp
  · obtain ⟨psu, csu, hpu, hndu, hsumu, hlenu, _, h0, _, hexact⟩ :=
      candidate_path hw hp hC hb hcl ha (targets_of_range htgt u a ha) hnc
    have hclosed : ∀ y, st.stat y = Label.CLOSED → st'.stat y = Label.CLOSED := by
      intro y hy
      rw [hstat' y]
      split
      · next e => rw [e] at hy; exact absurd hy hnc
      · exact hy
    have hprvne : ∀ y, y ≠ a.w → st'.prv y = st.prv y := by
      intro y hy
      rw [hprv' y]
      simp only [hy, if_false]
    have hua : u ≠ a.w := by
      intro e; rw [← e] at hnc; exact hnc hcl
    intro v hv
    by_cases hva : v = a.w
    · subst hva
      refine ⟨u :: psu, a.c :: csu, ?_, hndu, ?_, ?_⟩
      · simp only [ClosedPath]
        refine ⟨by rw [hprv' a.w]; simp, hclosed u hcl, ?_,
          closedPath_stable a.w hprvne hclosed hnc psu csu u hua hpu⟩
        cases a
        exact ha
      · unfold State.dist
        rw [hrawd' a.w]
        simp only [if_true, List.sum_cons]
        rw [cneg_cneg_cadd, hexact, hsumu]
        unfold State.dist
        omega
      · rw [hstat' a.w, htr]
        simp only [if_true, reduceCtorEq, if_false, List.length_cons]
        omega
    · rw [hstat' v] at hv
      simp only [hva, if_false] at hv
      obtain ⟨ps, cs, hpath, hnd, hsum, hlen⟩ := hp v hv
      refine ⟨ps, cs, closedPath_stable a.w hprvne hclosed hnc ps cs v hva hpath, hnd, ?_, ?_⟩
      · have : st'.dist bits v = st.dist bits v := by
          apply dist_congr
          rw [hrawd' v]
          simp only [hva, if_false]
        rw [this]; exact hsum
      · rw [hstat' v, htr]
        simp only [hva, if_false]
        exact hlen

/-- Every visited state is the initial one, or is consistent and has a simple
chain behind every recorded distance. -/
theorem visited_pathInv {R : TopRule} {bits : Nat} {g : Digraph} {s : Nat} {prev : List Nat}
    {st : State} {C : Int} (htgt : g.TargetsInRange) (hC : g.CostsWithin C)
    (hb : ((g.n_nodes : Int) - 1) * C < Inf bits) (hs : s < g.n_nodes)
    (hprev : g.n_nodes ≤ prev.length) (hv : Visited R bits g s prev st) :
    init_state g s prev = .ok st ∨ (Wf bits g s st ∧ PathInv bits g s st) := by
  obtain ⟨st0, h0, hsteps⟩ := hv
  induction hsteps with
  | refl => exact Or.inl h0
  | @tail b c _ hstep ih =>
    right
    rcases ih with hb0 | ⟨hwb, hpb⟩
    · cases hstep with
      | @pop u Du hne hp =>
        rw [(init_state_pop R bits hs hb0 hp).1]
        exact ⟨closed_start_wf bits g s prev hs hprev, pathInv_init bits g s prev hs⟩
      | @relax u a hcl ha hr =>
        rw [init_state_stat hb0 u] at hcl
        cases hcl
    · obtain ⟨hwc, hcase⟩ := step_wf htgt hwb hstep
      refine ⟨hwc, ?_⟩
      rcases hcase with ⟨u, hpop⟩ | ⟨u, a, hcl, ha, hr⟩
      · exact pathInv_pop hpb hpop
      · exact pathInv_relax htgt hC hb hwb hpb hcl ha hr

/-- The candidate distance computed in a visited state for an arc out of a closed
node into a node that is not closed is the cost of a simple path, and the
addition that computes it is exact. -/
theorem visited_candidate {R : TopRule} {bits : Nat} {g : Digraph} {s : Nat}
    {prev : List Nat} {C : Int}
    (htgt : g.TargetsInRange) (hC : g.CostsWithin C)
    (hb : ((g.n_nodes : Int) - 1) * C < Inf bits)
    (hs : s < g.n_nodes) (hprev : g.n_nodes ≤ prev.length)
    {st : State} (hv : Visited R bits g s prev st)
    {u : Nat} {a : Arc} (hcl : st.stat u = Label.CLOSED) (ha : a ∈ g.arcsOf u)
    (hnc : st.stat a.w ≠ Label.CLOSED) :
    ∃ ps cs, PathTo g s a.w ps cs ∧ (a.w :: ps).Nodup ∧
      cs.length ≤ g.n_nodes - 1 ∧ cs.sum = st.dist bits u + a.c ∧
      0 ≤ st.dist bits u + a.c ∧ st.dist bits u + a.c ≤ ((g.n_nodes : Int) - 1) * C ∧
      st.dist bits u + a.c < Inf bits ∧
      cadd bits (st.dist bits u) a.c = st.dist bits u + a.c := by
  rcases visited_pathInv htgt hC hb hs hprev hv with h0 | ⟨hw, hp⟩
  · rw [init_state_stat h0 u] at hcl
    cases hcl
  · obtain ⟨ps, cs, hpath, hnd, hsum, _, hlen, h0, hup, hexact⟩ :=
      candidate_path hw hp hC hb hcl ha (targets_of_range htgt u a ha) hnc
    have hl := closedPath_length ps cs u hpath
    refine ⟨u :: ps, a.c :: cs, ?_, hnd, ?_, ?_, h0, hup, by omega, hexact⟩
    · refine ⟨?_, closedPath_pathTo ps cs u hpath⟩
      cases a
      exact ha
    · simp only [List.length_cons]
      omega
    · simp only [List.sum_cons]
      omega

/-- The states recorded for the for loop follow one another by relaxation steps. -/
theorem relax_arcs_chain {R : TopRule} {bits : Nat} {g : Digraph} {s : Nat}
    (htgt : g.TargetsInRange) (u : Nat) :
    ∀ (arcs : List Arc) (st : State), Wf bits g s st → st.stat u = Label.CLOSED →
      (∀ a, a ∈ arcs → a ∈ g.arcsOf u) →
      ∃ st2, relax_arcs bits u (st.dist bits u) st arcs = .ok st2 ∧ Wf bits g s st2 ∧
        ∀ tail, List.Chain (Step R bits g) st2 tail →
          List.Chain (Step R bits g) st
            (relax_arcs_states bits u (st.dist bits u) st arcs ++ tail) := by
  intro arcs
  induction arcs with
  | nil =>
    intro st hw _ _
    exact ⟨st, rfl, hw, fun tail h => by simpa [relax_arcs_states] using h⟩
  | cons a rest ih =>
    intro st hw hcl harcs
    have ha : a ∈ g.arcsOf u := harcs a (List.mem_cons_self _ _)
    obtain ⟨st1, hra, hw1, hrel⟩ := relax_arc_ok hw u (st.dist bits u) a
      (targets_of_range htgt u a ha)
    obtain ⟨hcl1, hrawd1, _⟩ := relaxed_closed hrel u hcl
    have hd : st1.dist bits u = st.dist bits u := dist_congr hrawd1
    obtain ⟨st2, hr2, hw2, hch⟩ := ih st1 hw1 hcl1
      (fun b hb => harcs b (List.mem_cons_of_mem _ hb))
    rw [hd] at hr2 hch
    refine ⟨st2, by simp only [relax_arcs, hra, hr2], hw2, fun tail h => ?_⟩
    simp only [relax_arcs_states, hra, List.cons_append]
    exact List.Chain.cons (Step.relax hcl ha hra) (hch tail h)

/-- The states recorded for the while loop follow one another by steps. -/
theorem loop_chain {R : TopRule} {bits : Nat} {g : Digraph} {s : Nat} (t : Nat)
    (htgt : g.TargetsInRange) :
    ∀ (fuel : Nat) (st : State), Wf bits g s st →
      List.Chain (Step R bits g) st (loop_states R bits g t fuel st) := by
  intro fuel
  induction fuel with
  | zero => intro st _; rw [loop_states]; exact List.Chain.nil
  | succ fuel ih =>
    intro st hw
    rw [loop_states]
    cases he : st.digraph_priority_queue.empty with
    | true => simp only [if_true]; exact List.Chain.nil
    | false =>
      obtain ⟨st1, u, hpc, hpop, hw1, _⟩ := pop_close_ok R hw he
      have hstep : Step R bits g st st1 := Step.pop he hpc
      simp only [hpc, Bool.false_eq_true, if_false]
      by_cases hut : u = t
      · rw [if_pos hut]
        exact List.Chain.cons hstep List.Chain.nil
      · rw [if_neg hut]
        cases harcs : g.adjacency_list[u]? with
        | none => exact List.Chain.cons hstep List.Chain.nil
        | some arcs =>
          have hcl : st1.stat u = Label.CLOSED := by rw [hpop.2.2.1 u]; simp
          obtain ⟨st2, hr2, hw2, hch⟩ := @relax_arcs_chain R bits g s htgt u arcs st1 hw1 hcl
            (fun a ha => by rw [arcsOf_of_get harcs]; exact ha)
          simp only [hr2]
          exact List.Chain.cons hstep (hch _ (ih st2 hw2))

/-- The states recorded for a run follow one another by steps. -/
theorem run_chain (R : TopRule) (bits : Nat) (g : Digraph) (s t : Nat) (prev : List Nat)
    (fuel : Nat) (htgt : g.TargetsInRange) (hs : s < g.n_nodes)
    (hprev : g.n_nodes ≤ prev.length) :
    ∃ st0, init_state g s prev = .ok st0 ∧
      run_states R bits g s t prev fuel = st0 :: loop_states R bits g t fuel st0 ∧
      List.Chain (Step R bits g) st0 (loop_states R bits g t fuel st0) := by
  obtain ⟨st0, h0, hne, hpc⟩ := pop_close_init R bits g s prev hs
  have hw1 := closed_start_wf bits g s prev hs hprev
  refine ⟨st0, h0, by simp only [run_states, h0], ?_⟩
  cases fuel with
  | zero => rw [loop_states]; exact List.Chain.nil
  | succ fuel =>
    rw [loop_states]
    have hstep : Step R bits g st0 (closed_start g s prev) := Step.pop hne hpc
    simp only [hne, hpc, Bool.false_eq_true, if_false]
    by_cases hst : s = t
    · rw [if_pos hst]
      exact List.Chain.cons hstep List.Chain.nil
    · rw [if_neg hst]
      cases harcs : g.adjacency_list[s]? with
      | none => exact List.Chain.cons hstep List.Chain.nil
      | some arcs =>
        have hd0 : (closed_start g s prev).dist bits s = 0 := by
          simp [State.dist, closed_start_rawd, cneg_zero]
        have hcl : (closed_start g s prev).stat s = Label.CLOSED := by
          rw [closed_start_stat g s prev hs]; simp
        obtain ⟨st2, hr2, hw2, hch⟩ := @relax_arcs_chain R bits g s htgt s arcs _ hw1 hcl
          (fun a ha => by rw [arcsOf_of_get harcs]; exact ha)
        rw [hd0] at hr2 hch
        simp only [hr2]
        exact List.Chain.cons hstep (hch _ (loop_chain t htgt fuel st2 hw2))

theorem chain_reach {α : Type} {r : α → α → Prop} :
    ∀ (l : List α) (a : α), List.Chain r a l → ∀ b, b ∈ l → Relation.ReflTransGen r a b := by
  intro l
  induction l with
  | nil => intro a _ b hb; cases hb
  | cons x l ih =>
    intro a h b hb
    rw [List.chain_cons] at h
    rcases List.mem_cons.1 hb with e | hb
    · rw [e]; exact Relation.ReflTransGen.single h.1
    · exact Relation.ReflTransGen.head h.1 (ih x h.2 b hb)

theorem chain_pairwise_reach {α : Type} {r : α → α → Prop} :
    ∀ (l : List α) (a : α), List.Chain r a l →
      List.Pairwise (Relation.ReflTransGen r) (a :: l) := by
  intro l
  induction l with
  | nil => intro a _; exact List.pairwise_singleton _ _
  | cons x l ih =>
    intro a h
    have h' := h
    rw [List.chain_cons] at h'
    exact List.pairwise_cons.2 ⟨fun b hb => chain_reach _ a h b hb, ih x h'.2⟩

/-- Every state recorded for a run is a visited state. -/
theorem run_states_visited {R : TopRule} {bits : Nat} {g : Digraph} {s t : Nat}
    {prev : List Nat} {fuel : Nat} (htgt : g.TargetsInRange) (hs : s < g.n_nodes)
    (hprev : g.n_nodes ≤ prev.length) (st : State)
    (hst : st ∈ run_states R bits g s t prev fuel) : Visited R bits g s prev st := by
  obtain ⟨st0, h0, heq, hch⟩ := run_chain R bits g s t prev fuel htgt hs hprev
  rw [heq] at hst
  refine ⟨st0, h0, ?_⟩
  rcases List.mem_cons.1 hst with e | hm
  · rw [e]
  · exact chain_reach _ st0 hch st hm

/-- Of two states recorded for a run, the later is reached from the earlier by
steps. -/
theorem run_states_ordered (R : TopRule) (bits : Nat) (g : Digraph) (s t : Nat)
    (prev : List Nat) (fuel : Nat) (htgt : g.TargetsInRange) (hs : s < g.n_nodes)
    (hprev : g.n_nodes ≤ prev.length) :
    List.Pairwise (Relation.ReflTransGen (Step R bits g)) (run_states R bits g s t prev fuel) := by
  obtain ⟨st0, _, heq, hch⟩ := run_chain R bits g s t prev fuel htgt hs hprev
  rw [heq]
  exact chain_pairwise_reach _ st0 hch

theorem relax_arcs_states_last (bits : Nat) (u : Nat) (Du : Int) :
    ∀ (arcs : List Arc) (st st' : State), relax_arcs bits u Du st arcs = .ok st' →
      ∃ init, st :: relax_arcs_states bits u Du st arcs = init ++ [st'] := by
  intro arcs
  induction arcs with
  | nil =>
    intro st st' h
    simp only [relax_arcs] at h
    injection h with h
    exact ⟨[], by simp [relax_arcs_states, h]⟩
  | cons a rest ih =>
    intro st st' h
    cases hra : relax_arc bits u Du st a with
    | error e => simp [relax_arcs, hra] at h
    | ok st1 =>
      simp only [relax_arcs, hra] at h
      obtain ⟨init, hi⟩ := ih st1 st' h
      exact ⟨st :: init, by simp [relax_arcs_states, hra, hi]⟩

/-- The list recorded for the while loop ends with the state the loop returns. -/
theorem loop_states_last (R : TopRule) (bits : Nat) (g : Digraph) (t : Nat) :
    ∀ (fuel : Nat) (st fin : State), loop R bits g t fuel st = .ok fin →
      ∃ init, st :: loop_states R bits g t fuel st = init ++ [fin] := by
  intro fuel
  induction fuel with
  | zero =>
    intro st fin h
    rw [loop] at h
    split at h
    · injection h with h
      exact ⟨[], by simp [loop_states, h]⟩
    · cases h
  | succ fuel ih =>
    intro st fin h
    rw [loop] at h
    rw [loop_states]
    cases he : st.digraph_priority_queue.empty with
    | true =>
      simp only [he, if_true] at h
      injection h with h
      exact ⟨[], by simp [h]⟩
    | false =>
      simp only [he, Bool.false_eq_true, if_false] at h ⊢
      cases hpc : pop_close R bits st with
      | error e => simp [hpc] at h
      | ok r =>
        obtain ⟨st1, u, Du⟩ := r
        simp only [hpc] at h ⊢
        by_cases hut : u = t
        · rw [if_pos hut] at h
          rw [if_pos hut]
          injection h with h
          exact ⟨[st], by simp [h]⟩
        · rw [if_neg hut] at h
          rw [if_neg hut]
          cases harcs : g.adjacency_list[u]? with
          | none => simp [harcs] at h
          | some arcs =>
            simp only [harcs] at h ⊢
            cases hr : relax_arcs bits u Du st1 arcs with
            | error e => simp [hr] at h
            | ok st2 =>
              simp only [hr] at h ⊢
              obtain ⟨i1, h1⟩ := relax_arcs_states_last bits u Du arcs st1 st2 hr
              obtain ⟨i2, h2⟩ := ih st2 fin h
              refine ⟨st :: i1 ++ i2, ?_⟩
              have e1 : st1 :: (relax_arcs_states bits u Du st1 arcs ++
                  loop_states R bits g t fuel st2) =
                  (st1 :: relax_arcs_states bits u Du st1 arcs) ++
                    loop_states R bits g t fuel st2 := rfl
              rw [e1, h1]
              simp only [List.append_assoc, List.singleton_append, List.cons_append,
                List.nil_append, h2]

/-- The list recorded for a run ends with the state the run returns. -/
theorem run_states_last {R : TopRule} {bits : Nat} {g : Digraph} {s t : Nat}
    {prev : List Nat} {fuel : Nat} {fin : State}
    (h : run R bits g s t prev fuel = .ok fin) :
    ∃ init, run_states R bits g s t prev fuel = init ++ [fin] := by
  unfold run at h
  unfold run_states
  cases h0 : init_state g s prev with
  | error e => simp [h0] at h
  | ok st0 =>
    simp only [h0] at h ⊢
    exact loop_states_last R bits g t fuel st0 fin h

/-- C15: of two states a run passes through, the later one has no label lower in
the order `UNREACHED`, `LABELED`, `CLOSED` than the earlier one, and every node
that was `CLOSED` in the earlier one is still `CLOSED`, with the same recorded
distance, the same entry of `previous` and no further push. -/
theorem status_moves_forward (R : TopRule) (bits : Nat) (g : Digraph)
    (start_node end_node : Nat) (previous : List Nat) (fuel : Nat)
    (htgt : g.TargetsInRange) (hs : start_node < g.n_nodes)
    (hprev : g.n_nodes ≤ previous.length) :
    (run_states R bits g start_node end_node previous fuel).Pairwise (Forward bits) := by
  have hord := run_states_ordered R bits g start_node end_node previous fuel htgt hs hprev
  refine List.Pairwise.imp_of_mem ?_ hord
  intro st st' hm _ hsteps
  exact visited_forward htgt hs hprev (run_states_visited htgt hs hprev st hm) hsteps

/-- Witness for C15: the four-node example graph, from node 0 to node 3; the run
passes through ten states. -/
theorem status_moves_forward_witness :
    (run_states firstMaxRule 31 scenarioGraph 0 3 [7, 7, 7, 7] 4).length = 10 ∧
    (run_states firstMaxRule 31 scenarioGraph 0 3 [7, 7, 7, 7] 4).Pairwise (Forward 31) :=
  ⟨by rfl, status_moves_forward firstMaxRule 31 scenarioGraph 0 3 [7, 7, 7, 7] 4
    (by decide) (by decide) (by decide)⟩

/-- C18: on a graph whose arc costs lie between `0` and `C`, with
`(n_nodes - 1) * C < Inf`, every candidate distance `Du + Duv` that a run computes
(in a state it passes through, for an arc out of a closed node `u` into a node
that is not closed) is the cost of a simple path from the start node with at most
`n_nodes - 1` arcs, lies between `0` and `(n_nodes - 1) * C`, is below `Inf`, and
the addition in `cost_t` does not wrap around. -/
theorem candidate_distance_is_simple_path_cost (R : TopRule) (bits : Nat) (g : Digraph)
    (start_node end_node : Nat) (previous : List Nat) (fuel : Nat) (C : Int)
    (htgt : g.TargetsInRange) (hC : g.CostsWithin C)
    (hb : ((g.n_nodes : Int) - 1) * C < Inf bits)
    (hs : start_node < g.n_nodes) (hprev : g.n_nodes ≤ previous.length) :
    ∀ st, st ∈ run_states R bits g start_node end_node previous fuel →
      ∀ (u : Nat) (a : Arc), st.stat u = Label.CLOSED → a ∈ g.arcsOf u →
        st.stat a.w ≠ Label.CLOSED →
        ∃ ps cs, PathTo g start_node a.w ps cs ∧ (a.w :: ps).Nodup ∧
          cs.length ≤ g.n_nodes - 1 ∧ cs.sum = st.dist bits u + a.c ∧
          0 ≤ st.dist bits u + a.c ∧
          st.dist bits u + a.c ≤ ((g.n_nodes : Int) - 1) * C ∧
          st.dist bits u + a.c < Inf bits ∧
          cadd bits (st.dist bits u) a.c = st.dist bits u + a.c := by
  intro st hm u a hcl ha hnc
  exact visited_candidate htgt hC hb hs hprev (run_states_visited htgt hs hprev st hm) hcl ha hnc

/-- Witness for C18: the four-node example graph with `C = 5`, from node 0 to
node 3. -/
theorem candidate_distance_is_simple_path_cost_witness :
    scenarioGraph.CostsWithin 5 ∧
    (run_states firstMaxRule 31 scenarioGraph 0 3 [7, 7, 7, 7] 4).length = 10 ∧
    ∀ st, st ∈ run_states firstMaxRule 31 scenarioGraph 0 3 [7, 7, 7, 7] 4 →
      ∀ (u : Nat) (a : Arc), st.stat u = Label.CLOSED → a ∈ scenarioGraph.arcsOf u →
        st.stat a.w ≠ Label.CLOSED →
        ∃ ps cs, PathTo scenarioGraph 0 a.w ps cs ∧ (a.w :: ps).Nodup ∧
          cs.length ≤ scenarioGraph.n_nodes - 1 ∧ cs.sum = st.dist 31 u + a.c ∧
          0 ≤ st.dist 31 u + a.c ∧
          st.dist 31 u + a.c ≤ ((scenarioGraph.n_nodes : Int) - 1) * 5 ∧
          st.dist 31 u + a.c < Inf 31 ∧
          cadd 31 (st.dist 31 u) a.c = st.dist 31 u + a.c :=
  ⟨by decide, by rfl,
    candidate_distance_is_simple_path_cost firstMaxRule 31 scenarioGraph 0 3 [7, 7, 7, 7] 4 5
      (by decide) (by decide) (by decide) (by decide) (by decide)⟩

theorem closedPath_prevChain {g : Digraph} {st : State} {s : Nat} :
    ∀ (ps : List Nat) (cs : List Int) (v : Nat), ClosedPath g st s v ps cs →
      PrevChain g st.previous s v cs := by
  intro ps
  induction ps with
  | nil =>
    intro cs v h
    cases cs with
    | nil => exact h
    | cons c cs => simp [ClosedPath] at h
  | cons p ps ih =>
    intro cs v h
    cases cs with
    | nil => simp [ClosedPath] at h
    | cons c cs =>
      simp only [ClosedPath] at h
      obtain ⟨h1, _, h3, h4⟩ := h
      have hp : (st.previous[v]?).getD 0 = p := h1
      simp only [PrevChain]
      rw [hp]
      exact ⟨h3, ih cs p h4⟩

theorem chainInv_init (g : Digraph) (s : Nat) (prev : List Nat) (hs : s < g.n_nodes) :
    ChainInv g s (closed_start g s prev) := by
  intro v hv
  rw [closed_start_stat g s prev hs] at hv
  have hvs : v = s := by
    by_contra hne
    simp [hne] at hv
  refine ⟨[], [], hvs, ?_⟩
  have : (closed_start g s prev).trace.length = 1 := rfl
  rw [this]
  simp only [List.length_nil]
  split <;> omega

theorem chainInv_pop {g : Digraph} {s : Nat} {st st1 : State} {u : Nat}
    (hp : ChainInv g s st) (hpop : Popped st st1 u) : ChainInv g s st1 := by
  obtain ⟨hlab, _, hstat, _, hprv, htrace⟩ := hpop
  have hclosed : ∀ y, st.stat y = Label.CLOSED → st1.stat y = Label.CLOSED := by
    intro y hy
    rw [hstat y]
    split
    · rfl
    · exact hy
  intro v hv
  have hv0 : st.stat v ≠ Label.UNREACHED := by
    by_cases hvu : v = u
    · rw [hvu, hlab]; decide
    · rw [hstat v] at hv
      simpa [hvu] using hv
  obtain ⟨ps, cs, hpath, hlen⟩ := hp v hv0
  refine ⟨ps, cs, closedPath_mono hprv hclosed ps cs v hpath, ?_⟩
  rw [htrace, List.length_append, List.length_singleton]
  by_cases hvu : v = u
  · rw [hvu, hlab] at hlen
    simp only [reduceCtorEq, if_false] at hlen
    split <;> omega
  · rw [hstat v]
    simp only [hvu, if_false]
    omega

theorem chainInv_relax {bits : Nat} {g : Digraph} {s : Nat} {st st' : State}
    (hp : ChainInv g s st) {u : Nat} {Du : Int} {a : Arc}
    (hcl : st.stat u = Label.CLOSED) (ha : a ∈ g.arcsOf u)
    (hr : Relaxed bits u Du a st st') : ChainInv g s st' := by
  obtain ⟨htr, hcase⟩ := hr
  rcases hcase with ⟨heq, _⟩ | ⟨hnc, _, hstat', _, hprv'⟩
  · rw [heq]; exact hp
  · obtain ⟨psu, csu, hpu, hlenu⟩ := hp u (by rw [hcl]; decide)
    simp only [hcl, if_true] at hlenu
    have hclosed : ∀ y, st.stat y = Label.CLOSED → st'.stat y = Label.CLOSED := by
      intro y hy
      rw [hstat' y]
      split
      · next e => rw [e] at hy; exact absurd hy hnc
      · exact hy
    have hprvne : ∀ y, y ≠ a.w → st'.prv y = st.prv y := by
      intro y hy
      rw [hprv' y]
      simp only [hy, if_false]
    have hua : u ≠ a.w := by
      intro e; rw [← e] at hnc; exact hnc hcl
    intro v hv
    by_cases hva : v = a.w
    · subst hva
      refine ⟨u :: psu, a.c :: csu, ?_, ?_⟩
      · simp only [ClosedPath]
        refine ⟨by rw [hprv' a.w]; simp, hclosed u hcl, ?_,
          closedPath_stable a.w hprvne hclosed hnc psu csu u hua hpu⟩
        cases a
        exact ha
      · rw [hstat' a.w, htr]
        simp only [if_true, reduceCtorEq, if_false, List.length_cons]
        omega
    · rw [hstat' v] at hv
      simp only [hva, if_false] at hv
      obtain ⟨ps, cs, hpath, hlen⟩ := hp v hv
      refine ⟨ps, cs, closedPath_stable a.w hprvne hclosed hnc ps cs v hva hpath, ?_⟩
      rw [hstat' v, htr]
      simp only [hva, if_false]
      exact hlen

theorem relaxed_ne_unreached {bits : Nat} {u : Nat} {Du : Int} {a : Arc} {st st' : State}
    (hr : Relaxed bits u Du a st st') (v : Nat) (hv : st.stat v ≠ Label.UNREACHED) :
    st'.stat v ≠ Label.UNREACHED := by
  have := relaxed_rank hr v
  intro h
  rw [h] at this
  cases hl : st.stat v with
  | UNREACHED => exact hv hl
  | LABELED => rw [hl] at this; simp [Label.rank] at this
  | CLOSED => rw [hl] at this; simp [Label.rank] at this

theorem relaxed_target {bits : Nat} {u : Nat} {Du : Int} {a : Arc} {st st' : State}
    (hr : Relaxed bits u Du a st st') : st'.stat a.w ≠ Label.UNREACHED := by
  rcases hr.2 with ⟨he, hc⟩ | ⟨_, _, hstat, _, _⟩
  · rw [he]
    rcases hc with h | ⟨h, _⟩ <;> rw [h] <;> decide
  · rw [hstat a.w]
    simp

theorem relaxed_closed_iff {bits : Nat} {u : Nat} {Du : Int} {a : Arc} {st st' : State}
    (hr : Relaxed bits u Du a st st') (v : Nat) :
    st'.stat v = Label.CLOSED ↔ st.stat v = Label.CLOSED := by
  rcases hr.2 with ⟨he, _⟩ | ⟨hnc, _, hstat, _, _⟩
  · rw [he]
  · rw [hstat v]
    by_cases hva : v = a.w
    · simp only [hva, if_true]
      constructor
      · intro h; cases h
      · intro h; exact absurd h hnc
    · simp only [hva, if_false]

/-- Without any hypothesis on the costs: the run returns, a reachable end node
is closed when the loop is left, and every labeled node has its predecessor
chain. -/
theorem run_chain_exit (R : TopRule) (bits : Nat) (g : Digraph) (s t : Nat) (prev : List Nat)
    (fuel : Nat) (hsize : g.WellSized) (htgt : g.TargetsInRange)
    (hs : s < g.n_nodes) (hprev : g.n_nodes ≤ prev.length) (hfuel : g.n_nodes ≤ fuel) :
    ∃ fin, run R bits g s t prev fuel = .ok fin ∧ Wf bits g s fin ∧
      (ChainInv g s fin ∧ ((∃ d, Walk g s t d) → fin.stat t = Label.CLOSED)) := by
  have hcs : (closed_start g s prev).stat s = Label.CLOSED := by
    rw [closed_start_stat g s prev hs]; simp
  apply @run_rule R bits g s t prev hs hprev hsize (targets_of_range htgt)
    (fun st => ChainInv g s st ∧ ∀ x, st.stat x = Label.CLOSED → ArcsLabeled g st x)
    (fun u _ pre st => ChainInv g s st ∧ st.stat u = Label.CLOSED ∧
      (∀ x, x ≠ u → st.stat x = Label.CLOSED → ArcsLabeled g st x) ∧
      (∀ a, a ∈ pre → st.stat a.w ≠ Label.UNREACHED))
    (fun st => ChainInv g s st ∧ ((∃ d, Walk g s t d) → st.stat t = Label.CLOSED))
  · intro hst
    exact ⟨chainInv_init g s prev hs, fun _ => by rw [← hst]; exact hcs⟩
  · intro _
    refine ⟨chainInv_init g s prev hs, hcs, ?_, ?_⟩
    · intro x hx hc
      rw [closed_start_stat g s prev hs] at hc
      simp [hx] at hc
    · intro a ha; cases ha
  · intro st hw hi hno
    refine ⟨hi.1, fun ⟨d, hwalk⟩ => ?_⟩
    have hall : ∀ (v : Nat) (d : Int), Walk g s v d → st.stat v = Label.CLOSED := by
      intro v d h
      induction h with
      | nil => exact stat_eq_of_get hw.start_closed
      | snoc a _ ha ih =>
        have h1 := hi.2 _ ih a ha
        have h2 := hno a.w
        cases hl : st.stat a.w with
        | UNREACHED => exact absurd hl h1
        | LABELED => exact absurd hl h2
        | CLOSED => rfl
    exact hall t d hwalk
  · intro st st1 _ hi hp _
    refine ⟨chainInv_pop hi.1 hp, fun _ => ?_⟩
    rw [hp.2.2.1 t]; simp
  · intro st st1 u _ hi hp _ _
    refine ⟨chainInv_pop hi.1 hp, by rw [hp.2.2.1 u]; simp, ?_, ?_⟩
    · intro x hxu hx b hb
      rw [hp.2.2.1 x] at hx
      simp only [hxu, if_false] at hx
      have h1 := hi.2 x hx b hb
      rw [hp.2.2.1 b.w]
      split
      · decide
      · exact h1
    · intro a ha; cases ha
  · intro u Du pre a post st st' harcs _ hm hr _
    obtain ⟨hc, hcu, hrel, hpre⟩ := hm
    have ha : a ∈ g.arcsOf u := by rw [harcs]; simp
    refine ⟨chainInv_relax hc hcu ha hr, (relaxed_closed_iff hr u).2 hcu, ?_, ?_⟩
    · intro x hxu hx b hb
      exact relaxed_ne_unreached hr b.w (hrel x hxu ((relaxed_closed_iff hr x).1 hx) b hb)
    · intro b hb
      rcases List.mem_append.1 hb with hb | hb
      · exact relaxed_ne_unreached hr b.w (hpre b hb)
      · simp at hb; subst hb
        exact relaxed_target hr
  · intro u Du st _ hm
    obtain ⟨hc, hcu, hrel, hpre⟩ := hm
    refine ⟨hc, ?_⟩
    intro x hx
    by_cases hxu : x = u
    · subst hxu
      exact hpre
    · exact hrel x hxu hx
  · exact hfuel

/-- C2, as amended: on a graph with non-negative costs, for a reachable end node
different from the start node, `shortest_path` returns and the chain
`end_node, previous[end_node], ...` reaches the start node in at most
`n_nodes - 1` steps, each step being an arc of the graph; when the total of the
arc costs does not exceed `Inf`, the costs of these arcs sum to the returned
cost. -/
theorem shortest_path_previous_chain (R : TopRule) (bits : Nat) (g : Digraph)
    (start_node end_node : Nat) (previous : List Nat) (fuel : Nat)
    (hsize : g.WellSized) (htgt : g.TargetsInRange) (hnn : g.NonNegative)
    (hs : start_node < g.n_nodes) (_ht : end_node < g.n_nodes)
    (hprev : g.n_nodes ≤ previous.length) (hfuel : g.n_nodes ≤ fuel)
    (hreach : ∃ d, Walk g start_node end_node d) (_hne : end_node ≠ start_node) :
    ∃ cost previous', shortest_path R bits g start_node end_node previous fuel =
        .ok (cost, previous') ∧
      ∃ cs : List Int, cs.length ≤ g.n_nodes - 1 ∧
        PrevChain g previous' start_node end_node cs ∧
        (g.totalCost ≤ Inf bits → cs.sum = cost) := by
  obtain ⟨fin, hrun, hw, hch, hcl⟩ :=
    run_chain_exit R bits g start_node end_node previous fuel hsize htgt hs hprev hfuel
  have hclosed := hcl hreach
  have hne' : fin.stat end_node ≠ Label.UNREACHED := by rw [hclosed]; decide
  have hsp : shortest_path R bits g start_node end_node previous fuel =
      .ok (fin.dist bits end_node, fin.previous) := by
    simp [shortest_path, hrun, hw.distance_ok end_node hne']
  have htl := hw.trace_le
  refine ⟨fin.dist bits end_node, fin.previous, hsp, ?_⟩
  by_cases hsum : g.totalCost ≤ Inf bits
  · obtain ⟨fin', hrun', _, hc, _⟩ :=
      run_exit R bits g start_node end_node previous fuel hsize htgt hnn hsum hs hprev hfuel
    rw [hrun] at hrun'
    injection hrun' with hrun'
    subst hrun'
    obtain ⟨cs, hchain, hsum', hlen⟩ := hc.chain end_node hne'
    refine ⟨cs, ?_, closedChain_prevChain cs end_node hchain, fun _ => hsum'⟩
    rw [hclosed] at hlen
    simp at hlen
    omega
  · obtain ⟨ps, cs, hpath, hlen⟩ := hch end_node hne'
    have hl := closedPath_length ps cs end_node hpath
    refine ⟨cs, ?_, closedPath_prevChain ps cs end_node hpath, fun h => absurd h hsum⟩
    rw [hclosed] at hlen
    simp at hlen
    omega

/-- Witness for C2 as amended: the four-node example graph, from node 0 to node 3. -/
theorem shortest_path_previous_chain_witness :
    ∃ cost previous', shortest_path firstMaxRule 31 scenarioGraph 0 3 [0, 0, 0, 0] 4 =
        .ok (cost, previous') ∧
      ∃ cs : List Int, cs.length ≤ scenarioGraph.n_nodes - 1 ∧
        PrevChain scenarioGraph previous' 0 3 cs ∧
        (scenarioGraph.totalCost ≤ Inf 31 → cs.sum = cost) :=
  shortest_path_previous_chain firstMaxRule 31 scenarioGraph 0 3 [0, 0, 0, 0] 4
    (by decide) (by decide) (by decide) (by decide) (by decide) (by decide) (by decide)
    ⟨_, Walk.snoc (Arc.mk 3 1) (Walk.snoc (Arc.mk 1 2)
      (Walk.snoc (Arc.mk 2 1) Walk.nil (by decide)) (by decide)) (by decide)⟩
    (by decide)

end Dijkstra
